import Mathlib

/-!
Verification of the labeled-graph module (`Grafos.py`).

The graph keeps two synchronized representations: a dense adjacency matrix
indexed by a label-to-index dictionary, and a per-label adjacency list.
Python dictionaries are embedded as insertion-ordered association lists
(`String` keys), Python lists as Lean lists, matrix weights as `Nat`
(the application only ever stores non-negative integer distances, and the
Dijkstra routine requires non-negative weights), and `float('inf')`
distances as `Option Nat` with `none` standing for infinity.
-/

namespace Grafos

/-- Dictionary lookup: value of the first entry with the given key,
mirroring Python `d[k]` / `d.get(k)`. -/
def alookup {α : Type} : List (String × α) → String → Option α
  | [], _ => none
  | (k, v) :: rest, key => if k = key then some v else alookup rest key

/-- Dictionary membership, mirroring Python `k in d`. -/
def amem {α : Type} (d : List (String × α)) (key : String) : Bool :=
  (alookup d key).isSome

/-- Dictionary assignment `d[k] = v`: update the entry in place if the key is
present, otherwise append a new entry (Python dicts preserve insertion order). -/
def aset {α : Type} : List (String × α) → String → α → List (String × α)
  | [], key, v => [(key, v)]
  | (k, v') :: rest, key, v =>
    if k = key then (key, v) :: rest else (k, v') :: aset rest key v

/-- Dictionary deletion `del d[k]`: drop the entry with the given key. -/
def adel {α : Type} : List (String × α) → String → List (String × α)
  | [], _ => []
  | (k, v) :: rest, key => if k = key then adel rest key else (k, v) :: adel rest key

/-- In-place modification of the value stored at a key; no change when the key
is absent.  Mirrors Python code of the shape `d[k].append(...)` or
`d[k][i] = ...`, which rewrites the stored value of an existing key. -/
def amodify {α : Type} : List (String × α) → String → (α → α) → List (String × α)
  | [], _, _ => []
  | (k, v) :: rest, key, f =>
    if k = key then (k, f v) :: rest else (k, v) :: amodify rest key f

/-- Matrix cell read `m[i][j]` (0 when out of range; in-range in every
well-formed state). -/
def matrixGet (m : List (List Nat)) (i j : Nat) : Nat :=
  (((m.get? i).getD []).get? j).getD 0

/-- Matrix cell write `m[i][j] = w` (no-op when out of range; in-range in every
well-formed state). -/
def matrixSet (m : List (List Nat)) (i j w : Nat) : List (List Nat) :=
  match m.get? i with
  | some row => m.set i (row.set j w)
  | none => m

/-- The graph state: label-to-index dictionary `_nodes`, index-to-label list
`_nodes_list`, adjacency matrix, adjacency list (label to list of
(neighbor, weight) pairs), directedness flag and node counter. -/
structure Graph where
  nodes : List (String × Nat)
  nodes_list : List String
  adjacency_matrix : List (List Nat)
  adjacency_list : List (String × List (String × Nat))
  directed : Bool
  node_count : Nat
deriving DecidableEq, Repr

/-- `Graph(directed)`: the freshly constructed empty graph. -/
def Graph.empty (directed : Bool) : Graph :=
  ⟨[], [], [], [], directed, 0⟩

/-- `add_node`: no-op returning `False` when the label exists; otherwise
assign the next index, append the label, grow the matrix by a zero row and
column (`_expand_adjacency_matrix`) and create an empty neighbor list. -/
def Graph.add_node (g : Graph) (node_name : String) : Bool × Graph :=
  if amem g.nodes node_name then (false, g)
  else
    let count := g.node_count + 1
    (true,
      { nodes := aset g.nodes node_name g.node_count
        nodes_list := g.nodes_list ++ [node_name]
        adjacency_matrix :=
          (g.adjacency_matrix.map (fun row => row ++ [0])) ++ [List.replicate count 0]
        adjacency_list := aset g.adjacency_list node_name []
        directed := g.directed
        node_count := count })

/-- `_remove_from_dictionaries`: delete the label from `_nodes`, pop its
position from `_nodes_list`, and re-enumerate the remaining labels. -/
def removeFromDictionaries (nodes : List (String × Nat)) (nodes_list : List String)
    (node_name : String) (node_index : Nat) :
    List (String × Nat) × List String :=
  let nodes_list' := nodes_list.eraseIdx node_index
  (nodes_list'.enum.foldl (fun d p => aset d p.2 p.1) (adel nodes node_name), nodes_list')

/-- `remove_node`: `False` when the label is absent; otherwise remove it from
the dictionaries, drop the matrix row and column at its index, and purge
its key and every list entry naming it from the adjacency list. -/
def Graph.remove_node (g : Graph) (node_name : String) : Bool × Graph :=
  match alookup g.nodes node_name with
  | none => (false, g)
  | some node_index =>
    let (nodes', nodes_list') :=
      removeFromDictionaries g.nodes g.nodes_list node_name node_index
    (true,
      { nodes := nodes'
        nodes_list := nodes_list'
        adjacency_matrix :=
          (g.adjacency_matrix.eraseIdx node_index).map (fun row => row.eraseIdx node_index)
        adjacency_list :=
          (adel g.adjacency_list node_name).map
            (fun p => (p.1, p.2.filter (fun nb => nb.1 != node_name)))
        directed := g.directed
        node_count := g.node_count - 1 })

/-- `_validate_nodes`: both labels are keys of `_nodes`. -/
def Graph.validate_nodes (g : Graph) (node1 node2 : String) : Bool :=
  amem g.nodes node1 && amem g.nodes node2

/-- `_has_edge_in_list`: some entry of `node1`'s neighbor list names `node2`. -/
def hasEdgeInList (adj : List (String × List (String × Nat))) (node1 node2 : String) : Bool :=
  ((alookup adj node1).getD []).any (fun nb => nb.1 == node2)

/-- `_update_adjacency_matrix`: write the weight at `[idx1][idx2]`, and at
`[idx2][idx1]` as well when the graph is undirected. -/
def matrixUpdate (m : List (List Nat)) (directed : Bool) (idx1 idx2 w : Nat) :
    List (List Nat) :=
  let m1 := matrixSet m idx1 idx2 w
  if directed then m1 else matrixSet m1 idx2 idx1 w

/-- `_update_adjacency_list`: append `(node2, weight)` to `node1`'s list unless
an entry naming `node2` is already present (first write wins), then the
mirror entry for undirected graphs, checked against the updated state. -/
def updateAdjacencyList (adj : List (String × List (String × Nat)))
    (directed : Bool) (node1 node2 : String) (weight : Nat) :
    List (String × List (String × Nat)) :=
  let adj1 :=
    if hasEdgeInList adj node1 node2 then adj
    else amodify adj node1 (fun l => l ++ [(node2, weight)])
  if !directed && !hasEdgeInList adj1 node2 node1 then
    amodify adj1 node2 (fun l => l ++ [(node1, weight)])
  else adj1

/-- `add_edge`: `False` unless both endpoints exist; otherwise update the
matrix cell(s) and the adjacency list(s). -/
def Graph.add_edge (g : Graph) (node1 node2 : String) (weight : Nat) : Bool × Graph :=
  if g.validate_nodes node1 node2 then
    (true,
      { g with
        adjacency_matrix :=
          matrixUpdate g.adjacency_matrix g.directed
            ((alookup g.nodes node1).getD 0) ((alookup g.nodes node2).getD 0) weight
        adjacency_list := updateAdjacencyList g.adjacency_list g.directed node1 node2 weight })
  else (false, g)

/-- `_remove_from_adjacency_list_edge`: filter the edge out of `node1`'s list,
and out of `node2`'s list when undirected. -/
def removeFromAdjacencyListEdge (adj : List (String × List (String × Nat)))
    (directed : Bool) (node1 node2 : String) :
    List (String × List (String × Nat)) :=
  let adj1 := amodify adj node1 (fun l => l.filter (fun nb => nb.1 != node2))
  if !directed then amodify adj1 node2 (fun l => l.filter (fun nb => nb.1 != node1))
  else adj1

/-- `remove_edge`: `False` unless both endpoints exist; otherwise zero the
matrix cell(s) and filter the list entries. -/
def Graph.remove_edge (g : Graph) (node1 node2 : String) : Bool × Graph :=
  if g.validate_nodes node1 node2 then
    (true,
      { g with
        adjacency_matrix :=
          matrixUpdate g.adjacency_matrix g.directed
            ((alookup g.nodes node1).getD 0) ((alookup g.nodes node2).getD 0) 0
        adjacency_list := removeFromAdjacencyListEdge g.adjacency_list g.directed node1 node2 })
  else (false, g)

/-- `get_neighbors`: copy of the stored neighbor list, `[]` for unknown labels. -/
def Graph.get_neighbors (g : Graph) (node_name : String) : List (String × Nat) :=
  (alookup g.adjacency_list node_name).getD []

/-- `has_edge`: both labels exist and the matrix cell is nonzero. -/
def Graph.has_edge (g : Graph) (node1 node2 : String) : Bool :=
  g.validate_nodes node1 node2 &&
    (matrixGet g.adjacency_matrix
      ((alookup g.nodes node1).getD 0) ((alookup g.nodes node2).getD 0) != 0)

/-- `get_edge_weight`: `None` unless both labels exist, otherwise the matrix
cell (which is 0 when no edge is stored). -/
def Graph.get_edge_weight (g : Graph) (node1 node2 : String) : Option Nat :=
  if g.validate_nodes node1 node2 then
    some (matrixGet g.adjacency_matrix
      ((alookup g.nodes node1).getD 0) ((alookup g.nodes node2).getD 0))
  else none

/-- `_update_adjacency_list_weight`: rewrite the first entry of `node1`'s list
naming `node2` to carry the new weight; nothing happens when no entry matches. -/
def updateEntryWeight : List (String × Nat) → String → Nat → List (String × Nat)
  | [], _, _ => []
  | (n, w0) :: rest, node2, w =>
    if n = node2 then (node2, w) :: rest else (n, w0) :: updateEntryWeight rest node2 w

/-- `set_edge_weight`: `False` unless both endpoints exist; otherwise write the
matrix cell(s) and rewrite the matching list entry/entries in place. -/
def Graph.set_edge_weight (g : Graph) (node1 node2 : String) (weight : Nat) :
    Bool × Graph :=
  if g.validate_nodes node1 node2 then
    let adj1 := amodify g.adjacency_list node1 (fun l => updateEntryWeight l node2 weight)
    let adj2 :=
      if !g.directed then amodify adj1 node2 (fun l => updateEntryWeight l node1 weight)
      else adj1
    (true,
      { g with
        adjacency_matrix :=
          matrixUpdate g.adjacency_matrix g.directed
            ((alookup g.nodes node1).getD 0) ((alookup g.nodes node2).getD 0) weight
        adjacency_list := adj2 })
  else (false, g)

/-- Well-formedness of a graph state, as established by the mutation API:
`_nodes` is exactly the enumeration of `_nodes_list`, labels are distinct,
the matrix is `node_count × node_count`, the adjacency dictionary has exactly
the node labels as keys (in the same insertion order), and every stored
neighbor entry names a node, without duplicate neighbors in one list. -/
def WfGraph (g : Graph) : Prop :=
  g.nodes = g.nodes_list.enum.map (fun p => (p.2, p.1)) ∧
  g.nodes_list.Nodup ∧
  g.node_count = g.nodes_list.length ∧
  g.adjacency_matrix.length = g.node_count ∧
  (∀ row ∈ g.adjacency_matrix, row.length = g.node_count) ∧
  g.adjacency_list.map Prod.fst = g.nodes_list ∧
  (∀ p ∈ g.adjacency_list, (∀ q ∈ p.2, q.1 ∈ g.nodes_list) ∧ (p.2.map Prod.fst).Nodup)

instance (g : Graph) : Decidable (WfGraph g) := by
  unfold WfGraph; infer_instance

/-! ## Search algorithms

The Python traversals take `target_node=None` as default and test it with
`if target_node:`, so the empty string is treated exactly like an absent
target.  `truthyTarget` captures this Python truthiness. -/

/-- Python truthiness of the optional target label: `None` and `""` are falsy. -/
def truthyTarget : Option String → Bool
  | none => false
  | some s => s != ""

/-- The combined test `if target_node and current == target_node`. -/
def isTarget (target : Option String) (current : String) : Bool :=
  truthyTarget target && (target == some current)

/-- Result of `bfs`/`dfs`/`dfs_recursive`: a reconstructed path, the full
visitation order, or the absent result (`None`). -/
inductive SearchResult where
  | path (p : List String)
  | order (visit_order : List String)
  | absent
deriving DecidableEq, Repr

/-- Result of `dijkstra`: the distance dictionary, a reconstructed path, or
the absent result (`None`). -/
inductive DijkResult where
  | distMap (distances : List (String × Option Nat))
  | path (p : List String)
  | absent
deriving DecidableEq, Repr

/-- The parent-pointer walk `while current is not None: path.append(current);
current = parent[current]`, fuel-bounded (the fuel suffices in every state the
algorithms build, where parent chains are acyclic). -/
def walkParent : Nat → List (String × Option String) → String → List String
  | 0, _, _ => []
  | fuel + 1, parent, current =>
    current ::
      (match alookup parent current with
       | some (some nxt) => walkParent fuel parent nxt
       | _ => [])

/-- `self._adjacency_list.get(current, [])`. -/
def adjacencyGet (g : Graph) (n : String) : List (String × Nat) :=
  (alookup g.adjacency_list n).getD []

/-- All neighbor labels stored anywhere in the adjacency list. -/
def neighborLabels (g : Graph) : List String :=
  g.adjacency_list.foldr (fun p acc => p.2.map Prod.fst ++ acc) []

/-- Every label the traversals can ever reach: node labels (from either
dictionary), adjacency keys, and stored neighbor labels.  Used as the finite
universe for the termination measures. -/
def labelUniverse (g : Graph) : Finset String :=
  (g.nodes.map Prod.fst).toFinset ∪ g.nodes_list.toFinset ∪
    (g.adjacency_list.map Prod.fst).toFinset ∪ (neighborLabels g).toFinset

theorem alookup_eq_some_mem {α : Type} {d : List (String × α)} {k : String} {v : α}
    (h : alookup d k = some v) : (k, v) ∈ d := by
  induction d with
  | nil => simp [alookup] at h
  | cons hd tl ih =>
    obtain ⟨k', v'⟩ := hd
    by_cases hk : k' = k
    · subst hk
      simp [alookup] at h
      simp [h]
    · simp [alookup, hk] at h
      exact List.mem_cons_of_mem _ (ih h)

theorem alookup_eq_none_of_not_mem_keys {α : Type} {d : List (String × α)} {k : String}
    (h : k ∉ d.map Prod.fst) : alookup d k = none := by
  induction d with
  | nil => rfl
  | cons hd tl ih =>
    have h1 : hd.1 ≠ k := fun he => h (by simp [he])
    have h2 : k ∉ tl.map Prod.fst := fun hm => h (by simp [hm])
    simp [alookup, h1, ih h2]

theorem mem_foldr_neighbor {adj : List (String × List (String × Nat))} {key : String}
    {l : List (String × Nat)} (hl : (key, l) ∈ adj) {q : String × Nat} (hq : q ∈ l) :
    q.1 ∈ adj.foldr (fun p acc => p.2.map Prod.fst ++ acc) [] := by
  induction adj with
  | nil => simp at hl
  | cons hd tl ih =>
    simp only [List.foldr_cons, List.mem_append]
    rcases List.mem_cons.mp hl with hl | hl
    · exact Or.inl (by rw [← hl]; exact List.mem_map_of_mem _ hq)
    · exact Or.inr (ih hl)

theorem mem_neighborLabels {g : Graph} {key : String} {l : List (String × Nat)}
    (hl : (key, l) ∈ g.adjacency_list) {q : String × Nat} (hq : q ∈ l) :
    q.1 ∈ neighborLabels g :=
  mem_foldr_neighbor hl hq

theorem mem_labelUniverse_of_adjacencyGet {g : Graph} {n : String} {q : String × Nat}
    (hq : q ∈ adjacencyGet g n) : q.1 ∈ labelUniverse g := by
  unfold adjacencyGet at hq
  cases hl : alookup g.adjacency_list n with
  | none => simp [hl] at hq
  | some l =>
    have hmem := mem_neighborLabels (alookup_eq_some_mem hl) (by simpa [hl] using hq)
    simp [labelUniverse, hmem]

theorem adjacencyGet_eq_nil_of_not_mem_universe {g : Graph} {n : String}
    (h : n ∉ labelUniverse g) : adjacencyGet g n = [] := by
  have hk : n ∉ g.adjacency_list.map Prod.fst := by
    intro hmem
    exact h (by simp [labelUniverse, hmem])
  simp [adjacencyGet, alookup_eq_none_of_not_mem_keys hk]

theorem mem_labelUniverse_of_amem {g : Graph} {n : String} (h : amem g.nodes n = true) :
    n ∈ labelUniverse g := by
  unfold amem at h
  cases hl : alookup g.nodes n with
  | none => rw [hl] at h; simp at h
  | some i =>
    have : (n, i) ∈ g.nodes := alookup_eq_some_mem hl
    have : n ∈ g.nodes.map Prod.fst := List.mem_map_of_mem _ this
    simp [labelUniverse, this]

/-- Inner loop of `bfs`: enqueue the not-yet-visited neighbors of `current`,
marking them visited and recording their parent pointer. -/
def bfsExpand (current : String) :
    List (String × Nat) → List String → Finset String → List (String × Option String) →
    List String × Finset String × List (String × Option String)
  | [], queue, visited, parent => (queue, visited, parent)
  | nb :: rest, queue, visited, parent =>
    if nb.1 ∈ visited then bfsExpand current rest queue visited parent
    else
      bfsExpand current rest (queue ++ [nb.1]) (insert nb.1 visited)
        (aset parent nb.1 (some current))

theorem bfsExpand_visited_mono (current : String) (nbrs : List (String × Nat))
    (queue : List String) (visited : Finset String) (parent : List (String × Option String)) :
    visited ⊆ (bfsExpand current nbrs queue visited parent).2.1 := by
  induction nbrs generalizing queue visited parent with
  | nil => simp [bfsExpand]
  | cons nb rest ih =>
    by_cases h : nb.1 ∈ visited
    · simpa [bfsExpand, h] using ih queue visited parent
    · rw [show bfsExpand current (nb :: rest) queue visited parent
          = bfsExpand current rest (queue ++ [nb.1]) (insert nb.1 visited)
              (aset parent nb.1 (some current)) from by simp [bfsExpand, h]]
      exact Finset.Subset.trans (Finset.subset_insert _ _) (ih _ _ _)

theorem bfsExpand_unchanged_or_card (univ : Finset String) (current : String)
    (nbrs : List (String × Nat)) (queue : List String) (visited : Finset String)
    (parent : List (String × Option String))
    (hn : ∀ q ∈ nbrs, q.1 ∈ univ) :
    bfsExpand current nbrs queue visited parent = (queue, visited, parent) ∨
      ((univ \ (bfsExpand current nbrs queue visited parent).2.1).card <
        (univ \ visited).card) := by
  induction nbrs generalizing queue visited parent with
  | nil => exact Or.inl rfl
  | cons nb rest ih =>
    by_cases h : nb.1 ∈ visited
    · simpa [bfsExpand, h] using
        ih queue visited parent (fun q hq => hn q (List.mem_cons_of_mem _ hq))
    · right
      have hsub : insert nb.1 visited ⊆ (bfsExpand current rest (queue ++ [nb.1])
          (insert nb.1 visited) (aset parent nb.1 (some current))).2.1 :=
        bfsExpand_visited_mono _ _ _ _ _
      have hstep : (univ \ insert nb.1 visited).card < (univ \ visited).card := by
        have hmem : nb.1 ∈ univ \ visited := Finset.mem_sdiff.mpr ⟨hn nb (by simp), h⟩
        have heq : univ \ insert nb.1 visited = (univ \ visited).erase nb.1 := by
          ext x
          simp only [Finset.mem_sdiff, Finset.mem_insert, Finset.mem_erase]
          tauto
        rw [heq]
        exact Finset.card_erase_lt_of_mem hmem
      have hle : (univ \ (bfsExpand current rest (queue ++ [nb.1]) (insert nb.1 visited)
          (aset parent nb.1 (some current))).2.1).card ≤ (univ \ insert nb.1 visited).card :=
        Finset.card_le_card (Finset.sdiff_subset_sdiff (le_refl univ) hsub)
      have hfin := lt_of_le_of_lt hle hstep
      simpa [bfsExpand, h] using hfin

/-- Main loop of `bfs`: FIFO dequeue, visit-order recording, early return when
a truthy target is dequeued, neighbor expansion otherwise. -/
def bfsLoop (g : Graph) (target : Option String) :
    List String → Finset String → List (String × Option String) → List String → SearchResult
  | [], _, _, visit_order => if truthyTarget target then .absent else .order visit_order
  | current :: rest, visited, parent, visit_order =>
    if isTarget target current then
      .path (walkParent (parent.length + 1) parent current).reverse
    else
      match hexp : bfsExpand current (adjacencyGet g current) rest visited parent with
      | (q', v', p') => bfsLoop g target q' v' p' (visit_order ++ [current])
termination_by queue visited _ _ => ((labelUniverse g \ visited).card, queue.length)
decreasing_by
  simp_wf
  rcases bfsExpand_unchanged_or_card (labelUniverse g) current (adjacencyGet g current)
      rest visited parent (fun q hq => mem_labelUniverse_of_adjacencyGet hq) with heq | hlt
  · rw [hexp] at heq
    injection heq with h1 hrest
    injection hrest with h2 h3
    subst h1; subst h2
    exact Prod.Lex.right _ (by simp)
  · rw [hexp] at hlt
    exact Prod.Lex.left _ _ hlt

/-- `bfs`: neutral failure for an unknown start or (truthy) unknown target,
otherwise the main loop from a queue, visited set and parent map holding only
the start node. -/
def Graph.bfs (g : Graph) (start_node : String) (target_node : Option String) :
    SearchResult :=
  if !amem g.nodes start_node then
    if truthyTarget target_node then .absent else .order []
  else if truthyTarget target_node && !amem g.nodes (target_node.getD "") then .absent
  else bfsLoop g target_node [start_node] {start_node} [(start_node, none)] []

/-- Push loop of the iterative `dfs`: Python iterates `reversed(neighbors)`,
appending each not-yet-visited neighbor to the stack and recording a parent
pointer only on the first push.  This function processes the already-reversed
list; the visited set is fixed during the whole pass. -/
def dfsPush (current : String) (visited : Finset String) :
    List (String × Nat) → List String → List (String × Option String) →
    List String × List (String × Option String)
  | [], stack, parent => (stack, parent)
  | nb :: rest, stack, parent =>
    if nb.1 ∈ visited then dfsPush current visited rest stack parent
    else
      dfsPush current visited rest (nb.1 :: stack)
        (if amem parent nb.1 then parent else aset parent nb.1 (some current))

theorem dfsPush_stack (current : String) (visited : Finset String)
    (nbrs : List (String × Nat)) (stack : List String)
    (parent : List (String × Option String)) :
    (dfsPush current visited nbrs stack parent).1 =
      ((nbrs.filter (fun nb => !(nb.1 ∈ visited : Bool))).reverse.map Prod.fst) ++ stack := by
  induction nbrs generalizing stack parent with
  | nil => simp [dfsPush]
  | cons nb rest ih =>
    by_cases h : nb.1 ∈ visited
    · simp [dfsPush, h, ih]
    · simp [dfsPush, h, ih]

/-- Main loop of the iterative `dfs`: pop, skip already-visited entries, mark
and record on first visit, early return on a truthy target, otherwise push the
unvisited neighbors in reverse order. -/
def dfsLoop (g : Graph) (target : Option String) :
    List String → Finset String → List (String × Option String) → List String → SearchResult
  | [], _, _, visit_order => if truthyTarget target then .absent else .order visit_order
  | current :: rest, visited, parent, visit_order =>
    if current ∈ visited then dfsLoop g target rest visited parent visit_order
    else
      if isTarget target current then
        .path (walkParent (parent.length + 1) parent current).reverse
      else
        match hpush : dfsPush current (insert current visited)
            (adjacencyGet g current).reverse rest parent with
        | (s', p') =>
          dfsLoop g target s' (insert current visited) p' (visit_order ++ [current])
termination_by stack visited _ _ => ((labelUniverse g \ visited).card, stack.length)
decreasing_by
  · exact Prod.Lex.right _ (by simp)
  · simp_wf
    by_cases hu : current ∈ labelUniverse g
    · apply Prod.Lex.left
      have hmem : current ∈ labelUniverse g \ visited := Finset.mem_sdiff.mpr ⟨hu, by assumption⟩
      have heq : labelUniverse g \ insert current visited =
          (labelUniverse g \ visited).erase current := by
        ext x
        simp only [Finset.mem_sdiff, Finset.mem_insert, Finset.mem_erase]
        tauto
      rw [heq]
      exact Finset.card_erase_lt_of_mem hmem
    · have hnil : adjacencyGet g current = [] := adjacencyGet_eq_nil_of_not_mem_universe hu
      rw [hnil] at hpush
      simp only [List.reverse_nil, dfsPush] at hpush
      injection hpush with h1 h2
      subst h1
      have hcard : (labelUniverse g \ insert current visited).card =
          (labelUniverse g \ visited).card := by
        congr 1
        ext x
        simp only [Finset.mem_sdiff, Finset.mem_insert]
        constructor
        · rintro ⟨hx, hni⟩; exact ⟨hx, fun hv => hni (Or.inr hv)⟩
        · rintro ⟨hx, hni⟩
          refine ⟨hx, ?_⟩
          rintro (hc | hv)
          · exact hu (hc ▸ hx)
          · exact hni hv
      rw [hcard]
      exact Prod.Lex.right _ (by simp)

/-- `dfs` (iterative): neutral failure for an unknown start or (truthy)
unknown target, otherwise the stack loop; the visited set starts empty
(nodes are marked when popped). -/
def Graph.dfs (g : Graph) (start_node : String) (target_node : Option String) :
    SearchResult :=
  if !amem g.nodes start_node then
    if truthyTarget target_node then .absent else .order []
  else if truthyTarget target_node && !amem g.nodes (target_node.getD "") then .absent
  else dfsLoop g target_node [start_node] ∅ [(start_node, none)] []

mutual

/-- One call of the nested `_dfs_recursive` closure: entry check against the
visited set, mark and record, target test, then the neighbor loop.  The
`Nat` argument bounds the recursion depth; `dfs_recursive` supplies a depth
that is never exhausted because each nested call visits a fresh node. -/
def dfsRecVisit (g : Graph) (target : Option String) :
    Nat → String → Finset String → List String → List String →
    Bool × Finset String × List String × List String
  | 0, _, visited, visit_order, path_found => (false, visited, visit_order, path_found)
  | fuel + 1, current, visited, visit_order, path_found =>
    if current ∈ visited then (false, visited, visit_order, path_found)
    else
      let visited1 := insert current visited
      let order1 := visit_order ++ [current]
      if isTarget target current then (true, visited1, order1, path_found)
      else dfsRecGo g target fuel (adjacencyGet g current) visited1 order1 path_found
termination_by fuel _ _ _ _ => (fuel, 0)
decreasing_by
  exact Prod.Lex.left _ _ (Nat.lt_succ_self _)

/-- The `for neighbor, _ in ...` loop of `_dfs_recursive`: skip visited
neighbors, recurse into the rest, and on success append the successful
neighbor to the accumulated path and return `True` immediately. -/
def dfsRecGo (g : Graph) (target : Option String) :
    Nat → List (String × Nat) → Finset String → List String → List String →
    Bool × Finset String × List String × List String
  | _, [], visited, visit_order, path_found => (false, visited, visit_order, path_found)
  | fuel, nb :: rest, visited, visit_order, path_found =>
    if nb.1 ∈ visited then dfsRecGo g target fuel rest visited visit_order path_found
    else
      match dfsRecVisit g target fuel nb.1 visited visit_order path_found with
      | (true, v', o', p') => (true, v', o', p' ++ [nb.1])
      | (false, v', o', p') => dfsRecGo g target fuel rest v' o' p'
termination_by fuel nbrs _ _ _ => (fuel, nbrs.length + 1)
decreasing_by
  · exact Prod.Lex.right _ (Nat.lt_succ_self _)
  · exact Prod.Lex.right _ (by simp)
  · exact Prod.Lex.right _ (Nat.lt_succ_self _)

end

/-- `dfs_recursive`: same guards as `dfs`; with a truthy target the found
path is completed with the start node and reversed, without one the visit
order is returned. -/
def Graph.dfs_recursive (g : Graph) (start_node : String) (target_node : Option String) :
    SearchResult :=
  if !amem g.nodes start_node then
    if truthyTarget target_node then .absent else .order []
  else if truthyTarget target_node && !amem g.nodes (target_node.getD "") then .absent
  else
    let fuel := (labelUniverse g).card + 1
    if truthyTarget target_node then
      match dfsRecVisit g target_node fuel start_node ∅ [] [] with
      | (true, _, _, path_found) => .path ((path_found ++ [start_node]).reverse)
      | (false, _, _, _) => .absent
    else
      match dfsRecVisit g target_node fuel start_node ∅ [] [] with
      | (_, _, visit_order, _) => .order visit_order

/-! ## Dijkstra

The Python priority queue is `heapq` over `(distance, node)` tuples, which
compares lexicographically (node labels break distance ties).  A binary heap
pops a minimal element; entries with the same distance and the same label are
interchangeable, so the heap is embedded as the list of live entries, with
`popMin` removing the first minimal element. -/

/-- Lexicographic order on `(distance, node)` heap entries, as Python compares
tuples of a number and a string. -/
def pairLe (a b : Nat × String) : Prop :=
  a.1 < b.1 ∨ (a.1 = b.1 ∧ a.2 ≤ b.2)

instance (a b : Nat × String) : Decidable (pairLe a b) := by
  unfold pairLe; infer_instance

theorem pairLe_total (a b : Nat × String) : pairLe a b ∨ pairLe b a := by
  unfold pairLe
  rcases Nat.lt_trichotomy a.1 b.1 with h | h | h
  · exact Or.inl (Or.inl h)
  · rcases le_total a.2 b.2 with h2 | h2
    · exact Or.inl (Or.inr ⟨h, h2⟩)
    · exact Or.inr (Or.inr ⟨h.symm, h2⟩)
  · exact Or.inr (Or.inl h)

theorem pairLe_trans {a b c : Nat × String} (hab : pairLe a b) (hbc : pairLe b c) :
    pairLe a c := by
  unfold pairLe at *
  rcases hab with h | ⟨h, h2⟩ <;> rcases hbc with h' | ⟨h', h2'⟩
  · exact Or.inl (h.trans h')
  · exact Or.inl (h' ▸ h)
  · exact Or.inl (h ▸ h')
  · exact Or.inr ⟨h.trans h', h2.trans h2'⟩

/-- `heapq.heappop`: remove a minimal entry.  Returns the popped entry and the
remaining entries, or `none` for an empty heap. -/
def popMin : List (Nat × String) → Option ((Nat × String) × List (Nat × String))
  | [] => none
  | x :: rest =>
    match popMin rest with
    | none => some (x, [])
    | some (m, rest') => if pairLe x m then some (x, rest) else some (m, x :: rest')

theorem popMin_eq_none {l : List (Nat × String)} : popMin l = none ↔ l = [] := by
  cases l with
  | nil => simp [popMin]
  | cons x rest =>
    simp only [popMin]
    cases popMin rest with
    | none => simp
    | some p =>
      obtain ⟨m, rest'⟩ := p
      by_cases h : pairLe x m <;> simp [h]

theorem popMin_perm {l : List (Nat × String)} {m : Nat × String} {r : List (Nat × String)}
    (h : popMin l = some (m, r)) : l.Perm (m :: r) := by
  induction l generalizing m r with
  | nil => simp [popMin] at h
  | cons x rest ih =>
    simp only [popMin] at h
    cases hr : popMin rest with
    | none =>
      rw [hr] at h
      have : rest = [] := popMin_eq_none.mp hr
      subst this
      simp only [Option.some.injEq, Prod.mk.injEq] at h
      rw [h.1, ← h.2]
    | some p =>
      obtain ⟨m0, rest'⟩ := p
      rw [hr] at h
      by_cases hle : pairLe x m0
      · simp only [hle, if_pos, Option.some.injEq, Prod.mk.injEq] at h
        rw [h.1, ← h.2]
      · simp only [hle, if_neg, Option.some.injEq, Prod.mk.injEq, not_false_iff] at h
        have hperm := ih hr
        have hswap : (x :: m0 :: rest').Perm (m0 :: x :: rest') := List.Perm.swap m0 x rest'
        have hfin := (hperm.cons x).trans hswap
        rw [h.1, h.2] at hfin
        exact hfin

theorem popMin_min {l : List (Nat × String)} {m : Nat × String} {r : List (Nat × String)}
    (h : popMin l = some (m, r)) : ∀ y ∈ l, pairLe m y := by
  induction l generalizing m r with
  | nil => simp [popMin] at h
  | cons x rest ih =>
    simp only [popMin] at h
    have hxx : pairLe x x := Or.inr ⟨rfl, le_refl _⟩
    cases hr : popMin rest with
    | none =>
      rw [hr] at h
      have : rest = [] := popMin_eq_none.mp hr
      subst this
      simp only [Option.some.injEq, Prod.mk.injEq] at h
      intro y hy
      simp at hy
      rw [hy, ← h.1]
      exact hxx
    | some p =>
      obtain ⟨m0, rest'⟩ := p
      rw [hr] at h
      by_cases hle : pairLe x m0
      · simp only [hle, if_pos, Option.some.injEq, Prod.mk.injEq] at h
        intro y hy
        rcases List.mem_cons.mp hy with hy | hy
        · rw [hy, ← h.1]; exact hxx
        · exact h.1 ▸ pairLe_trans hle (ih hr y hy)
      · simp only [hle, if_neg, Option.some.injEq, Prod.mk.injEq, not_false_iff] at h
        intro y hy
        rcases List.mem_cons.mp hy with hy | hy
        · rcases pairLe_total x m0 with hc | hc
          · exact absurd hc hle
          · rw [hy, ← h.1]; exact hc
        · exact h.1 ▸ ih hr y hy

/-- Number of `+infinity` entries of the distance dictionary (used by the
termination measure: a relaxation either turns an infinite entry finite or
strictly shrinks a finite one). -/
def countInf (dist : List (String × Option Nat)) : Nat :=
  (dist.filter (fun p => p.2.isNone)).length

/-- Sum of the finite entries of the distance dictionary. -/
def sumFin (dist : List (String × Option Nat)) : Nat :=
  (dist.map (fun p => p.2.getD 0)).sum

/-- Strict lexicographic order on the `(countInf, sumFin)` measure. -/
def measLt (a b : Nat × Nat) : Prop :=
  a.1 < b.1 ∨ (a.1 = b.1 ∧ a.2 < b.2)

theorem measLt_trans {a b c : Nat × Nat} (h1 : measLt a b) (h2 : measLt b c) :
    measLt a c := by
  unfold measLt at *
  rcases h1 with h | ⟨h, hs⟩ <;> rcases h2 with h' | ⟨h', hs'⟩
  · exact Or.inl (h.trans h')
  · exact Or.inl (h' ▸ h)
  · exact Or.inl (h ▸ h')
  · exact Or.inr ⟨h.trans h', hs.trans hs'⟩

/-- The comparison `distance < distances[neighbor]` where the stored value may
be `float('inf')`. -/
def ltOpt (n : Nat) : Option Nat → Bool
  | none => true
  | some m => decide (n < m)

theorem countInf_cons (k : String) (v : Option Nat) (tl : List (String × Option Nat)) :
    countInf ((k, v) :: tl) = (if v.isNone then 1 else 0) + countInf tl := by
  simp only [countInf, List.filter]
  cases v <;> simp [Nat.add_comm]

theorem sumFin_cons (k : String) (v : Option Nat) (tl : List (String × Option Nat)) :
    sumFin ((k, v) :: tl) = v.getD 0 + sumFin tl := by
  simp [sumFin]

theorem aset_measLt {dist : List (String × Option Nat)} {k : String} {stored : Option Nat}
    (hk : alookup dist k = some stored) {v : Nat} (hlt : ltOpt v stored = true) :
    measLt (countInf (aset dist k (some v)), sumFin (aset dist k (some v)))
      (countInf dist, sumFin dist) := by
  induction dist with
  | nil => simp [alookup] at hk
  | cons hd tl ih =>
    obtain ⟨k', v'⟩ := hd
    rcases eq_or_ne k' k with rfl | hkk
    · have hv : v' = stored := by simpa [alookup] using hk
      subst hv
      rw [show aset ((k', v') :: tl) k' (some v) = (k', some v) :: tl from by
        simp [aset]]
      rw [countInf_cons, countInf_cons, sumFin_cons, sumFin_cons]
      cases v' with
      | none => exact Or.inl (by simp)
      | some m =>
        have hm : v < m := by simpa [ltOpt] using hlt
        exact Or.inr ⟨by simp, by simp; omega⟩
    · have hk' : alookup tl k = some stored := by simpa [alookup, hkk] using hk
      have hrec := ih hk'
      rw [show aset ((k', v') :: tl) k (some v) = (k', v') :: aset tl k (some v) from by
        simp [aset, hkk]]
      rw [countInf_cons, countInf_cons, sumFin_cons, sumFin_cons]
      rcases hrec with h | ⟨h, hs⟩
      · exact Or.inl (by omega)
      · exact Or.inr ⟨by omega, by omega⟩

/-- The `for neighbor, weight in ...` relaxation loop of `dijkstra`.  A
neighbor missing from the distance dictionary would raise a `KeyError` in
Python (impossible in well-formed states); the embedding skips it. -/
def relaxNeighbors (current : String) (current_distance : Nat) :
    List (String × Nat) → List (String × Option Nat) → List (String × Option String) →
    List (Nat × String) →
    List (String × Option Nat) × List (String × Option String) × List (Nat × String)
  | [], dist, prev, pq => (dist, prev, pq)
  | nb :: rest, dist, prev, pq =>
    match alookup dist nb.1 with
    | none => relaxNeighbors current current_distance rest dist prev pq
    | some stored =>
      if ltOpt (current_distance + nb.2) stored then
        relaxNeighbors current current_distance rest
          (aset dist nb.1 (some (current_distance + nb.2)))
          (aset prev nb.1 (some current))
          (pq ++ [(current_distance + nb.2, nb.1)])
      else relaxNeighbors current current_distance rest dist prev pq

theorem relaxNeighbors_unchanged_or_measLt (current : String) (d : Nat)
    (nbrs : List (String × Nat)) (dist : List (String × Option Nat))
    (prev : List (String × Option String)) (pq : List (Nat × String)) :
    relaxNeighbors current d nbrs dist prev pq = (dist, prev, pq) ∨
      measLt (countInf (relaxNeighbors current d nbrs dist prev pq).1,
              sumFin (relaxNeighbors current d nbrs dist prev pq).1)
        (countInf dist, sumFin dist) := by
  induction nbrs generalizing dist prev pq with
  | nil => exact Or.inl rfl
  | cons nb rest ih =>
    cases hk : alookup dist nb.1 with
    | none =>
      simpa [relaxNeighbors, hk] using ih dist prev pq
    | some stored =>
      by_cases hlt : ltOpt (d + nb.2) stored = true
      · right
        have hstep := aset_measLt hk hlt
        rcases ih (aset dist nb.1 (some (d + nb.2))) (aset prev nb.1 (some current))
            (pq ++ [(d + nb.2, nb.1)]) with heq | hm
        · simp only [relaxNeighbors, hk, hlt, if_pos]
          rw [heq]
          exact hstep
        · simp only [relaxNeighbors, hk, hlt, if_pos]
          exact measLt_trans hm hstep
      · simp only [relaxNeighbors, hk, hlt, if_neg, not_false_iff]
        simpa using ih dist prev pq

theorem relaxNeighbors_cases {current : String} {d : Nat}
    {nbrs : List (String × Nat)} {dist dist' : List (String × Option Nat)}
    {prev prev' : List (String × Option String)} {pq pq' : List (Nat × String)}
    (hrel : relaxNeighbors current d nbrs dist prev pq = (dist', prev', pq')) :
    (dist' = dist ∧ prev' = prev ∧ pq' = pq) ∨
      measLt (countInf dist', sumFin dist') (countInf dist, sumFin dist) := by
  rcases relaxNeighbors_unchanged_or_measLt current d nbrs dist prev pq with heq | hm
  · rw [hrel] at heq
    injection heq with h1 hrest2
    injection hrest2 with h2 h3
    exact Or.inl ⟨h1, h2, h3⟩
  · rw [hrel] at hm
    exact Or.inr hm

/-- The staleness test `current_distance > distances[current_node]` (false on
an infinite stored distance, and on a missing key, where Python would raise). -/
def staleCheck (dist : List (String × Option Nat)) (current : String)
    (current_distance : Nat) : Bool :=
  match alookup dist current with
  | some (some d0) => decide (d0 < current_distance)
  | _ => false

/-- Main loop of `dijkstra`: pop a minimal entry, return the reconstructed
path when a truthy target is popped, skip stale entries, otherwise relax the
neighbors. -/
def dijkstraLoop (g : Graph) (target : Option String)
    (dist : List (String × Option Nat)) (prev : List (String × Option String))
    (pq : List (Nat × String)) : DijkResult :=
  match hpop : popMin pq with
  | none => if truthyTarget target then .absent else .distMap dist
  | some ((current_distance, current), rest) =>
    if isTarget target current then
      .path (walkParent (prev.length + 1) prev current).reverse
    else if staleCheck dist current current_distance then
      dijkstraLoop g target dist prev rest
    else
      match hrel : relaxNeighbors current current_distance (adjacencyGet g current)
          dist prev rest with
      | (dist', prev', pq') => dijkstraLoop g target dist' prev' pq'
termination_by ((countInf dist, sumFin dist), pq.length)
decreasing_by
  · simp_wf
    apply Prod.Lex.right
    have := (popMin_perm hpop).length_eq
    simp at this
    omega
  · simp_wf
    rcases relaxNeighbors_cases hrel with ⟨h1, h2, h3⟩ | hm
    · subst h1; subst h3
      apply Prod.Lex.right
      have := (popMin_perm hpop).length_eq
      simp at this
      omega
    · apply Prod.Lex.left
      rcases hm with h | ⟨h, hs⟩
      · exact Prod.Lex.left _ _ h
      · have h1 : countInf dist' = countInf dist := h
        have h2 : sumFin dist' < sumFin dist := hs
        rw [h1]
        exact Prod.Lex.right _ h2

/-- `dijkstra`: neutral failure for an unknown start (`None` with a truthy
target, `{}` without); otherwise all distances start at `+infinity` except
the start node at `0`, all previous-pointers at `None`, and the queue holds
`(0, start)`. -/
def Graph.dijkstra (g : Graph) (start_node : String) (target_node : Option String) :
    DijkResult :=
  if !amem g.nodes start_node then
    if truthyTarget target_node then .absent else .distMap []
  else
    dijkstraLoop g target_node
      (aset (g.nodes_list.map (fun n => (n, (none : Option Nat)))) start_node (some 0))
      (g.nodes_list.map (fun n => (n, (none : Option String))))
      [(0, start_node)]

/-! ## Three-point routing -/

/-- Result dictionary of `shortest_path_three_points`: a structured failure
`{'success': False, 'error': ...}`, a structured success carrying the full
path, both legs, the total distance and the route description, or the
`TypeError` the Python code raises when a leg of truthy `dijkstra` output is
not a path (only possible when a leg target is the empty-string label). -/
inductive RouteResult where
  | failure (error : String)
  | success (full_path : List String) (path_origin_to_start : List String)
      (path_start_to_end : List String) (total_distance : Nat)
      (route_description : String)
  | crash
deriving DecidableEq, Repr

/-- Python falsiness of a `dijkstra` result: `None`, an empty path list and an
empty distance dictionary are all falsy under `if not path:`. -/
def dijkFalsy : DijkResult → Bool
  | .absent => true
  | .path p => p.isEmpty
  | .distMap d => d.isEmpty

/-- The total-distance loop: sum `get_edge_weight` over consecutive pairs of
the concatenated path, skipping (impossible in practice) `None` lookups. -/
def routeTotal (g : Graph) : List String → Nat
  | a :: b :: rest => (g.get_edge_weight a b).getD 0 + routeTotal g (b :: rest)
  | _ => 0

/-- `shortest_path_three_points`: validate the three labels in order, run the
two Dijkstra legs, fail with a structured message when a leg is falsy,
otherwise concatenate the legs (dropping the duplicated pickup node) and sum
the edge weights along the concatenation. -/
def Graph.shortest_path_three_points (g : Graph) (origin start endp : String) :
    RouteResult :=
  if !amem g.nodes origin then
    .failure ("El nodo " ++ origin ++ " no existe en el grafo")
  else if !amem g.nodes start then
    .failure ("El nodo " ++ start ++ " no existe en el grafo")
  else if !amem g.nodes endp then
    .failure ("El nodo " ++ endp ++ " no existe en el grafo")
  else
    let r1 := g.dijkstra origin (some start)
    if dijkFalsy r1 then .failure ("No hay camino desde " ++ origin ++ " a " ++ start)
    else
      let r2 := g.dijkstra start (some endp)
      if dijkFalsy r2 then .failure ("No hay camino desde " ++ start ++ " a " ++ endp)
      else
        match r1, r2 with
        | .path p1, .path p2 =>
          let full_path := p1 ++ p2.drop 1
          .success full_path p1 p2 (routeTotal g full_path)
            (origin ++ " → " ++ start ++ " → " ++ endp)
        | _, _ => .crash

/-! ## Concrete graph builders (used by witnesses and counterexamples) -/

/-- Add a list of node labels in order. -/
def addNodes (g : Graph) (ns : List String) : Graph :=
  ns.foldl (fun g n => (g.add_node n).2) g

/-- Add a list of weighted edges in order. -/
def addEdges (g : Graph) (es : List (String × String × Nat)) : Graph :=
  es.foldl (fun g e => (g.add_edge e.1 e.2.1 e.2.2).2) g

/-! ## Association-list lemmas -/

theorem alookup_aset_self {α : Type} (d : List (String × α)) (k : String) (v : α) :
    alookup (aset d k v) k = some v := by
  induction d with
  | nil => simp [aset, alookup]
  | cons hd tl ih =>
    rcases eq_or_ne hd.1 k with he | hne
    · simp [aset, he, alookup]
    · simp [aset, hne, alookup, ih]

theorem alookup_aset_ne {α : Type} (d : List (String × α)) {k k' : String} (v : α)
    (h : k' ≠ k) : alookup (aset d k v) k' = alookup d k' := by
  have h1 : ¬(k = k') := fun he => h he.symm
  induction d with
  | nil => simp [aset, alookup, h1]
  | cons hd tl ih =>
    rcases eq_or_ne hd.1 k with he | hne
    · have h2 : ¬(hd.1 = k') := he ▸ h1
      simp [aset, he, alookup, h1, h2]
    · simp [aset, hne, alookup, ih]

theorem alookup_adel_self {α : Type} (d : List (String × α)) (k : String) :
    alookup (adel d k) k = none := by
  induction d with
  | nil => simp [adel, alookup]
  | cons hd tl ih =>
    rcases eq_or_ne hd.1 k with he | hne
    · simp [adel, he, ih]
    · simp [adel, hne, alookup, ih]

theorem alookup_adel_ne {α : Type} (d : List (String × α)) {k k' : String}
    (h : k' ≠ k) : alookup (adel d k) k' = alookup d k' := by
  induction d with
  | nil => simp [adel]
  | cons hd tl ih =>
    rcases eq_or_ne hd.1 k with he | hne
    · have h3 : ¬(k = k') := fun hx => h hx.symm
      simp [adel, he, alookup, h3, ih]
    · simp [adel, hne, alookup, ih]

theorem alookup_amodify_self {α : Type} (d : List (String × α)) (k : String) (f : α → α) :
    alookup (amodify d k f) k = (alookup d k).map f := by
  induction d with
  | nil => simp [amodify, alookup]
  | cons hd tl ih =>
    rcases eq_or_ne hd.1 k with he | hne
    · simp [amodify, he, alookup]
    · simp [amodify, hne, alookup, ih]

theorem alookup_amodify_ne {α : Type} (d : List (String × α)) {k k' : String} (f : α → α)
    (h : k' ≠ k) : alookup (amodify d k f) k' = alookup d k' := by
  induction d with
  | nil => simp [amodify]
  | cons hd tl ih =>
    rcases eq_or_ne hd.1 k with he | hne
    · have h3 : ¬(k = k') := fun hx => h hx.symm
      simp [amodify, he, alookup, h3]
    · simp [amodify, hne, alookup, ih]

theorem amodify_map_fst {α : Type} (d : List (String × α)) (k : String) (f : α → α) :
    (amodify d k f).map Prod.fst = d.map Prod.fst := by
  induction d with
  | nil => simp [amodify]
  | cons hd tl ih =>
    rcases eq_or_ne hd.1 k with he | hne
    · simp [amodify, he]
    · simp [amodify, hne, ih]

theorem aset_of_not_mem {α : Type} {d : List (String × α)} {k : String}
    (h : k ∉ d.map Prod.fst) (v : α) : aset d k v = d ++ [(k, v)] := by
  induction d with
  | nil => simp [aset]
  | cons hd tl ih =>
    have h1 : hd.1 ≠ k := fun he => h (by simp [he])
    have h2 : k ∉ tl.map Prod.fst := fun hm => h (by simp [hm])
    simp [aset, h1, ih h2]

theorem alookup_isSome_of_mem_keys {α : Type} {d : List (String × α)} {k : String}
    (h : k ∈ d.map Prod.fst) : (alookup d k).isSome := by
  induction d with
  | nil => simp at h
  | cons hd tl ih =>
    rcases eq_or_ne hd.1 k with he | hne
    · simp [alookup, he]
    · simp only [List.map_cons, List.mem_cons] at h
      rcases h with h | h
      · exact absurd h.symm hne
      · simp [alookup, hne, ih h]

theorem amem_iff_mem_keys {α : Type} {d : List (String × α)} {k : String} :
    amem d k = true ↔ k ∈ d.map Prod.fst := by
  unfold amem
  constructor
  · intro h
    cases hl : alookup d k with
    | none => rw [hl] at h; simp at h
    | some v => exact List.mem_map_of_mem _ (alookup_eq_some_mem hl)
  · intro h
    simpa using alookup_isSome_of_mem_keys h

/-! ## Node-operation invariants (C5) -/

/-- The label-to-index dictionary corresponding to enumerating a label list
starting at index `n`. -/
def enumMapFrom (n : Nat) (l : List String) : List (String × Nat) :=
  (l.enumFrom n).map (fun p => (p.2, p.1))

theorem enumMapFrom_nil (n : Nat) : enumMapFrom n [] = [] := rfl

theorem enumMapFrom_cons (n : Nat) (x : String) (xs : List String) :
    enumMapFrom n (x :: xs) = (x, n) :: enumMapFrom (n + 1) xs := by
  simp [enumMapFrom, List.enumFrom_cons]

theorem enumMapFrom_keys (n : Nat) (l : List String) :
    (enumMapFrom n l).map Prod.fst = l := by
  induction l generalizing n with
  | nil => rfl
  | cons x xs ih => simp [enumMapFrom_cons, ih]

theorem enumMapFrom_append_singleton (n : Nat) (l : List String) (x : String) :
    enumMapFrom n (l ++ [x]) = enumMapFrom n l ++ [(x, n + l.length)] := by
  induction l generalizing n with
  | nil => simp [enumMapFrom_cons, enumMapFrom_nil]
  | cons y ys ih =>
    simp only [List.cons_append, enumMapFrom_cons, ih, List.length_cons]
    rw [show n + 1 + ys.length = n + (ys.length + 1) from by omega]

theorem alookup_enumMapFrom {l : List String} (hnd : l.Nodup) (n i : Nat) (k : String) :
    alookup (enumMapFrom n l) k = some i ↔ n ≤ i ∧ l.get? (i - n) = some k := by
  induction l generalizing n with
  | nil => simp [enumMapFrom_nil, alookup]
  | cons x xs ih =>
    rw [enumMapFrom_cons]
    have hnd' : xs.Nodup := hnd.of_cons
    rcases eq_or_ne x k with rfl | hne
    · rw [show alookup ((x, n) :: enumMapFrom (n + 1) xs) x = some n from by simp [alookup]]
      constructor
      · intro hsome
        injection hsome with hni
        subst hni
        simp
      · rintro ⟨hni, hget⟩
        rcases Nat.lt_or_ge n i with hlt | hge
        · exfalso
          obtain ⟨j, hj⟩ : ∃ j, i - n = j + 1 := ⟨i - n - 1, by omega⟩
          rw [hj] at hget
          simp only [List.get?_cons_succ] at hget
          have : x ∈ xs := List.get?_mem hget
          exact (List.nodup_cons.mp hnd).1 this
        · have : n = i := by omega
          rw [this]
    · rw [show alookup ((x, n) :: enumMapFrom (n + 1) xs) k
          = alookup (enumMapFrom (n + 1) xs) k from by simp [alookup, hne]]
      rw [ih hnd' (n + 1)]
      constructor
      · rintro ⟨hni, hget⟩
        refine ⟨by omega, ?_⟩
        obtain ⟨j, hj⟩ : ∃ j, i - n = j + 1 := ⟨i - n - 1, by omega⟩
        rw [hj]
        simpa [show j = i - (n + 1) from by omega] using hget
      · rintro ⟨hni, hget⟩
        have hnei : n ≠ i := by
          rintro rfl
          simp only [Nat.sub_self, List.get?_cons_zero, Option.some.injEq] at hget
          exact hne hget
        refine ⟨by omega, ?_⟩
        obtain ⟨j, hj⟩ : ∃ j, i - n = j + 1 := ⟨i - n - 1, by omega⟩
        rw [hj] at hget
        simpa [show i - (n + 1) = j from by omega] using hget

theorem adel_map_fst {α : Type} (d : List (String × α)) (k : String) :
    (adel d k).map Prod.fst = (d.map Prod.fst).filter (fun x => x != k) := by
  induction d with
  | nil => rfl
  | cons hd tl ih =>
    rcases eq_or_ne hd.1 k with he | hne
    · simp [adel, he, ih]
    · simp [adel, hne, ih, List.filter_cons, hne]

theorem filter_ne_eq_eraseIdx {l : List String} (hnd : l.Nodup) {idx : Nat} {name : String}
    (hget : l.get? idx = some name) :
    l.filter (fun x => x != name) = l.eraseIdx idx := by
  induction l generalizing idx with
  | nil => simp at hget
  | cons x xs ih =>
    cases idx with
    | zero =>
      simp only [List.get?_cons_zero, Option.some.injEq] at hget
      subst hget
      rw [List.eraseIdx_cons_zero, List.filter_cons]
      simp only [bne_self_eq_false, Bool.false_eq_true, if_neg]
      exact List.filter_eq_self.mpr
        (fun a ha => by
          have : a ≠ x := fun he => (List.nodup_cons.mp hnd).1 (he ▸ ha)
          simpa using this)
    | succ j =>
      simp only [List.get?_cons_succ] at hget
      have hxname : x ≠ name := by
        intro he
        exact (List.nodup_cons.mp hnd).1 (he ▸ List.get?_mem hget)
      rw [List.eraseIdx_cons_succ, List.filter_cons]
      simp only [bne_iff_ne, ne_eq, hxname, not_false_iff, if_pos]
      rw [ih (List.nodup_cons.mp hnd).2 hget]

theorem foldl_aset_frozen_head (pairs : List (Nat × String)) (x : String) (v : Nat)
    (d0 : List (String × Nat)) (hx : ∀ p ∈ pairs, p.2 ≠ x) :
    pairs.foldl (fun d p => aset d p.2 p.1) ((x, v) :: d0) =
      (x, v) :: pairs.foldl (fun d p => aset d p.2 p.1) d0 := by
  induction pairs generalizing d0 with
  | nil => rfl
  | cons q rest ih =>
    have hq : q.2 ≠ x := hx q (by simp)
    simp only [List.foldl_cons]
    have hxq : ¬(x = q.2) := fun he => hq he.symm
    rw [show aset ((x, v) :: d0) q.2 q.1 = (x, v) :: aset d0 q.2 q.1 from by
      simp [aset, hxq]]
    exact ih _ (fun p hp => hx p (List.mem_cons_of_mem _ hp))

theorem snd_mem_of_mem_enumFrom {l : List String} {n : Nat} {p : Nat × String}
    (hp : p ∈ l.enumFrom n) : p.2 ∈ l := by
  induction l generalizing n with
  | nil => simp [List.enumFrom] at hp
  | cons x xs ih =>
    rw [List.enumFrom_cons] at hp
    rcases List.mem_cons.mp hp with hp | hp
    · simp [hp]
    · exact List.mem_cons_of_mem _ (ih hp)

theorem foldl_aset_enumFrom {m : List String} (hnd : m.Nodup) :
    ∀ (n : Nat) (d0 : List (String × Nat)), d0.map Prod.fst = m →
      (m.enumFrom n).foldl (fun d p => aset d p.2 p.1) d0 = enumMapFrom n m := by
  induction m with
  | nil =>
    intro n d0 hk
    rw [List.map_eq_nil] at hk
    simp [hk, List.enumFrom, enumMapFrom_nil]
  | cons x xs ih =>
    intro n d0 hk
    cases d0 with
    | nil => simp at hk
    | cons hd d0' =>
      obtain ⟨x0, v0⟩ := hd
      simp only [List.map_cons, List.cons.injEq] at hk
      obtain ⟨hx0, hk'⟩ := hk
      subst hx0
      rw [List.enumFrom_cons, List.foldl_cons]
      rw [show aset ((x0, v0) :: d0') x0 n = (x0, n) :: d0' from by simp [aset]]
      rw [foldl_aset_frozen_head _ x0 n d0' (fun p hp => by
        have h1 : p.2 ∈ xs := snd_mem_of_mem_enumFrom hp
        intro he
        exact (List.nodup_cons.mp hnd).1 (he ▸ h1))]
      rw [ih hnd.of_cons (n + 1) d0' hk', enumMapFrom_cons]

/-- The part of well-formedness maintained by `add_node`/`remove_node` that
claim C5 is about: the dictionary equals the enumeration of the label list,
labels are distinct, and the counter and matrix dimensions agree. -/
def NodesWf (g : Graph) : Prop :=
  g.nodes = enumMapFrom 0 g.nodes_list ∧
  g.nodes_list.Nodup ∧
  g.node_count = g.nodes_list.length ∧
  g.adjacency_matrix.length = g.node_count ∧
  (∀ row ∈ g.adjacency_matrix, row.length = g.node_count)

theorem nodesWf_empty (directed : Bool) : NodesWf (Graph.empty directed) := by
  refine ⟨rfl, List.nodup_nil, rfl, rfl, ?_⟩
  intro row hrow
  simp [Graph.empty] at hrow

theorem nodesWf_add_node {g : Graph} (h : NodesWf g) (name : String) :
    NodesWf (g.add_node name).2 := by
  obtain ⟨h1, h2, h3, h4, h5⟩ := h
  by_cases hmem : amem g.nodes name = true
  · simp only [Graph.add_node, hmem, if_pos]
    exact ⟨h1, h2, h3, h4, h5⟩
  · have hkeys : name ∉ g.nodes.map Prod.fst := by
      intro hk
      exact hmem (amem_iff_mem_keys.mpr hk)
    have hnl : name ∉ g.nodes_list := by
      rw [h1, enumMapFrom_keys] at hkeys
      exact hkeys
    simp only [Graph.add_node, hmem, Bool.false_eq_true, if_neg, not_false_iff]
    refine ⟨?_, ?_, ?_, ?_, ?_⟩
    · show aset g.nodes name g.node_count = enumMapFrom 0 (g.nodes_list ++ [name])
      rw [aset_of_not_mem hkeys, enumMapFrom_append_singleton, h1, h3, Nat.zero_add]
    · show (g.nodes_list ++ [name]).Nodup
      simp [List.nodup_append, h2, hnl]
    · show g.node_count + 1 = (g.nodes_list ++ [name]).length
      simp [h3]
    · show ((g.adjacency_matrix.map fun row => row ++ [0]) ++
        [List.replicate (g.node_count + 1) 0]).length = g.node_count + 1
      simp [h4]
    · intro row hrow
      simp only [List.mem_append, List.mem_map, List.mem_singleton] at hrow
      rcases hrow with ⟨r, hr, rfl⟩ | rfl
      · simp [h5 r hr]
      · simp

theorem nodesWf_remove_node {g : Graph} (h : NodesWf g) (name : String) :
    NodesWf (g.remove_node name).2 := by
  obtain ⟨h1, h2, h3, h4, h5⟩ := h
  cases hl : alookup g.nodes name with
  | none =>
    simp only [Graph.remove_node, hl]
    exact ⟨h1, h2, h3, h4, h5⟩
  | some idx =>
    have hidx : g.nodes_list.get? idx = some name := by
      rw [h1] at hl
      simpa using ((alookup_enumMapFrom h2 0 idx name).mp hl).2
    obtain ⟨hlt, -⟩ := List.get?_eq_some.mp hidx
    simp only [Graph.remove_node, hl, removeFromDictionaries]
    refine ⟨?_, ?_, ?_, ?_, ?_⟩
    · show (g.nodes_list.eraseIdx idx).enum.foldl (fun d p => aset d p.2 p.1)
        (adel g.nodes name) = enumMapFrom 0 (g.nodes_list.eraseIdx idx)
      have hkeys : (adel g.nodes name).map Prod.fst = g.nodes_list.eraseIdx idx := by
        rw [adel_map_fst, h1, enumMapFrom_keys]
        exact filter_ne_eq_eraseIdx h2 hidx
      have hnd' : (g.nodes_list.eraseIdx idx).Nodup :=
        h2.sublist (List.eraseIdx_sublist _ _)
      rw [show (g.nodes_list.eraseIdx idx).enum
          = (g.nodes_list.eraseIdx idx).enumFrom 0 from rfl]
      exact foldl_aset_enumFrom hnd' 0 _ hkeys
    · exact h2.sublist (List.eraseIdx_sublist _ _)
    · show g.node_count - 1 = (g.nodes_list.eraseIdx idx).length
      rw [List.length_eraseIdx, if_pos hlt, h3]
    · show ((g.adjacency_matrix.eraseIdx idx).map fun row => row.eraseIdx idx).length
        = g.node_count - 1
      rw [List.length_map, List.length_eraseIdx, if_pos (by rw [h4, h3]; exact hlt), h4]
    · intro row hrow
      simp only [List.mem_map] at hrow
      obtain ⟨r, hr, rfl⟩ := hrow
      have hrmem : r ∈ g.adjacency_matrix :=
        (List.eraseIdx_sublist _ _).mem hr
      rw [List.length_eraseIdx, if_pos (by rw [h5 r hrmem, h3]; exact hlt), h5 r hrmem]

/-- A node-level mutation: `add_node` or `remove_node`. -/
inductive NodeOp where
  | add (name : String)
  | remove (name : String)

/-- Apply one node operation, discarding the boolean result. -/
def applyNodeOp (g : Graph) : NodeOp → Graph
  | .add n => (g.add_node n).2
  | .remove n => (g.remove_node n).2

/-- Apply a sequence of node operations from left to right. -/
def applyNodeOps (g : Graph) (ops : List NodeOp) : Graph :=
  ops.foldl applyNodeOp g

theorem nodesWf_applyNodeOps {g : Graph} (h : NodesWf g) (ops : List NodeOp) :
    NodesWf (applyNodeOps g ops) := by
  induction ops generalizing g with
  | nil => exact h
  | cons op rest ih =>
    cases op with
    | add n => exact ih (nodesWf_add_node h n)
    | remove n => exact ih (nodesWf_remove_node h n)

/-- C5. For every sequence of `add_node`/`remove_node` operations applied to a
fresh graph, the label-to-index dictionary is a bijection onto the contiguous
range `[0, node_count)` that is exactly inverse to the index-to-label list,
and the adjacency matrix is `node_count × node_count`. -/
theorem node_ops_keep_bijection_and_square_matrix (directed : Bool) (ops : List NodeOp) :
    (∀ l i, alookup (applyNodeOps (Graph.empty directed) ops).nodes l = some i ↔
      (applyNodeOps (Graph.empty directed) ops).nodes_list.get? i = some l) ∧
    (∀ l i, alookup (applyNodeOps (Graph.empty directed) ops).nodes l = some i →
      i < (applyNodeOps (Graph.empty directed) ops).node_count) ∧
    (∀ i, i < (applyNodeOps (Graph.empty directed) ops).node_count →
      ∃ l, alookup (applyNodeOps (Graph.empty directed) ops).nodes l = some i) ∧
    (∀ l1 l2 i, alookup (applyNodeOps (Graph.empty directed) ops).nodes l1 = some i →
      alookup (applyNodeOps (Graph.empty directed) ops).nodes l2 = some i → l1 = l2) ∧
    (applyNodeOps (Graph.empty directed) ops).adjacency_matrix.length =
      (applyNodeOps (Graph.empty directed) ops).node_count ∧
    (∀ row ∈ (applyNodeOps (Graph.empty directed) ops).adjacency_matrix,
      row.length = (applyNodeOps (Graph.empty directed) ops).node_count) := by
  obtain ⟨h1, h2, h3, h4, h5⟩ := nodesWf_applyNodeOps (nodesWf_empty directed) ops
  have hiff : ∀ l i, alookup (applyNodeOps (Graph.empty directed) ops).nodes l = some i ↔
      (applyNodeOps (Graph.empty directed) ops).nodes_list.get? i = some l := by
    intro l i
    rw [h1, alookup_enumMapFrom h2 0 i l]
    simp
  refine ⟨hiff, ?_, ?_, ?_, h4, h5⟩
  · intro l i hl
    obtain ⟨hlt, -⟩ := List.get?_eq_some.mp ((hiff l i).mp hl)
    omega
  · intro i hi
    have hi' : i < (applyNodeOps (Graph.empty directed) ops).nodes_list.length := by omega
    exact ⟨_, (hiff _ i).mpr (List.get?_eq_get hi')⟩
  · intro l1 l2 i hl1 hl2
    have e1 := (hiff l1 i).mp hl1
    have e2 := (hiff l2 i).mp hl2
    rw [e1] at e2
    exact Option.some.inj e2

/-! ## C6: remove_node purges all references -/

theorem alookup_map_value {α β : Type} (d : List (String × α)) (f : α → β) (k : String) :
    alookup (d.map (fun p => (p.1, f p.2))) k = (alookup d k).map f := by
  induction d with
  | nil => rfl
  | cons hd tl ih =>
    rcases eq_or_ne hd.1 k with he | hne
    · simp [alookup, he]
    · simp [alookup, hne, ih]

/-- C6. After `remove_node` returns `True`, the removed label's adjacency list
is gone and no remaining neighbor list contains an entry naming it. -/
theorem remove_node_purges_adjacency (g : Graph) (label : String)
    (h : amem g.nodes label = true) :
    (g.remove_node label).1 = true ∧
    alookup (g.remove_node label).2.adjacency_list label = none ∧
    (∀ l lst, alookup (g.remove_node label).2.adjacency_list l = some lst →
      ∀ q ∈ lst, q.1 ≠ label) := by
  unfold amem at h
  cases hl : alookup g.nodes label with
  | none => rw [hl] at h; simp at h
  | some idx =>
    have hadj : (g.remove_node label).2.adjacency_list
        = (adel g.adjacency_list label).map
            (fun p => (p.1, p.2.filter (fun nb => nb.1 != label))) := by
      simp [Graph.remove_node, hl, removeFromDictionaries]
    refine ⟨by simp [Graph.remove_node, hl], ?_, ?_⟩
    · rw [hadj, alookup_map_value, alookup_adel_self]
      rfl
    · intro l lst hlst q hq
      rw [hadj, alookup_map_value] at hlst
      cases hadl : alookup (adel g.adjacency_list label) l with
      | none => rw [hadl] at hlst; simp at hlst
      | some lst0 =>
        rw [hadl] at hlst
        simp only [Option.map_some'] at hlst
        injection hlst with he
        rw [← he] at hq
        have hb := (List.mem_filter.mp hq).2
        simpa using hb

/-! ## Matrix and index helper lemmas -/

theorem matrixGet_matrixSet_self {m : List (List Nat)} {i j : Nat} {row : List Nat}
    (hrow : m.get? i = some row) (hj : j < row.length) (w : Nat) :
    matrixGet (matrixSet m i j w) i j = w := by
  obtain ⟨hi, -⟩ := List.get?_eq_some.mp hrow
  unfold matrixSet
  rw [hrow]
  unfold matrixGet
  rw [List.get?_set_eq_of_lt _ hi]
  simp only [Option.getD_some]
  rw [List.get?_set_eq_of_lt _ (by simpa using hj)]
  rfl

theorem matrixGet_matrixSet_other {m : List (List Nat)} {i j i' j' : Nat}
    (h : i ≠ i' ∨ j ≠ j') (w : Nat) :
    matrixGet (matrixSet m i' j' w) i j = matrixGet m i j := by
  unfold matrixSet
  cases hrow : m.get? i' with
  | none => rfl
  | some row =>
    unfold matrixGet
    rcases h with h | h
    · rw [List.get?_set_ne _ _ (fun he => h he.symm)]
    · rcases eq_or_ne i i' with rfl | hii
      · obtain ⟨hi, -⟩ := List.get?_eq_some.mp hrow
        rw [List.get?_set_eq_of_lt _ hi, hrow]
        simp only [Option.getD_some]
        rw [List.get?_set_ne _ _ (fun he => h he.symm)]
      · rw [List.get?_set_ne _ _ (fun he => hii he.symm)]

theorem wf_nodes_enum {g : Graph} (hw : WfGraph g) :
    g.nodes = enumMapFrom 0 g.nodes_list :=
  hw.1

theorem wf_lookup_index {g : Graph} (hw : WfGraph g) {a : String} {i : Nat}
    (h : alookup g.nodes a = some i) :
    i < g.node_count ∧ g.nodes_list.get? i = some a := by
  rw [wf_nodes_enum hw, alookup_enumMapFrom hw.2.1 0 i a] at h
  obtain ⟨-, hget⟩ := h
  rw [Nat.sub_zero] at hget
  obtain ⟨hlt, -⟩ := List.get?_eq_some.mp hget
  exact ⟨by rw [hw.2.2.1]; exact hlt, hget⟩

theorem wf_index_ne {g : Graph} (hw : WfGraph g) {a b : String} {ia ib : Nat}
    (ha : alookup g.nodes a = some ia) (hb : alookup g.nodes b = some ib)
    (hab : a ≠ b) : ia ≠ ib := by
  intro he
  subst he
  have h1 := (wf_lookup_index hw ha).2
  have h2 := (wf_lookup_index hw hb).2
  rw [h1] at h2
  exact hab (Option.some.inj h2)

theorem wf_matrix_row {g : Graph} (hw : WfGraph g) {i : Nat} (hi : i < g.node_count) :
    ∃ row, g.adjacency_matrix.get? i = some row ∧ row.length = g.node_count := by
  have hlen : g.adjacency_matrix.length = g.node_count := hw.2.2.2.1
  have hi' : i < g.adjacency_matrix.length := by omega
  refine ⟨g.adjacency_matrix.get ⟨i, hi'⟩, List.get?_eq_get hi', ?_⟩
  exact hw.2.2.2.2.1 _ (g.adjacency_matrix.get_mem _ _)

/-- The matrix after `_update_adjacency_matrix` holds the new weight at
`[idx1][idx2]` (and `[idx2][idx1]` when undirected), in any square state. -/
theorem matrixUpdate_get {g : Graph} (hw : WfGraph g) {a b : String} {ia ib : Nat}
    (ha : alookup g.nodes a = some ia) (hb : alookup g.nodes b = some ib)
    (dir : Bool) (w : Nat) :
    matrixGet (matrixUpdate g.adjacency_matrix dir ia ib w) ia ib = w ∧
    (dir = false → matrixGet (matrixUpdate g.adjacency_matrix dir ia ib w) ib ia = w) := by
  obtain ⟨hia, -⟩ := wf_lookup_index hw ha
  obtain ⟨hib, -⟩ := wf_lookup_index hw hb
  obtain ⟨rowa, hrowa, hlena⟩ := wf_matrix_row hw hia
  obtain ⟨rowb, hrowb, hlenb⟩ := wf_matrix_row hw hib
  have hmlen : g.adjacency_matrix.length = g.node_count := hw.2.2.2.1
  unfold matrixUpdate
  cases dir with
  | true =>
    simp only [if_pos]
    exact ⟨matrixGet_matrixSet_self hrowa (by omega) w, by intro h; cases h⟩
  | false =>
    simp only [Bool.false_eq_true, if_neg, not_false_iff]
    rcases eq_or_ne ia ib with rfl | hne
    · have hrow' : (matrixSet g.adjacency_matrix ia ia w).get? ia
          = some (rowa.set ia w) := by
        unfold matrixSet
        rw [hrowa]
        exact List.get?_set_eq_of_lt _ (by omega)
      constructor
      · exact matrixGet_matrixSet_self hrow' (by simpa using by omega) w
      · intro _
        exact matrixGet_matrixSet_self hrow' (by simpa using by omega) w
    · have hrow' : (matrixSet g.adjacency_matrix ia ib w).get? ib = some rowb := by
        unfold matrixSet
        rw [hrowa]
        rw [List.get?_set_ne _ _ hne]
        exact hrowb
      constructor
      · rw [matrixGet_matrixSet_other (Or.inl hne) w]
        exact matrixGet_matrixSet_self hrowa (by omega) w
      · intro _
        exact matrixGet_matrixSet_self hrow' (by omega) w

/-! ## C7: re-adding an edge updates the matrix but not the list -/

theorem add_edge_keeps_nodes (g : Graph) (a b : String) (w : Nat) :
    (g.add_edge a b w).2.nodes = g.nodes := by
  unfold Graph.add_edge
  by_cases h : g.validate_nodes a b = true <;> simp [h]

/-- C7. A second `add_edge` on an already-listed pair returns `True`, rewrites
the matrix cell(s) to the new weight, but leaves the stored neighbor list of
the first endpoint untouched (first write wins in the list). -/
theorem add_edge_second_call_matrix_only (g : Graph) (a b : String) (w2 : Nat)
    (hw : WfGraph g) (ha : amem g.nodes a = true) (hb : amem g.nodes b = true)
    (hl : hasEdgeInList g.adjacency_list a b = true) :
    (g.add_edge a b w2).1 = true ∧
    alookup (g.add_edge a b w2).2.adjacency_list a = alookup g.adjacency_list a ∧
    Graph.get_edge_weight (g.add_edge a b w2).2 a b = some w2 ∧
    (g.directed = false → Graph.get_edge_weight (g.add_edge a b w2).2 b a = some w2) := by
  have hval : g.validate_nodes a b = true := by
    unfold Graph.validate_nodes
    rw [ha, hb]
    rfl
  obtain ⟨ia, hia⟩ : ∃ i, alookup g.nodes a = some i := by
    unfold amem at ha
    cases h : alookup g.nodes a with
    | none => rw [h] at ha; simp at ha
    | some i => exact ⟨i, rfl⟩
  obtain ⟨ib, hib⟩ : ∃ i, alookup g.nodes b = some i := by
    unfold amem at hb
    cases h : alookup g.nodes b with
    | none => rw [h] at hb; simp at hb
    | some i => exact ⟨i, rfl⟩
  have hmatrix := matrixUpdate_get hw hia hib g.directed w2
  have hadj : updateAdjacencyList g.adjacency_list g.directed a b w2 =
      if !g.directed && !hasEdgeInList g.adjacency_list b a then
        amodify g.adjacency_list b (fun l => l ++ [(a, w2)])
      else g.adjacency_list := by
    unfold updateAdjacencyList
    rw [if_pos hl]
  have hlista : alookup (updateAdjacencyList g.adjacency_list g.directed a b w2) a
      = alookup g.adjacency_list a := by
    rw [hadj]
    by_cases hcond : (!g.directed && !hasEdgeInList g.adjacency_list b a) = true
    · rw [if_pos hcond]
      rcases eq_or_ne b a with rfl | hba
      · rw [hl] at hcond
        simp at hcond
      · exact alookup_amodify_ne _ _ (fun he => hba he.symm)
    · rw [if_neg hcond]
  refine ⟨?_, ?_, ?_, ?_⟩
  · simp [Graph.add_edge, hval]
  · rw [show (g.add_edge a b w2).2.adjacency_list
        = updateAdjacencyList g.adjacency_list g.directed a b w2 from by
      simp [Graph.add_edge, hval]]
    exact hlista
  · unfold Graph.get_edge_weight
    rw [show (g.add_edge a b w2).2.nodes = g.nodes from add_edge_keeps_nodes g a b w2]
    rw [show Graph.validate_nodes (g.add_edge a b w2).2 a b = true from by
      unfold Graph.validate_nodes
      rw [add_edge_keeps_nodes g a b w2, ha, hb]
      rfl]
    rw [if_pos rfl, hia, hib]
    simp only [Option.getD_some]
    rw [show (g.add_edge a b w2).2.adjacency_matrix
        = matrixUpdate g.adjacency_matrix g.directed ia ib w2 from by
      simp [Graph.add_edge, hval, hia, hib]]
    rw [hmatrix.1]
  · intro hdir
    unfold Graph.get_edge_weight
    rw [show (g.add_edge a b w2).2.nodes = g.nodes from add_edge_keeps_nodes g a b w2]
    rw [show Graph.validate_nodes (g.add_edge a b w2).2 b a = true from by
      unfold Graph.validate_nodes
      rw [add_edge_keeps_nodes g a b w2, ha, hb]
      rfl]
    rw [if_pos rfl, hia, hib]
    simp only [Option.getD_some]
    rw [show (g.add_edge a b w2).2.adjacency_matrix
        = matrixUpdate g.adjacency_matrix g.directed ia ib w2 from by
      simp [Graph.add_edge, hval, hia, hib]]
    rw [hmatrix.2 hdir]

/-! ## C9: set_edge_weight on an unlisted pair -/

theorem updateEntryWeight_of_not_mem {l : List (String × Nat)} {b : String}
    (h : b ∉ l.map Prod.fst) (w : Nat) : updateEntryWeight l b w = l := by
  induction l with
  | nil => rfl
  | cons hd tl ih =>
    have h1 : hd.1 ≠ b := fun he => h (by simp [he])
    have h2 : b ∉ tl.map Prod.fst := fun hm => h (by simp [hm])
    simp [updateEntryWeight, h1, ih h2]

theorem updateEntryWeight_map_fst (l : List (String × Nat)) (b : String) (w : Nat) :
    (updateEntryWeight l b w).map Prod.fst = l.map Prod.fst := by
  induction l with
  | nil => rfl
  | cons hd tl ih =>
    rcases eq_or_ne hd.1 b with he | hne
    · simp [updateEntryWeight, he]
    · simp [updateEntryWeight, hne, ih]

theorem amodify_eq_self {α : Type} {d : List (String × α)} {k : String} {f : α → α}
    (h : ∀ v, alookup d k = some v → f v = v) : amodify d k f = d := by
  induction d with
  | nil => rfl
  | cons hd tl ih =>
    obtain ⟨k1, v1⟩ := hd
    rcases eq_or_ne k1 k with rfl | hne
    · have hfv : f v1 = v1 := h v1 (by simp [alookup])
      simp [amodify, hfv]
    · have hrec := ih (fun v hv => h v (by simpa [alookup, hne] using hv))
      simp [amodify, hne, hrec]

theorem hasEdgeInList_false_not_mem {adj : List (String × List (String × Nat))}
    {a b : String} (h : hasEdgeInList adj a b = false) :
    b ∉ ((alookup adj a).getD []).map Prod.fst := by
  unfold hasEdgeInList at h
  intro hmem
  obtain ⟨q, hq, hq1⟩ := List.mem_map.mp hmem
  have := List.any_eq_false.mp h q hq
  simp [hq1] at this

theorem set_edge_weight_keeps_nodes (g : Graph) (a b : String) (w : Nat) :
    (g.set_edge_weight a b w).2.nodes = g.nodes := by
  unfold Graph.set_edge_weight
  by_cases h : g.validate_nodes a b = true <;> simp [h]

/-- C9. When both endpoints exist but `a`'s neighbor list has no entry for
`b`, `set_edge_weight` returns `True` and writes the matrix, so `has_edge`
becomes true (for a nonzero weight), yet appends nothing to either adjacency
list: `a`'s stored list is unchanged (in particular it still does not name
`b`), and `b`'s stored list keeps exactly its neighbor set. -/
theorem set_edge_weight_matrix_list_divergence (g : Graph) (a b : String) (w : Nat)
    (hw : WfGraph g) (ha : amem g.nodes a = true) (hb : amem g.nodes b = true)
    (hnl : hasEdgeInList g.adjacency_list a b = false) (hw0 : w ≠ 0) :
    (g.set_edge_weight a b w).1 = true ∧
    Graph.get_edge_weight (g.set_edge_weight a b w).2 a b = some w ∧
    Graph.has_edge (g.set_edge_weight a b w).2 a b = true ∧
    Graph.get_neighbors (g.set_edge_weight a b w).2 a = Graph.get_neighbors g a ∧
    (Graph.get_neighbors (g.set_edge_weight a b w).2 b).map Prod.fst
      = (Graph.get_neighbors g b).map Prod.fst ∧
    b ∉ (Graph.get_neighbors (g.set_edge_weight a b w).2 a).map Prod.fst := by
  have hval : g.validate_nodes a b = true := by
    unfold Graph.validate_nodes
    rw [ha, hb]
    rfl
  obtain ⟨ia, hia⟩ : ∃ i, alookup g.nodes a = some i := by
    unfold amem at ha
    cases h : alookup g.nodes a with
    | none => rw [h] at ha; simp at ha
    | some i => exact ⟨i, rfl⟩
  obtain ⟨ib, hib⟩ : ∃ i, alookup g.nodes b = some i := by
    unfold amem at hb
    cases h : alookup g.nodes b with
    | none => rw [h] at hb; simp at hb
    | some i => exact ⟨i, rfl⟩
  have hmatrix := matrixUpdate_get hw hia hib g.directed w
  have hbnota : b ∉ ((alookup g.adjacency_list a).getD []).map Prod.fst :=
    hasEdgeInList_false_not_mem hnl
  -- the first in-place rewrite touches a's list but changes nothing
  have hadj1 : amodify g.adjacency_list a (fun l => updateEntryWeight l b w)
      = g.adjacency_list := by
    apply amodify_eq_self
    intro v hv
    apply updateEntryWeight_of_not_mem
    rw [hv] at hbnota
    simpa using hbnota
  have hadj2 : (g.set_edge_weight a b w).2.adjacency_list =
      if !g.directed then
        amodify g.adjacency_list b (fun l => updateEntryWeight l a w)
      else g.adjacency_list := by
    simp only [Graph.set_edge_weight, hval, if_pos]
    rw [hadj1]
  have hlookup_a : alookup (g.set_edge_weight a b w).2.adjacency_list a
      = alookup g.adjacency_list a := by
    rw [hadj2]
    by_cases hdir : g.directed = true
    · simp [hdir]
    · have hdir' : g.directed = false := by
        cases hd : g.directed
        · rfl
        · exact absurd hd hdir
      simp only [hdir', Bool.not_false, if_pos]
      rcases eq_or_ne b a with rfl | hba
      · rw [amodify_eq_self]
        intro v hv
        apply updateEntryWeight_of_not_mem
        rw [hv] at hbnota
        simpa using hbnota
      · exact alookup_amodify_ne _ _ (fun he => hba he.symm)
  have hkeys_b : ((alookup (g.set_edge_weight a b w).2.adjacency_list b).getD []).map Prod.fst
      = ((alookup g.adjacency_list b).getD []).map Prod.fst := by
    rw [hadj2]
    by_cases hdir : g.directed = true
    · simp [hdir]
    · have hdir' : g.directed = false := by
        cases hd : g.directed
        · rfl
        · exact absurd hd hdir
      simp only [hdir', Bool.not_false, if_pos]
      rw [alookup_amodify_self]
      cases hv : alookup g.adjacency_list b with
      | none => rfl
      | some v => simp [updateEntryWeight_map_fst]
  refine ⟨?_, ?_, ?_, ?_, ?_, ?_⟩
  · simp [Graph.set_edge_weight, hval]
  · unfold Graph.get_edge_weight
    rw [show Graph.validate_nodes (g.set_edge_weight a b w).2 a b = true from by
      unfold Graph.validate_nodes
      rw [set_edge_weight_keeps_nodes, ha, hb]
      rfl]
    rw [if_pos rfl, set_edge_weight_keeps_nodes, hia, hib]
    simp only [Option.getD_some]
    rw [show (g.set_edge_weight a b w).2.adjacency_matrix
        = matrixUpdate g.adjacency_matrix g.directed ia ib w from by
      simp [Graph.set_edge_weight, hval, hia, hib]]
    rw [hmatrix.1]
  · unfold Graph.has_edge
    rw [show Graph.validate_nodes (g.set_edge_weight a b w).2 a b = true from by
      unfold Graph.validate_nodes
      rw [set_edge_weight_keeps_nodes, ha, hb]
      rfl]
    rw [set_edge_weight_keeps_nodes, hia, hib]
    simp only [Option.getD_some, Bool.true_and]
    rw [show (g.set_edge_weight a b w).2.adjacency_matrix
        = matrixUpdate g.adjacency_matrix g.directed ia ib w from by
      simp [Graph.set_edge_weight, hval, hia, hib]]
    rw [hmatrix.1]
    simpa using hw0
  · unfold Graph.get_neighbors
    rw [hlookup_a]
  · unfold Graph.get_neighbors
    exact hkeys_b
  · unfold Graph.get_neighbors
    rw [hlookup_a]
    exact hbnota

/-! ## C10: falsy targets are treated as absent targets -/

theorem truthyTarget_none : truthyTarget none = false := rfl

theorem isTarget_none (c : String) : isTarget none c = false := rfl

theorem isTarget_false_of_not_truthy {t : Option String} (ht : truthyTarget t = false)
    (c : String) : isTarget t c = false := by
  unfold isTarget
  rw [ht]
  rfl

/-! ## One-step unfolding lemmas for the search loops -/

theorem bfsLoop_nil (g : Graph) (t : Option String) (v : Finset String)
    (p : List (String × Option String)) (o : List String) :
    bfsLoop g t [] v p o = if truthyTarget t = true then .absent else .order o := by
  rw [bfsLoop.eq_def]

theorem bfsLoop_cons_target (g : Graph) (t : Option String) (cur : String)
    (rest : List String) (v : Finset String) (p : List (String × Option String))
    (o : List String) (htar : isTarget t cur = true) :
    bfsLoop g t (cur :: rest) v p o
      = .path (walkParent (p.length + 1) p cur).reverse := by
  rw [bfsLoop.eq_def]
  simp only [htar, if_pos]

theorem bfsLoop_cons_expand (g : Graph) (t : Option String) (cur : String)
    (rest : List String) (v : Finset String) (p : List (String × Option String))
    (o : List String) {q' : List String} {v' : Finset String}
    {p' : List (String × Option String)} (htar : isTarget t cur = false)
    (hexp : bfsExpand cur (adjacencyGet g cur) rest v p = (q', v', p')) :
    bfsLoop g t (cur :: rest) v p o = bfsLoop g t q' v' p' (o ++ [cur]) := by
  rw [bfsLoop.eq_def]
  simp only
  rw [if_neg (by rw [htar]; exact Bool.false_ne_true)]
  rw [hexp]

theorem dfsLoop_nil (g : Graph) (t : Option String) (v : Finset String)
    (p : List (String × Option String)) (o : List String) :
    dfsLoop g t [] v p o = if truthyTarget t = true then .absent else .order o := by
  rw [dfsLoop.eq_def]

theorem dfsLoop_cons_skip (g : Graph) (t : Option String) {cur : String}
    (rest : List String) {v : Finset String} (p : List (String × Option String))
    (o : List String) (hv : cur ∈ v) :
    dfsLoop g t (cur :: rest) v p o = dfsLoop g t rest v p o := by
  rw [dfsLoop.eq_def]
  simp only [hv, if_pos]

theorem dfsLoop_cons_target (g : Graph) (t : Option String) {cur : String}
    (rest : List String) {v : Finset String} (p : List (String × Option String))
    (o : List String) (hv : cur ∉ v) (htar : isTarget t cur = true) :
    dfsLoop g t (cur :: rest) v p o
      = .path (walkParent (p.length + 1) p cur).reverse := by
  rw [dfsLoop.eq_def]
  simp only [hv, htar, if_pos, if_neg, not_false_iff]

theorem dfsLoop_cons_push (g : Graph) (t : Option String) {cur : String}
    (rest : List String) {v : Finset String} (p : List (String × Option String))
    (o : List String) {s' : List String} {p' : List (String × Option String)}
    (hv : cur ∉ v) (htar : isTarget t cur = false)
    (hpush : dfsPush cur (insert cur v) (adjacencyGet g cur).reverse rest p = (s', p')) :
    dfsLoop g t (cur :: rest) v p o
      = dfsLoop g t s' (insert cur v) p' (o ++ [cur]) := by
  rw [dfsLoop.eq_def]
  simp only
  rw [if_neg hv]
  rw [if_neg (by rw [htar]; exact Bool.false_ne_true)]
  rw [hpush]

theorem dijkstraLoop_empty (g : Graph) (t : Option String)
    (dist : List (String × Option Nat)) (prev : List (String × Option String))
    {pq : List (Nat × String)} (hpop : popMin pq = none) :
    dijkstraLoop g t dist prev pq
      = if truthyTarget t = true then .absent else .distMap dist := by
  rw [dijkstraLoop.eq_def]
  split
  next heq => rfl
  next d c rest heq =>
    rw [hpop] at heq
    cases heq

theorem dijkstraLoop_target (g : Graph) (t : Option String)
    (dist : List (String × Option Nat)) (prev : List (String × Option String))
    {pq rest : List (Nat × String)} {cd : Nat} {cur : String}
    (hpop : popMin pq = some ((cd, cur), rest)) (htar : isTarget t cur = true) :
    dijkstraLoop g t dist prev pq
      = .path (walkParent (prev.length + 1) prev cur).reverse := by
  rw [dijkstraLoop.eq_def]
  split
  next heq =>
    rw [hpop] at heq
    cases heq
  next d2 c2 rest2 heq =>
    rw [hpop] at heq
    injection heq with h1
    injection h1 with h1 h2
    injection h1 with h1 h3
    subst h1; subst h3; subst h2
    simp only [htar, if_pos]

theorem dijkstraLoop_stale (g : Graph) (t : Option String)
    (dist : List (String × Option Nat)) (prev : List (String × Option String))
    {pq rest : List (Nat × String)} {cd : Nat} {cur : String}
    (hpop : popMin pq = some ((cd, cur), rest)) (htar : isTarget t cur = false)
    (hstale : staleCheck dist cur cd = true) :
    dijkstraLoop g t dist prev pq = dijkstraLoop g t dist prev rest := by
  rw [dijkstraLoop.eq_def]
  split
  next heq =>
    rw [hpop] at heq
    cases heq
  next d2 c2 rest2 heq =>
    rw [hpop] at heq
    injection heq with h1
    injection h1 with h1 h2
    injection h1 with h1 h3
    subst h1; subst h3; subst h2
    rw [if_neg (by rw [htar]; exact Bool.false_ne_true), if_pos hstale]

theorem dijkstraLoop_relax (g : Graph) (t : Option String)
    {dist dist' : List (String × Option Nat)} {prev prev' : List (String × Option String)}
    {pq rest pq' : List (Nat × String)} {cd : Nat} {cur : String}
    (hpop : popMin pq = some ((cd, cur), rest)) (htar : isTarget t cur = false)
    (hstale : staleCheck dist cur cd = false)
    (hrel : relaxNeighbors cur cd (adjacencyGet g cur) dist prev rest
      = (dist', prev', pq')) :
    dijkstraLoop g t dist prev pq = dijkstraLoop g t dist' prev' pq' := by
  rw [dijkstraLoop.eq_def]
  split
  next heq =>
    rw [hpop] at heq
    cases heq
  next d2 c2 rest2 heq =>
    rw [hpop] at heq
    injection heq with h1
    injection h1 with h1 h2
    injection h1 with h1 h3
    subst h1; subst h3; subst h2
    rw [if_neg (by rw [htar]; exact Bool.false_ne_true)]
    rw [if_neg (by rw [hstale]; exact Bool.false_ne_true)]
    split
    next d3 p3 q3 heq2 =>
      rw [hrel] at heq2
      injection heq2 with h1 h2
      injection h2 with h2 h3
      rw [← h1, ← h2, ← h3]

theorem dfsRecVisit_zero (g : Graph) (t : Option String) (cur : String)
    (vis : Finset String) (ord path : List String) :
    dfsRecVisit g t 0 cur vis ord path = (false, vis, ord, path) := by
  rw [dfsRecVisit.eq_def]

theorem dfsRecVisit_succ_visited (g : Graph) (t : Option String) (fuel : Nat)
    {cur : String} {vis : Finset String} (ord path : List String) (hv : cur ∈ vis) :
    dfsRecVisit g t (fuel + 1) cur vis ord path = (false, vis, ord, path) := by
  rw [dfsRecVisit.eq_def]
  simp only [hv, if_pos]

theorem dfsRecVisit_succ_target (g : Graph) (t : Option String) (fuel : Nat)
    {cur : String} {vis : Finset String} (ord path : List String) (hv : cur ∉ vis)
    (htar : isTarget t cur = true) :
    dfsRecVisit g t (fuel + 1) cur vis ord path
      = (true, insert cur vis, ord ++ [cur], path) := by
  rw [dfsRecVisit.eq_def]
  simp only [hv, htar, if_pos, if_neg, not_false_iff]

theorem dfsRecVisit_succ_go (g : Graph) (t : Option String) (fuel : Nat)
    {cur : String} {vis : Finset String} (ord path : List String) (hv : cur ∉ vis)
    (htar : isTarget t cur = false) :
    dfsRecVisit g t (fuel + 1) cur vis ord path
      = dfsRecGo g t fuel (adjacencyGet g cur) (insert cur vis) (ord ++ [cur]) path := by
  rw [dfsRecVisit.eq_def]
  simp only
  rw [if_neg hv]
  rw [if_neg (by rw [htar]; exact Bool.false_ne_true)]

theorem dfsRecGo_nil (g : Graph) (t : Option String) (fuel : Nat)
    (vis : Finset String) (ord path : List String) :
    dfsRecGo g t fuel [] vis ord path = (false, vis, ord, path) := by
  rw [dfsRecGo.eq_def]

theorem dfsRecGo_cons_skip (g : Graph) (t : Option String) (fuel : Nat)
    {nb : String × Nat} (rest : List (String × Nat)) {vis : Finset String}
    (ord path : List String) (hv : nb.1 ∈ vis) :
    dfsRecGo g t fuel (nb :: rest) vis ord path
      = dfsRecGo g t fuel rest vis ord path := by
  rw [dfsRecGo.eq_def]
  simp only [hv, if_pos]

theorem dfsRecGo_cons_visit (g : Graph) (t : Option String) (fuel : Nat)
    {nb : String × Nat} (rest : List (String × Nat)) {vis : Finset String}
    (ord path : List String) (hv : nb.1 ∉ vis) :
    dfsRecGo g t fuel (nb :: rest) vis ord path
      = (match dfsRecVisit g t fuel nb.1 vis ord path with
         | (true, v', o', p') => (true, v', o', p' ++ [nb.1])
         | (false, v', o', p') => dfsRecGo g t fuel rest v' o' p') := by
  rw [dfsRecGo.eq_def]
  simp only
  rw [if_neg hv]

/-! ## C10: falsy targets are treated as absent targets -/

theorem bfsLoop_falsy (g : Graph) {t : Option String} (ht : truthyTarget t = false)
    (q : List String) (v : Finset String) (p : List (String × Option String))
    (o : List String) : bfsLoop g t q v p o = bfsLoop g none q v p o := by
  induction q, v, p, o using bfsLoop.induct g t with
  | case1 v p o htr => rw [ht] at htr; cases htr
  | case2 v p o htr => rw [bfsLoop_nil, bfsLoop_nil, ht, truthyTarget_none]
  | case3 cur rest v p o htar =>
    rw [isTarget_false_of_not_truthy ht] at htar
    cases htar
  | case4 cur rest v p o htar q' v' p' hexp ih =>
    rw [bfsLoop_cons_expand g t cur rest v p o
        (isTarget_false_of_not_truthy ht cur) hexp]
    rw [bfsLoop_cons_expand g none cur rest v p o (isTarget_none cur) hexp]
    exact ih

theorem bfsLoop_none_order (g : Graph) (q : List String) (v : Finset String)
    (p : List (String × Option String)) (o : List String) :
    ∃ l, bfsLoop g none q v p o = .order l := by
  induction q, v, p, o using bfsLoop.induct g none with
  | case1 v p o htr => cases htr
  | case2 v p o htr => exact ⟨o, by rw [bfsLoop_nil, truthyTarget_none]; rfl⟩
  | case3 cur rest v p o htar => rw [isTarget_none] at htar; cases htar
  | case4 cur rest v p o htar q' v' p' hexp ih =>
    obtain ⟨l, hl⟩ := ih
    exact ⟨l, by rw [bfsLoop_cons_expand g none cur rest v p o (isTarget_none cur) hexp]; exact hl⟩

theorem dfsLoop_falsy (g : Graph) {t : Option String} (ht : truthyTarget t = false)
    (q : List String) (v : Finset String) (p : List (String × Option String))
    (o : List String) : dfsLoop g t q v p o = dfsLoop g none q v p o := by
  induction q, v, p, o using dfsLoop.induct g t with
  | case1 v p o htr => rw [ht] at htr; cases htr
  | case2 v p o htr => rw [dfsLoop_nil, dfsLoop_nil, ht, truthyTarget_none]
  | case3 cur rest v p o hv ih =>
    rw [dfsLoop_cons_skip g t rest p o hv, dfsLoop_cons_skip g none rest p o hv]
    exact ih
  | case4 cur rest v p o hv htar =>
    rw [isTarget_false_of_not_truthy ht] at htar
    cases htar
  | case5 cur rest v p o hv htar s' p' hpush ih =>
    rw [dfsLoop_cons_push g t rest p o hv (isTarget_false_of_not_truthy ht cur) hpush]
    rw [dfsLoop_cons_push g none rest p o hv (isTarget_none cur) hpush]
    exact ih

theorem dfsLoop_none_order (g : Graph) (q : List String) (v : Finset String)
    (p : List (String × Option String)) (o : List String) :
    ∃ l, dfsLoop g none q v p o = .order l := by
  induction q, v, p, o using dfsLoop.induct g none with
  | case1 v p o htr => cases htr
  | case2 v p o htr => exact ⟨o, by rw [dfsLoop_nil, truthyTarget_none]; rfl⟩
  | case3 cur rest v p o hv ih =>
    obtain ⟨l, hl⟩ := ih
    exact ⟨l, by rw [dfsLoop_cons_skip g none rest p o hv]; exact hl⟩
  | case4 cur rest v p o hv htar => rw [isTarget_none] at htar; cases htar
  | case5 cur rest v p o hv htar s' p' hpush ih =>
    obtain ⟨l, hl⟩ := ih
    exact ⟨l, by
      rw [dfsLoop_cons_push g none rest p o hv (isTarget_none cur) hpush]
      exact hl⟩

theorem dijkstraLoop_falsy (g : Graph) {t : Option String} (ht : truthyTarget t = false)
    (dist : List (String × Option Nat)) (prev : List (String × Option String))
    (pq : List (Nat × String)) :
    dijkstraLoop g t dist prev pq = dijkstraLoop g none dist prev pq := by
  induction dist, prev, pq using dijkstraLoop.induct g t with
  | case1 dist prev pq hpop htr => rw [ht] at htr; cases htr
  | case2 dist prev pq hpop htr =>
    rw [dijkstraLoop_empty g t dist prev hpop, dijkstraLoop_empty g none dist prev hpop,
      ht, truthyTarget_none]
  | case3 dist prev pq cd cur rest hpop htar =>
    rw [isTarget_false_of_not_truthy ht] at htar
    cases htar
  | case4 dist prev pq cd cur rest hpop htar hstale ih =>
    rw [dijkstraLoop_stale g t dist prev hpop (isTarget_false_of_not_truthy ht cur) hstale]
    rw [dijkstraLoop_stale g none dist prev hpop (isTarget_none cur) hstale]
    exact ih
  | case5 dist prev pq cd cur rest hpop htar hstale dist' prev' pq' hrel ih =>
    have hstale' : staleCheck dist cur cd = false := by
      cases h : staleCheck dist cur cd
      · rfl
      · exact absurd h hstale
    rw [dijkstraLoop_relax g t hpop (isTarget_false_of_not_truthy ht cur) hstale' hrel]
    rw [dijkstraLoop_relax g none hpop (isTarget_none cur) hstale' hrel]
    exact ih

theorem dijkstraLoop_none_distMap (g : Graph) (dist : List (String × Option Nat))
    (prev : List (String × Option String)) (pq : List (Nat × String)) :
    ∃ dm, dijkstraLoop g none dist prev pq = .distMap dm := by
  induction dist, prev, pq using dijkstraLoop.induct g none with
  | case1 dist prev pq hpop htr => cases htr
  | case2 dist prev pq hpop htr =>
    exact ⟨dist, by rw [dijkstraLoop_empty g none dist prev hpop, truthyTarget_none]; rfl⟩
  | case3 dist prev pq cd cur rest hpop htar => rw [isTarget_none] at htar; cases htar
  | case4 dist prev pq cd cur rest hpop htar hstale ih =>
    obtain ⟨dm, hdm⟩ := ih
    exact ⟨dm, by
      rw [dijkstraLoop_stale g none dist prev hpop (isTarget_none cur) hstale]
      exact hdm⟩
  | case5 dist prev pq cd cur rest hpop htar hstale dist' prev' pq' hrel ih =>
    obtain ⟨dm, hdm⟩ := ih
    have hstale' : staleCheck dist cur cd = false := by
      cases h : staleCheck dist cur cd
      · rfl
      · exact absurd h hstale
    exact ⟨dm, by
      rw [dijkstraLoop_relax g none hpop (isTarget_none cur) hstale' hrel]
      exact hdm⟩

theorem dfsRec_falsy (g : Graph) {t : Option String} (ht : truthyTarget t = false) :
    ∀ fuel,
      (∀ cur vis ord path, dfsRecVisit g t fuel cur vis ord path
        = dfsRecVisit g none fuel cur vis ord path) ∧
      (∀ nbrs vis ord path, dfsRecGo g t fuel nbrs vis ord path
        = dfsRecGo g none fuel nbrs vis ord path) := by
  intro fuel
  induction fuel with
  | zero =>
    have hgo : ∀ (nbrs : List (String × Nat)) vis ord path,
        dfsRecGo g t 0 nbrs vis ord path = dfsRecGo g none 0 nbrs vis ord path := by
      intro nbrs
      induction nbrs with
      | nil => intro vis ord path; rw [dfsRecGo_nil, dfsRecGo_nil]
      | cons nb rest ih =>
        intro vis ord path
        by_cases hv : nb.1 ∈ vis
        · rw [dfsRecGo_cons_skip g t 0 rest ord path hv,
            dfsRecGo_cons_skip g none 0 rest ord path hv]
          exact ih vis ord path
        · rw [dfsRecGo_cons_visit g t 0 rest ord path hv,
            dfsRecGo_cons_visit g none 0 rest ord path hv]
          rw [dfsRecVisit_zero, dfsRecVisit_zero]
          simp only
          exact ih vis ord path
    exact ⟨fun cur vis ord path => by rw [dfsRecVisit_zero, dfsRecVisit_zero], hgo⟩
  | succ n ihn =>
    have hvisit : ∀ cur vis ord path, dfsRecVisit g t (n + 1) cur vis ord path
        = dfsRecVisit g none (n + 1) cur vis ord path := by
      intro cur vis ord path
      by_cases hv : cur ∈ vis
      · rw [dfsRecVisit_succ_visited g t n ord path hv,
          dfsRecVisit_succ_visited g none n ord path hv]
      · rw [dfsRecVisit_succ_go g t n ord path hv (isTarget_false_of_not_truthy ht cur),
          dfsRecVisit_succ_go g none n ord path hv (isTarget_none cur)]
        exact ihn.2 _ _ _ _
    refine ⟨hvisit, ?_⟩
    intro nbrs
    induction nbrs with
    | nil => intro vis ord path; rw [dfsRecGo_nil, dfsRecGo_nil]
    | cons nb rest ih =>
      intro vis ord path
      by_cases hv : nb.1 ∈ vis
      · rw [dfsRecGo_cons_skip g t (n + 1) rest ord path hv,
          dfsRecGo_cons_skip g none (n + 1) rest ord path hv]
        exact ih vis ord path
      · rw [dfsRecGo_cons_visit g t (n + 1) rest ord path hv,
          dfsRecGo_cons_visit g none (n + 1) rest ord path hv]
        rw [hvisit nb.1 vis ord path]
        cases hres : dfsRecVisit g none (n + 1) nb.1 vis ord path with
        | mk found rest2 =>
          obtain ⟨v', o', p'⟩ := rest2
          cases found
          · simp only
            exact ih v' o' p'
          · simp only

theorem dfsRecVisit_not_found (g : Graph) :
    ∀ fuel,
      (∀ cur vis ord path, (dfsRecVisit g none fuel cur vis ord path).1 = false) ∧
      (∀ nbrs vis ord path, (dfsRecGo g none fuel nbrs vis ord path).1 = false) := by
  intro fuel
  induction fuel with
  | zero =>
    have hgo : ∀ (nbrs : List (String × Nat)) vis ord path,
        (dfsRecGo g none 0 nbrs vis ord path).1 = false := by
      intro nbrs
      induction nbrs with
      | nil => intro vis ord path; rw [dfsRecGo_nil]
      | cons nb rest ih =>
        intro vis ord path
        by_cases hv : nb.1 ∈ vis
        · rw [dfsRecGo_cons_skip g none 0 rest ord path hv]
          exact ih vis ord path
        · rw [dfsRecGo_cons_visit g none 0 rest ord path hv]
          rw [dfsRecVisit_zero]
          simp only
          exact ih vis ord path
    exact ⟨fun cur vis ord path => by rw [dfsRecVisit_zero], hgo⟩
  | succ n ihn =>
    have hvisit : ∀ cur vis ord path,
        (dfsRecVisit g none (n + 1) cur vis ord path).1 = false := by
      intro cur vis ord path
      by_cases hv : cur ∈ vis
      · rw [dfsRecVisit_succ_visited g none n ord path hv]
      · rw [dfsRecVisit_succ_go g none n ord path hv (isTarget_none cur)]
        exact ihn.2 _ _ _ _
    refine ⟨hvisit, ?_⟩
    intro nbrs
    induction nbrs with
    | nil => intro vis ord path; rw [dfsRecGo_nil]
    | cons nb rest ih =>
      intro vis ord path
      by_cases hv : nb.1 ∈ vis
      · rw [dfsRecGo_cons_skip g none (n + 1) rest ord path hv]
        exact ih vis ord path
      · rw [dfsRecGo_cons_visit g none (n + 1) rest ord path hv]
        cases hres : dfsRecVisit g none (n + 1) nb.1 vis ord path with
        | mk found rest2 =>
          obtain ⟨v', o', p'⟩ := rest2
          cases found
          · simp only
            exact ih v' o' p'
          · exfalso
            have hf := hvisit nb.1 vis ord path
            rw [hres] at hf
            simp at hf

/-- C10. Passing the falsy empty-string label as target to `bfs`, `dfs`,
`dfs_recursive` or `dijkstra` is treated exactly like passing no target: the
call returns the full visitation order (for `dijkstra`, the full distance
mapping) instead of a path, even when `""` is itself a node of the graph. -/
theorem falsy_target_treated_as_no_target (g : Graph) (s : String)
    (hs : amem g.nodes s = true) :
    g.bfs s (some "") = g.bfs s none ∧
    g.dfs s (some "") = g.dfs s none ∧
    g.dfs_recursive s (some "") = g.dfs_recursive s none ∧
    g.dijkstra s (some "") = g.dijkstra s none ∧
    (∃ l, g.bfs s (some "") = .order l) ∧
    (∃ l, g.dfs s (some "") = .order l) ∧
    (∃ l, g.dfs_recursive s (some "") = .order l) ∧
    (∃ dm, g.dijkstra s (some "") = .distMap dm) := by
  have hts : truthyTarget (some "") = false := rfl
  have hbfs1 : g.bfs s (some "") = bfsLoop g (some "") [s] {s} [(s, none)] [] := by
    unfold Graph.bfs
    rw [hs, hts]
    rfl
  have hbfs2 : g.bfs s none = bfsLoop g none [s] {s} [(s, none)] [] := by
    unfold Graph.bfs
    rw [hs]
    rfl
  have hdfs1 : g.dfs s (some "") = dfsLoop g (some "") [s] ∅ [(s, none)] [] := by
    unfold Graph.dfs
    rw [hs, hts]
    rfl
  have hdfs2 : g.dfs s none = dfsLoop g none [s] ∅ [(s, none)] [] := by
    unfold Graph.dfs
    rw [hs]
    rfl
  have hdij1 : g.dijkstra s (some "") = dijkstraLoop g (some "")
      (aset (g.nodes_list.map (fun n => (n, (none : Option Nat)))) s (some 0))
      (g.nodes_list.map (fun n => (n, (none : Option String)))) [(0, s)] := by
    unfold Graph.dijkstra
    rw [hs]
    rfl
  have hdij2 : g.dijkstra s none = dijkstraLoop g none
      (aset (g.nodes_list.map (fun n => (n, (none : Option Nat)))) s (some 0))
      (g.nodes_list.map (fun n => (n, (none : Option String)))) [(0, s)] := by
    unfold Graph.dijkstra
    rw [hs]
    rfl
  have hrec1 : g.dfs_recursive s (some "")
      = (match dfsRecVisit g (some "") ((labelUniverse g).card + 1) s ∅ [] [] with
         | (_, _, visit_order, _) => SearchResult.order visit_order) := by
    unfold Graph.dfs_recursive
    rw [hs, hts]
    rfl
  have hrec2 : g.dfs_recursive s none
      = (match dfsRecVisit g none ((labelUniverse g).card + 1) s ∅ [] [] with
         | (_, _, visit_order, _) => SearchResult.order visit_order) := by
    unfold Graph.dfs_recursive
    rw [hs]
    rfl
  have heqb : g.bfs s (some "") = g.bfs s none := by
    rw [hbfs1, hbfs2, bfsLoop_falsy g hts]
  have heqd : g.dfs s (some "") = g.dfs s none := by
    rw [hdfs1, hdfs2, dfsLoop_falsy g hts]
  have heqr : g.dfs_recursive s (some "") = g.dfs_recursive s none := by
    rw [hrec1, hrec2, (dfsRec_falsy g hts ((labelUniverse g).card + 1)).1]
  have heqk : g.dijkstra s (some "") = g.dijkstra s none := by
    rw [hdij1, hdij2, dijkstraLoop_falsy g hts]
  refine ⟨heqb, heqd, heqr, heqk, ?_, ?_, ?_, ?_⟩
  · rw [heqb, hbfs2]
    exact bfsLoop_none_order g _ _ _ _
  · rw [heqd, hdfs2]
    exact dfsLoop_none_order g _ _ _ _
  · rw [heqr, hrec2]
    cases hres : dfsRecVisit g none ((labelUniverse g).card + 1) s ∅ [] [] with
    | mk found rest2 =>
      obtain ⟨v', o', p'⟩ := rest2
      exact ⟨o', rfl⟩
  · rw [heqk, hdij2]
    exact dijkstraLoop_none_distMap g _ _ _

/-- Concrete well-formed graph used by witnesses: the specification's test
scenario (nodes A, B, C, D; undirected edges A-B(2), A-C(1), B-C(3), C-D(4)). -/
def gSpec : Graph :=
  addEdges (addNodes (Graph.empty false) ["A", "B", "C", "D"])
    [("A", "B", 2), ("A", "C", 1), ("B", "C", 3), ("C", "D", 4)]

theorem falsy_target_treated_as_no_target_witness :
    amem gSpec.nodes "A" = true ∧
    (gSpec.bfs "A" (some "") = gSpec.bfs "A" none ∧
     gSpec.dfs "A" (some "") = gSpec.dfs "A" none ∧
     gSpec.dfs_recursive "A" (some "") = gSpec.dfs_recursive "A" none ∧
     gSpec.dijkstra "A" (some "") = gSpec.dijkstra "A" none ∧
     (∃ l, gSpec.bfs "A" (some "") = .order l) ∧
     (∃ l, gSpec.dfs "A" (some "") = .order l) ∧
     (∃ l, gSpec.dfs_recursive "A" (some "") = .order l) ∧
     (∃ dm, gSpec.dijkstra "A" (some "") = .distMap dm)) :=
  ⟨by decide, falsy_target_treated_as_no_target gSpec "A" (by decide)⟩

/-! ## C8: structured errors of the three-point router -/

/-- C8. The router validates the three labels in order and reports the first
missing one in a structured failure; when all three exist and a Dijkstra leg
comes back absent, it reports a structured no-path failure naming that leg's
endpoints.  No other outcome is possible in these situations. -/
theorem route_structured_errors (g : Graph) (origin pickup dest : String) :
    (amem g.nodes origin = false →
      g.shortest_path_three_points origin pickup dest
        = .failure ("El nodo " ++ origin ++ " no existe en el grafo")) ∧
    (amem g.nodes origin = true → amem g.nodes pickup = false →
      g.shortest_path_three_points origin pickup dest
        = .failure ("El nodo " ++ pickup ++ " no existe en el grafo")) ∧
    (amem g.nodes origin = true → amem g.nodes pickup = true →
      amem g.nodes dest = false →
      g.shortest_path_three_points origin pickup dest
        = .failure ("El nodo " ++ dest ++ " no existe en el grafo")) ∧
    (amem g.nodes origin = true → amem g.nodes pickup = true →
      amem g.nodes dest = true →
      g.dijkstra origin (some pickup) = .absent →
      g.shortest_path_three_points origin pickup dest
        = .failure ("No hay camino desde " ++ origin ++ " a " ++ pickup)) ∧
    (amem g.nodes origin = true → amem g.nodes pickup = true →
      amem g.nodes dest = true →
      dijkFalsy (g.dijkstra origin (some pickup)) = false →
      g.dijkstra pickup (some dest) = .absent →
      g.shortest_path_three_points origin pickup dest
        = .failure ("No hay camino desde " ++ pickup ++ " a " ++ dest)) := by
  refine ⟨?_, ?_, ?_, ?_, ?_⟩
  · intro h1
    unfold Graph.shortest_path_three_points
    rw [h1]
    rfl
  · intro h1 h2
    unfold Graph.shortest_path_three_points
    rw [h1, h2]
    rfl
  · intro h1 h2 h3
    unfold Graph.shortest_path_three_points
    rw [h1, h2, h3]
    rfl
  · intro h1 h2 h3 h4
    unfold Graph.shortest_path_three_points
    rw [h1, h2, h3, h4]
    rfl
  · intro h1 h2 h3 h4 h5
    unfold Graph.shortest_path_three_points
    rw [h1, h2, h3]
    simp [h4, h5, dijkFalsy]
    intro hcontra
    exfalso
    unfold dijkFalsy at h4
    rw [hcontra] at h4
    cases h4

theorem route_structured_errors_witness :
    amem gSpec.nodes "A" = true ∧ amem gSpec.nodes "C" = true ∧
    amem gSpec.nodes "Z" = false ∧
    gSpec.shortest_path_three_points "A" "C" "Z"
      = .failure ("El nodo " ++ "Z" ++ " no existe en el grafo") :=
  ⟨by decide, by decide, by decide,
    (route_structured_errors gSpec "A" "C" "Z").2.2.1 (by decide) (by decide) (by decide)⟩

theorem remove_node_purges_adjacency_witness :
    amem gSpec.nodes "C" = true ∧
    ((gSpec.remove_node "C").1 = true ∧
     alookup (gSpec.remove_node "C").2.adjacency_list "C" = none ∧
     (∀ l lst, alookup (gSpec.remove_node "C").2.adjacency_list l = some lst →
       ∀ q ∈ lst, q.1 ≠ "C")) :=
  ⟨by decide, remove_node_purges_adjacency gSpec "C" (by decide)⟩

theorem add_edge_second_call_matrix_only_witness :
    WfGraph gSpec ∧ amem gSpec.nodes "A" = true ∧ amem gSpec.nodes "B" = true ∧
    hasEdgeInList gSpec.adjacency_list "A" "B" = true ∧
    ((gSpec.add_edge "A" "B" 9).1 = true ∧
     alookup (gSpec.add_edge "A" "B" 9).2.adjacency_list "A"
       = alookup gSpec.adjacency_list "A" ∧
     Graph.get_edge_weight (gSpec.add_edge "A" "B" 9).2 "A" "B" = some 9 ∧
     (gSpec.directed = false →
       Graph.get_edge_weight (gSpec.add_edge "A" "B" 9).2 "B" "A" = some 9)) :=
  ⟨by decide, by decide, by decide, by decide,
    add_edge_second_call_matrix_only gSpec "A" "B" 9 (by decide) (by decide) (by decide)
      (by decide)⟩

theorem set_edge_weight_matrix_list_divergence_witness :
    WfGraph gSpec ∧ amem gSpec.nodes "A" = true ∧ amem gSpec.nodes "D" = true ∧
    hasEdgeInList gSpec.adjacency_list "A" "D" = false ∧ (4 : Nat) ≠ 0 ∧
    ((gSpec.set_edge_weight "A" "D" 4).1 = true ∧
     Graph.get_edge_weight (gSpec.set_edge_weight "A" "D" 4).2 "A" "D" = some 4 ∧
     Graph.has_edge (gSpec.set_edge_weight "A" "D" 4).2 "A" "D" = true ∧
     Graph.get_neighbors (gSpec.set_edge_weight "A" "D" 4).2 "A"
       = Graph.get_neighbors gSpec "A" ∧
     (Graph.get_neighbors (gSpec.set_edge_weight "A" "D" 4).2 "D").map Prod.fst
       = (Graph.get_neighbors gSpec "D").map Prod.fst ∧
     "D" ∉ (Graph.get_neighbors (gSpec.set_edge_weight "A" "D" 4).2 "A").map Prod.fst) :=
  ⟨by decide, by decide, by decide, by decide, by decide,
    set_edge_weight_matrix_list_divergence gSpec "A" "D" 4 (by decide) (by decide)
      (by decide) (by decide) (by decide)⟩

/-! ## C1 counterexample: the add_edge quirk breaks the route-total equation -/

/-- The spec term `dijkstra_weight(x, y)`: the distance recorded for `y` by a
full Dijkstra run from `x` (the shortest-path distance Dijkstra computes). -/
def dijkstra_weight (g : Graph) (x y : String) : Option Nat :=
  match g.dijkstra x none with
  | .distMap d => (alookup d y).getD none
  | _ => none

/-- Two nodes with `add_edge("A","B",5)` then `add_edge("A","B",2)`: the
matrix holds 2 while the adjacency list (used by Dijkstra) holds 5. -/
def gDrift : Graph :=
  addEdges (addNodes (Graph.empty false) ["A", "B"]) [("A", "B", 5), ("A", "B", 2)]

set_option maxRecDepth 8000 in
/-- C1 counterexample. On `gDrift`, both Dijkstra legs of
`shortest_path_three_points("A", "A", "B")` succeed, yet the returned
`total_distance` (2, summed from the matrix) differs from
`dijkstra_weight("A","A") + dijkstra_weight("A","B") = 0 + 5` (computed from
the adjacency list). -/
theorem route_total_differs_from_dijkstra_weights :
    gDrift.shortest_path_three_points "A" "A" "B"
      = .success ["A", "B"] ["A"] ["A", "B"] 2 "A → A → B" ∧
    dijkstra_weight gDrift "A" "A" = some 0 ∧
    dijkstra_weight gDrift "A" "B" = some 5 ∧
    (0 + 5 : Nat) ≠ 2 := by
  refine ⟨?_, ?_, ?_, by decide⟩
  · simp [Graph.shortest_path_three_points, Graph.dijkstra, dijkstraLoop, relaxNeighbors,
      popMin, pairLe, staleCheck, ltOpt, walkParent, adjacencyGet, alookup, aset, amem,
      amodify, adel, truthyTarget, isTarget, dijkFalsy, routeTotal, Graph.get_edge_weight,
      Graph.validate_nodes, matrixGet, matrixUpdate, matrixSet, gDrift, addEdges, addNodes,
      Graph.empty, Graph.add_node, Graph.add_edge, updateAdjacencyList, hasEdgeInList]
  · simp [dijkstra_weight, Graph.dijkstra, dijkstraLoop, relaxNeighbors,
      popMin, pairLe, staleCheck, ltOpt, walkParent, adjacencyGet, alookup, aset, amem,
      amodify, adel, truthyTarget, isTarget, gDrift, addEdges, addNodes,
      Graph.empty, Graph.add_node, Graph.add_edge, updateAdjacencyList, hasEdgeInList]
  · simp [dijkstra_weight, Graph.dijkstra, dijkstraLoop, relaxNeighbors,
      popMin, pairLe, staleCheck, ltOpt, walkParent, adjacencyGet, alookup, aset, amem,
      amodify, adel, truthyTarget, isTarget, gDrift, addEdges, addNodes,
      Graph.empty, Graph.add_node, Graph.add_edge, updateAdjacencyList, hasEdgeInList]

/-! ## C2 counterexample: the two DFS variants can return different paths -/

/-- Undirected triangle A-B, A-X, B-X (insertion order A: [B, X]). -/
def gTri : Graph :=
  addEdges (addNodes (Graph.empty false) ["A", "B", "X"])
    [("A", "B", 1), ("A", "X", 1), ("B", "X", 1)]

set_option maxRecDepth 8000 in
/-- C2 counterexample. On the triangle, the iterative `dfs` reconstructs the
path from first-push parent pointers and returns `[A, X]`, while
`dfs_recursive` returns the call-chain path `[A, B, X]`: the two variants
disagree on the same input. -/
theorem dfs_variants_return_different_paths :
    gTri.dfs "A" (some "X") = .path ["A", "X"] ∧
    gTri.dfs_recursive "A" (some "X") = .path ["A", "B", "X"] ∧
    gTri.dfs "A" (some "X") ≠ gTri.dfs_recursive "A" (some "X") := by
  have h1 : gTri.dfs "A" (some "X") = .path ["A", "X"] := by
    simp [Graph.dfs, dfsLoop, dfsPush, walkParent, adjacencyGet, alookup, aset, amem,
      amodify, adel, truthyTarget, isTarget, gTri, addEdges, addNodes,
      Graph.empty, Graph.add_node, Graph.add_edge, updateAdjacencyList, hasEdgeInList]
  have h2 : gTri.dfs_recursive "A" (some "X") = .path ["A", "B", "X"] := by
    simp [Graph.dfs_recursive, dfsRecVisit, dfsRecGo, labelUniverse, neighborLabels,
      walkParent, adjacencyGet, alookup, aset, amem, Graph.validate_nodes,
      matrixUpdate, matrixSet, matrixGet,
      amodify, adel, truthyTarget, isTarget, gTri, addEdges, addNodes,
      Graph.empty, Graph.add_node, Graph.add_edge, updateAdjacencyList, hasEdgeInList]
  refine ⟨h1, h2, ?_⟩
  rw [h1, h2]
  decide

/-! ## C2 amended: without a target the two DFS variants visit identically

The iterative `dfs` is simulated against `dfs_recursive` through `recRun`,
which runs the recursive visitor over a worklist of labels. -/

/-- Run the recursive DFS visitor over a list of labels, threading the
visited set and visit order (the no-target visitor never touches the path
accumulator and never reports success). -/
def recRun (g : Graph) (fuel : Nat) :
    List String → Finset String × List String → Finset String × List String
  | [], st => st
  | u :: rest, st =>
    match dfsRecVisit g none fuel u st.1 st.2 [] with
    | (_, v', o', _) => recRun g fuel rest (v', o')

theorem dfsRec_path_inv (g : Graph) :
    ∀ fuel,
      (∀ cur v o p, (dfsRecVisit g none fuel cur v o p).2.2.2 = p) ∧
      (∀ nbrs v o p, (dfsRecGo g none fuel nbrs v o p).2.2.2 = p) := by
  intro fuel
  induction fuel with
  | zero =>
    have hgo : ∀ (nbrs : List (String × Nat)) v o p,
        (dfsRecGo g none 0 nbrs v o p).2.2.2 = p := by
      intro nbrs
      induction nbrs with
      | nil => intro v o p; rw [dfsRecGo_nil]
      | cons nb rest ih =>
        intro v o p
        by_cases hv : nb.1 ∈ v
        · rw [dfsRecGo_cons_skip g none 0 rest o p hv]
          exact ih v o p
        · rw [dfsRecGo_cons_visit g none 0 rest o p hv, dfsRecVisit_zero]
          simp only
          exact ih v o p
    exact ⟨fun cur v o p => by rw [dfsRecVisit_zero], hgo⟩
  | succ n ihn =>
    have hvisit : ∀ cur v o p, (dfsRecVisit g none (n + 1) cur v o p).2.2.2 = p := by
      intro cur v o p
      by_cases hv : cur ∈ v
      · rw [dfsRecVisit_succ_visited g none n o p hv]
      · rw [dfsRecVisit_succ_go g none n o p hv (isTarget_none cur)]
        exact ihn.2 _ _ _ _
    refine ⟨hvisit, ?_⟩
    intro nbrs
    induction nbrs with
    | nil => intro v o p; rw [dfsRecGo_nil]
    | cons nb rest ih =>
      intro v o p
      by_cases hv : nb.1 ∈ v
      · rw [dfsRecGo_cons_skip g none (n + 1) rest o p hv]
        exact ih v o p
      · rw [dfsRecGo_cons_visit g none (n + 1) rest o p hv]
        cases hres : dfsRecVisit g none (n + 1) nb.1 v o p with
        | mk found rest2 =>
          obtain ⟨v', o', p'⟩ := rest2
          cases found
          · simp only
            have hp' : p' = p := by
              have := hvisit nb.1 v o p
              rw [hres] at this
              exact this
            rw [ih v' o' p', hp']
          · exfalso
            have hf := (dfsRecVisit_not_found g (n + 1)).1 nb.1 v o p
            rw [hres] at hf
            simp at hf

theorem dfsRec_visited_mono (g : Graph) :
    ∀ fuel,
      (∀ cur v o p, v ⊆ (dfsRecVisit g none fuel cur v o p).2.1) ∧
      (∀ nbrs v o p, v ⊆ (dfsRecGo g none fuel nbrs v o p).2.1) := by
  intro fuel
  induction fuel with
  | zero =>
    have hgo : ∀ (nbrs : List (String × Nat)) v o p,
        v ⊆ (dfsRecGo g none 0 nbrs v o p).2.1 := by
      intro nbrs
      induction nbrs with
      | nil => intro v o p; rw [dfsRecGo_nil]
      | cons nb rest ih =>
        intro v o p
        by_cases hv : nb.1 ∈ v
        · rw [dfsRecGo_cons_skip g none 0 rest o p hv]
          exact ih v o p
        · rw [dfsRecGo_cons_visit g none 0 rest o p hv, dfsRecVisit_zero]
          simp only
          exact ih v o p
    exact ⟨fun cur v o p => by rw [dfsRecVisit_zero], hgo⟩
  | succ n ihn =>
    have hvisit : ∀ cur v o p, v ⊆ (dfsRecVisit g none (n + 1) cur v o p).2.1 := by
      intro cur v o p
      by_cases hv : cur ∈ v
      · rw [dfsRecVisit_succ_visited g none n o p hv]
      · rw [dfsRecVisit_succ_go g none n o p hv (isTarget_none cur)]
        exact Finset.Subset.trans (Finset.subset_insert _ _) (ihn.2 _ _ _ _)
    refine ⟨hvisit, ?_⟩
    intro nbrs
    induction nbrs with
    | nil => intro v o p; rw [dfsRecGo_nil]
    | cons nb rest ih =>
      intro v o p
      by_cases hv : nb.1 ∈ v
      · rw [dfsRecGo_cons_skip g none (n + 1) rest o p hv]
        exact ih v o p
      · rw [dfsRecGo_cons_visit g none (n + 1) rest o p hv]
        cases hres : dfsRecVisit g none (n + 1) nb.1 v o p with
        | mk found rest2 =>
          obtain ⟨v', o', p'⟩ := rest2
          cases found
          · simp only
            have hsub : v ⊆ v' := by
              have := hvisit nb.1 v o p
              rw [hres] at this
              exact this
            exact Finset.Subset.trans hsub (ih v' o' p')
          · exfalso
            have hf := (dfsRecVisit_not_found g (n + 1)).1 nb.1 v o p
            rw [hres] at hf
            simp at hf

theorem card_insert_lt_of_mem_univ {univ v : Finset String} {cur : String}
    (hu : cur ∈ univ) (hv : cur ∉ v) :
    (univ \ insert cur v).card < (univ \ v).card := by
  have hmem : cur ∈ univ \ v := Finset.mem_sdiff.mpr ⟨hu, hv⟩
  have heq : univ \ insert cur v = (univ \ v).erase cur := by
    ext x
    simp only [Finset.mem_sdiff, Finset.mem_insert, Finset.mem_erase]
    tauto
  rw [heq]
  exact Finset.card_erase_lt_of_mem hmem

theorem card_insert_eq_of_not_mem_univ {univ v : Finset String} {cur : String}
    (hu : cur ∉ univ) :
    univ \ insert cur v = univ \ v := by
  ext x
  simp only [Finset.mem_sdiff, Finset.mem_insert]
  constructor
  · rintro ⟨hx, hni⟩
    exact ⟨hx, fun hm => hni (Or.inr hm)⟩
  · rintro ⟨hx, hni⟩
    refine ⟨hx, ?_⟩
    rintro (rfl | hm)
    · exact hu hx
    · exact hni hm

theorem dfsRec_fuel_step (g : Graph) :
    ∀ fuel,
      (∀ cur v o p, (labelUniverse g \ v).card < fuel →
        dfsRecVisit g none (fuel + 1) cur v o p = dfsRecVisit g none fuel cur v o p) ∧
      (∀ nbrs v o p, (labelUniverse g \ v).card < fuel →
        dfsRecGo g none (fuel + 1) nbrs v o p = dfsRecGo g none fuel nbrs v o p) := by
  intro fuel
  induction fuel with
  | zero =>
    constructor
    · intro cur v o p hcard
      exact absurd hcard (Nat.not_lt_zero _)
    · intro nbrs v o p hcard
      exact absurd hcard (Nat.not_lt_zero _)
  | succ n ihn =>
    have hvisit : ∀ cur v o p, (labelUniverse g \ v).card < n + 1 →
        dfsRecVisit g none (n + 2) cur v o p = dfsRecVisit g none (n + 1) cur v o p := by
      intro cur v o p hcard
      by_cases hv : cur ∈ v
      · rw [dfsRecVisit_succ_visited g none (n + 1) o p hv,
          dfsRecVisit_succ_visited g none n o p hv]
      · rw [dfsRecVisit_succ_go g none (n + 1) o p hv (isTarget_none cur),
          dfsRecVisit_succ_go g none n o p hv (isTarget_none cur)]
        by_cases hu : cur ∈ labelUniverse g
        · exact ihn.2 _ _ _ _ (lt_of_lt_of_le (card_insert_lt_of_mem_univ hu hv)
            (Nat.lt_succ_iff.mp hcard))
        · rw [adjacencyGet_eq_nil_of_not_mem_universe hu, dfsRecGo_nil, dfsRecGo_nil]
    refine ⟨hvisit, ?_⟩
    intro nbrs
    induction nbrs with
    | nil => intro v o p hcard; rw [dfsRecGo_nil, dfsRecGo_nil]
    | cons nb rest ih =>
      intro v o p hcard
      by_cases hv : nb.1 ∈ v
      · rw [dfsRecGo_cons_skip g none (n + 2) rest o p hv,
          dfsRecGo_cons_skip g none (n + 1) rest o p hv]
        exact ih v o p hcard
      · rw [dfsRecGo_cons_visit g none (n + 2) rest o p hv,
          dfsRecGo_cons_visit g none (n + 1) rest o p hv]
        rw [hvisit nb.1 v o p hcard]
        cases hres : dfsRecVisit g none (n + 1) nb.1 v o p with
        | mk found rest2 =>
          obtain ⟨v', o', p'⟩ := rest2
          cases found
          · simp only
            have hsub : v ⊆ v' := by
              have := (dfsRec_visited_mono g (n + 1)).1 nb.1 v o p
              rw [hres] at this
              exact this
            have hcard' : (labelUniverse g \ v').card < n + 1 :=
              lt_of_le_of_lt
                (Finset.card_le_card (Finset.sdiff_subset_sdiff (le_refl _) hsub)) hcard
            exact ih v' o' p' hcard'
          · simp only

theorem dfsRecVisit_fuel_irrel (g : Graph) {f1 f2 : Nat} (cur : String)
    (v : Finset String) (o p : List String)
    (h1 : (labelUniverse g \ v).card < f1) (h2 : (labelUniverse g \ v).card < f2) :
    dfsRecVisit g none f1 cur v o p = dfsRecVisit g none f2 cur v o p := by
  have key : ∀ d fuel, (labelUniverse g \ v).card < fuel →
      dfsRecVisit g none (fuel + d) cur v o p = dfsRecVisit g none fuel cur v o p := by
    intro d
    induction d with
    | zero => intro fuel h; rfl
    | succ k ihk =>
      intro fuel h
      have : fuel + (k + 1) = (fuel + k) + 1 := by omega
      rw [this, (dfsRec_fuel_step g (fuel + k)).1 cur v o p (by omega), ihk fuel h]
  rcases Nat.le_total f1 f2 with hle | hle
  · obtain ⟨d, rfl⟩ : ∃ d, f2 = f1 + d := ⟨f2 - f1, by omega⟩
    exact (key d f1 h1).symm
  · obtain ⟨d, rfl⟩ : ∃ d, f1 = f2 + d := ⟨f1 - f2, by omega⟩
    exact key d f2 h2

theorem recRun_cons (g : Graph) (fuel : Nat) (u : String) (rest : List String)
    (st : Finset String × List String) :
    recRun g fuel (u :: rest) st
      = recRun g fuel rest ((dfsRecVisit g none fuel u st.1 st.2 []).2.1,
          (dfsRecVisit g none fuel u st.1 st.2 []).2.2.1) := by
  rw [recRun]

theorem recRun_append (g : Graph) (fuel : Nat) (l1 l2 : List String)
    (st : Finset String × List String) :
    recRun g fuel (l1 ++ l2) st = recRun g fuel l2 (recRun g fuel l1 st) := by
  induction l1 generalizing st with
  | nil => rfl
  | cons u rest ih =>
    rw [List.cons_append, recRun_cons, recRun_cons, ih]

theorem recRun_mono (g : Graph) (fuel : Nat) :
    ∀ l st, st.1 ⊆ (recRun g fuel l st).1 := by
  intro l
  induction l with
  | nil => intro st; exact Finset.Subset.refl _
  | cons u rest ih =>
    intro st
    rw [recRun_cons]
    refine Finset.Subset.trans ?_ (ih _)
    exact (dfsRec_visited_mono g fuel).1 u st.1 st.2 []

theorem recRun_fuel_irrel (g : Graph) {f1 f2 : Nat} :
    ∀ l st, (labelUniverse g \ st.1).card < f1 → (labelUniverse g \ st.1).card < f2 →
      recRun g f1 l st = recRun g f2 l st := by
  intro l
  induction l with
  | nil => intro st h1 h2; rfl
  | cons u rest ih =>
    intro st h1 h2
    rw [recRun_cons, recRun_cons, dfsRecVisit_fuel_irrel g u st.1 st.2 [] h1 h2]
    apply ih
    · exact lt_of_le_of_lt (Finset.card_le_card (Finset.sdiff_subset_sdiff (le_refl _)
        ((dfsRec_visited_mono g f2).1 u st.1 st.2 []))) h1
    · exact lt_of_le_of_lt (Finset.card_le_card (Finset.sdiff_subset_sdiff (le_refl _)
        ((dfsRec_visited_mono g f2).1 u st.1 st.2 []))) h2

theorem dfsRecVisit_visited_id (g : Graph) (t : Option String) (fuel : Nat) {u : String}
    {vis : Finset String} (o p : List String) (hu : u ∈ vis) :
    dfsRecVisit g t fuel u vis o p = (false, vis, o, p) := by
  cases fuel with
  | zero => exact dfsRecVisit_zero g t u vis o p
  | succ n => exact dfsRecVisit_succ_visited g t n o p hu

theorem recRun_filter_visited (g : Graph) (fuel : Nat) (v0 : Finset String) :
    ∀ l st, v0 ⊆ st.1 →
      recRun g fuel (l.filter (fun x => !(x ∈ v0 : Bool))) st = recRun g fuel l st := by
  intro l
  induction l with
  | nil => intro st hsub; rfl
  | cons u rest ih =>
    intro st hsub
    by_cases hu : u ∈ v0
    · rw [show (u :: rest).filter (fun x => !(x ∈ v0 : Bool))
          = rest.filter (fun x => !(x ∈ v0 : Bool)) from by simp [List.filter_cons, hu]]
      rw [ih st hsub]
      conv_rhs => rw [recRun_cons]
      rw [dfsRecVisit_visited_id g none fuel st.2 [] (hsub hu)]
    · rw [show (u :: rest).filter (fun x => !(x ∈ v0 : Bool))
          = u :: rest.filter (fun x => !(x ∈ v0 : Bool)) from by simp [List.filter_cons, hu]]
      rw [recRun_cons, recRun_cons]
      apply ih
      exact Finset.Subset.trans hsub ((dfsRec_visited_mono g fuel).1 u st.1 st.2 [])

theorem map_fst_filter_mem (nbrs : List (String × Nat)) (v1 : Finset String) :
    (nbrs.filter (fun nb => !(nb.1 ∈ v1 : Bool))).map Prod.fst
      = (nbrs.map Prod.fst).filter (fun x => !(x ∈ v1 : Bool)) := by
  induction nbrs with
  | nil => rfl
  | cons nb rest ih =>
    by_cases h : nb.1 ∈ v1
    · simp only [List.filter_cons, List.map_cons, h]
      simpa using ih
    · simp only [List.filter_cons, List.map_cons, h]
      simpa using ih

theorem dfsRecGo_eq_recRun (g : Graph) (fuel : Nat) :
    ∀ nbrs v o, dfsRecGo g none fuel nbrs v o []
      = (false, (recRun g fuel (nbrs.map Prod.fst) (v, o)).1,
          (recRun g fuel (nbrs.map Prod.fst) (v, o)).2, []) := by
  intro nbrs
  induction nbrs with
  | nil =>
    intro v o
    rw [dfsRecGo_nil]
    rfl
  | cons nb rest ih =>
    intro v o
    by_cases hv : nb.1 ∈ v
    · rw [dfsRecGo_cons_skip g none fuel rest o [] hv]
      rw [show (nb :: rest).map Prod.fst = nb.1 :: rest.map Prod.fst from rfl]
      rw [recRun_cons]
      simp only
      rw [dfsRecVisit_visited_id g none fuel o [] hv]
      exact ih v o
    · rw [dfsRecGo_cons_visit g none fuel rest o [] hv]
      cases hres : dfsRecVisit g none fuel nb.1 v o [] with
      | mk found rest2 =>
        obtain ⟨v', o', p'⟩ := rest2
        cases found
        · have hp' : p' = [] := by
            have := (dfsRec_path_inv g fuel).1 nb.1 v o []
            rw [hres] at this
            exact this
          subst hp'
          simp only
          rw [show (nb :: rest).map Prod.fst = nb.1 :: rest.map Prod.fst from rfl]
          rw [recRun_cons]
          simp only
          rw [hres]
          exact ih v' o'
        · exfalso
          have hf := (dfsRecVisit_not_found g fuel).1 nb.1 v o []
          rw [hres] at hf
          simp at hf

theorem dfsLoop_eq_recRun (g : Graph) :
    ∀ k l (v : Finset String) p o fuel,
      (labelUniverse g \ v).card ≤ k → (labelUniverse g \ v).card < fuel →
      dfsLoop g none l v p o = .order (recRun g fuel l (v, o)).2 := by
  intro k
  induction k using Nat.strong_induction_on with
  | _ k ihk =>
    intro l
    induction l with
    | nil =>
      intro v p o fuel hk hf
      rw [dfsLoop_nil, truthyTarget_none]
      rfl
    | cons u rest ihl =>
      intro v p o fuel hk hf
      by_cases hv : u ∈ v
      · rw [dfsLoop_cons_skip g none rest p o hv]
        rw [recRun_cons]
        simp only
        rw [dfsRecVisit_visited_id g none fuel o [] hv]
        exact ihl v p o fuel hk hf
      · obtain ⟨f, rfl⟩ : ∃ f, fuel = f + 1 := ⟨fuel - 1, by omega⟩
        have hpush : dfsPush u (insert u v) (adjacencyGet g u).reverse rest p
            = ((dfsPush u (insert u v) (adjacencyGet g u).reverse rest p).1,
               (dfsPush u (insert u v) (adjacencyGet g u).reverse rest p).2) := rfl
        rw [dfsLoop_cons_push g none rest p o hv (isTarget_none u) hpush]
        have hs' : (dfsPush u (insert u v) (adjacencyGet g u).reverse rest p).1
            = ((adjacencyGet g u).filter
                (fun nb => !(nb.1 ∈ insert u v : Bool))).map Prod.fst ++ rest := by
          rw [dfsPush_stack]
          rw [List.filter_reverse, List.reverse_reverse]
        have hvisit : dfsRecVisit g none (f + 1) u v o []
            = (false,
               (recRun g f ((adjacencyGet g u).map Prod.fst) (insert u v, o ++ [u])).1,
               (recRun g f ((adjacencyGet g u).map Prod.fst) (insert u v, o ++ [u])).2,
               []) := by
          rw [dfsRecVisit_succ_go g none f o [] hv (isTarget_none u)]
          exact dfsRecGo_eq_recRun g f (adjacencyGet g u) (insert u v) (o ++ [u])
        by_cases hu : u ∈ labelUniverse g
        · have hcard' : (labelUniverse g \ insert u v).card < (labelUniverse g \ v).card :=
            card_insert_lt_of_mem_univ hu hv
          have hk1 : 1 ≤ k := by omega
          have hloop := ihk (k - 1) (by omega)
            ((dfsPush u (insert u v) (adjacencyGet g u).reverse rest p).1)
            (insert u v)
            ((dfsPush u (insert u v) (adjacencyGet g u).reverse rest p).2)
            (o ++ [u]) (f + 1) (by omega) (by omega)
          rw [hloop, hs']
          rw [recRun_append]
          rw [map_fst_filter_mem]
          rw [recRun_filter_visited g (f + 1) (insert u v)
            ((adjacencyGet g u).map Prod.fst) (insert u v, o ++ [u])
            (Finset.Subset.refl _)]
          rw [recRun_fuel_irrel g ((adjacencyGet g u).map Prod.fst)
            (insert u v, o ++ [u]) (show (labelUniverse g \ insert u v).card < f + 1 by omega)
            (show (labelUniverse g \ insert u v).card < f by omega)]
          rw [recRun_cons]
          simp only
          rw [hvisit]
        · have hnil : adjacencyGet g u = [] := adjacencyGet_eq_nil_of_not_mem_universe hu
          have hceq : labelUniverse g \ insert u v = labelUniverse g \ v :=
            card_insert_eq_of_not_mem_univ hu
          have hs'' : (dfsPush u (insert u v) (adjacencyGet g u).reverse rest p).1 = rest := by
            rw [hs', hnil]
            rfl
          rw [hs'']
          have hloop := ihl (insert u v)
            ((dfsPush u (insert u v) (adjacencyGet g u).reverse rest p).2)
            (o ++ [u]) (f + 1) (by rw [hceq]; exact hk) (by rw [hceq]; exact hf)
          rw [hloop]
          rw [recRun_cons]
          simp only
          rw [hvisit]
          rw [hnil]
          rfl

/-- C2 (amended). With no target supplied, the iterative `dfs` and the
recursive `dfs_recursive` return the same result (the identical visitation
order); with a target, the two variants can return different paths. -/
theorem dfs_variants_identical_visit_order (g : Graph) (s : String) :
    g.dfs s none = g.dfs_recursive s none := by
  by_cases hs : amem g.nodes s = true
  · have hdfs : g.dfs s none = dfsLoop g none [s] ∅ [(s, none)] [] := by
      unfold Graph.dfs
      rw [hs]
      rfl
    have hrec : g.dfs_recursive s none
        = (match dfsRecVisit g none ((labelUniverse g).card + 1) s ∅ [] [] with
           | (_, _, visit_order, _) => SearchResult.order visit_order) := by
      unfold Graph.dfs_recursive
      rw [hs]
      rfl
    rw [hdfs, hrec]
    rw [dfsLoop_eq_recRun g (labelUniverse g).card [s] ∅ [(s, none)] []
      ((labelUniverse g).card + 1) (by simp) (by simp)]
    rw [recRun_cons]
    simp only
    cases hres : dfsRecVisit g none ((labelUniverse g).card + 1) s ∅ [] [] with
    | mk found rest2 =>
      obtain ⟨v', o', p'⟩ := rest2
      rfl
  · have hs' : amem g.nodes s = false := by
      cases h : amem g.nodes s
      · rfl
      · exact absurd h hs
    have h1 : g.dfs s none = .order [] := by
      unfold Graph.dfs
      rw [hs']
      rfl
    have h2 : g.dfs_recursive s none = .order [] := by
      unfold Graph.dfs_recursive
      rw [hs']
      rfl
    rw [h1, h2]

/-! ## Unweighted reachability along adjacency-list edges (C4) -/

/-- An adjacency-list edge: `w` is named among the stored neighbors of `u`. -/
def listEdge (g : Graph) (u w : String) : Prop :=
  w ∈ (adjacencyGet g u).map Prod.fst

instance (g : Graph) (u w : String) : Decidable (listEdge g u w) :=
  inferInstanceAs (Decidable (w ∈ (adjacencyGet g u).map Prod.fst))

/-- Walks of a given number of hops along adjacency-list edges. -/
inductive HopWalk (g : Graph) (s : String) : String → Nat → Prop where
  | refl : HopWalk g s s 0
  | step {u w : String} {n : Nat} :
      HopWalk g s u n → listEdge g u w → HopWalk g s w (n + 1)

/-- Reachability along adjacency-list edges. -/
def ReachableL (g : Graph) (s v : String) : Prop :=
  ∃ n, HopWalk g s v n

/-- `d` is the exact hop distance from `s` to `v`: attained by a walk and a
lower bound on the hop count of every walk. -/
def IsMinDist (g : Graph) (s v : String) (d : Nat) : Prop :=
  HopWalk g s v d ∧ ∀ m, HopWalk g s v m → d ≤ m

/-- A nonempty vertex list whose consecutive entries are adjacency-list
edges. -/
inductive ListWalkU (g : Graph) : List String → Prop where
  | single (u : String) : ListWalkU g [u]
  | cons {u w : String} {rest : List String} :
      listEdge g u w → ListWalkU g (w :: rest) → ListWalkU g (u :: w :: rest)

theorem hopWalk_zero {g : Graph} {s v : String} (h : HopWalk g s v 0) : v = s := by
  cases h
  rfl

theorem hopWalk_succ_inv {g : Graph} {s w : String} {n : Nat}
    (h : HopWalk g s w (n + 1)) : ∃ x, HopWalk g s x n ∧ listEdge g x w := by
  cases h with
  | step hw he => exact ⟨_, hw, he⟩

theorem minDist_unique {g : Graph} {s v : String} {d1 d2 : Nat}
    (h1 : IsMinDist g s v d1) (h2 : IsMinDist g s v d2) : d1 = d2 :=
  Nat.le_antisymm (h1.2 _ h2.1) (h2.2 _ h1.1)

theorem reachable_minDist {g : Graph} {s v : String} (h : ReachableL g s v) :
    ∃ d, IsMinDist g s v d := by
  have hne : {n : Nat | HopWalk g s v n}.Nonempty := h
  exact ⟨sInf {n | HopWalk g s v n}, Nat.sInf_mem hne, fun m hm => Nat.sInf_le hm⟩

theorem minDist_start (g : Graph) (s : String) : IsMinDist g s s 0 :=
  ⟨HopWalk.refl, fun m _ => Nat.zero_le m⟩

theorem minDist_pos_of_ne {g : Graph} {s w : String} {d : Nat}
    (h : IsMinDist g s w d) (hne : w ≠ s) : 1 ≤ d := by
  rcases Nat.eq_zero_or_pos d with h0 | h1
  · subst h0
    exact absurd (hopWalk_zero h.1) hne
  · exact h1

theorem listWalkU_append {g : Graph} {l : List String} {u x : String}
    (h : ListWalkU g l) (hl : l.getLast? = some u) (he : listEdge g u x) :
    ListWalkU g (l ++ [x]) := by
  induction h with
  | single w =>
    simp only [List.getLast?_singleton, Option.some_inj] at hl
    subst hl
    exact ListWalkU.cons he (ListWalkU.single x)
  | @cons a b rest hedge htail ih =>
    rw [List.getLast?_cons_cons] at hl
    exact ListWalkU.cons hedge (ih hl)

theorem walkParent_succ_some {par : List (String × Option String)} {x u : String}
    (h : alookup par x = some (some u)) (fuel : Nat) :
    walkParent (fuel + 1) par x = x :: walkParent fuel par u := by
  simp [walkParent, h]

theorem walkParent_succ_none {par : List (String × Option String)} {x : String}
    (h : alookup par x = some none) (fuel : Nat) :
    walkParent (fuel + 1) par x = [x] := by
  simp [walkParent, h]

theorem amem_aset {α : Type} (d : List (String × α)) (k x : String) (v : α) :
    amem (aset d k v) x = true ↔ x = k ∨ amem d x = true := by
  unfold amem
  rcases eq_or_ne x k with rfl | hne
  · simp [alookup_aset_self]
  · rw [alookup_aset_ne d v hne]
    simp [hne]

theorem eq_of_isTarget_true {t : Option String} {cur : String}
    (h : isTarget t cur = true) : t = some cur := by
  simp only [isTarget, Bool.and_eq_true] at h
  exact eq_of_beq h.2

theorem ne_of_isTarget_false {t cur : String} (ht : t ≠ "")
    (h : isTarget (some t) cur = false) : t ≠ cur := by
  intro he
  subst he
  simp [isTarget, truthyTarget] at h
  exact ht h

/-- Reconstructing the breadth-first parent chain: every visited node whose
parent data satisfies the breadth-first level equations yields, for any large
enough fuel, a duplicate-free chain of visited nodes from the node back to
the start, of length exactly one more than its hop distance, whose reversal
is an adjacency-list walk. -/
theorem parent_chain_reconstruction (g : Graph) (s : String)
    (vis : Finset String) (par : List (String × Option String))
    (hstart : alookup par s = some none)
    (hinfo : ∀ x ∈ vis, x ≠ s → ∃ u dx, alookup par x = some (some u) ∧
        listEdge g u x ∧ u ∈ vis ∧ IsMinDist g s x dx ∧
        ∃ du, IsMinDist g s u du ∧ dx = du + 1) :
    ∀ dx x, x ∈ vis → IsMinDist g s x dx →
      ∃ c : List String,
        (∀ fuel, dx < fuel → walkParent fuel par x = c) ∧
        c.head? = some x ∧ c.getLast? = some s ∧ c.length = dx + 1 ∧
        c.Nodup ∧ (∀ y ∈ c, y ∈ vis ∧ ∃ dy, IsMinDist g s y dy ∧ dy ≤ dx) ∧
        ListWalkU g c.reverse := by
  intro dx
  induction dx using Nat.strong_induction_on with
  | _ dx ih =>
    intro x hxvis hxmin
    by_cases hxs : x = s
    · subst hxs
      have hdx0 : dx = 0 := Nat.le_antisymm (hxmin.2 0 HopWalk.refl) (Nat.zero_le _)
      subst hdx0
      refine ⟨[x], ?_, rfl, rfl, rfl, List.nodup_singleton x, ?_, ListWalkU.single x⟩
      · intro fuel hf
        match fuel, hf with
        | fuel + 1, _ => exact walkParent_succ_none hstart fuel
      · intro y hy
        simp only [List.mem_singleton] at hy
        subst hy
        exact ⟨hxvis, 0, hxmin, Nat.le_refl 0⟩
    · obtain ⟨u, dx', hlook, hedge, huvis, hxmin', du, humin, hdx'⟩ :=
        hinfo x hxvis hxs
      have hdxeq : dx' = dx := minDist_unique hxmin' hxmin
      rw [hdxeq] at hdx'
      obtain ⟨cu, hcu_fuel, hcu_head, hcu_last, hcu_len, hcu_nd, hcu_mem, hcu_walk⟩ :=
        ih du (by omega) u huvis humin
      refine ⟨x :: cu, ?_, rfl, ?_, ?_, ?_, ?_, ?_⟩
      · intro fuel hf
        match fuel, hf with
        | f + 1, hf =>
          rw [walkParent_succ_some hlook f, hcu_fuel f (by omega)]
      · cases cu with
        | nil => simp at hcu_len
        | cons b bs =>
          rw [List.getLast?_cons_cons]
          exact hcu_last
      · simp only [List.length_cons, hcu_len]
        omega
      · refine List.nodup_cons.mpr ⟨?_, hcu_nd⟩
        intro hxc
        obtain ⟨_, dy, hymin, hyle⟩ := hcu_mem x hxc
        have : dy = dx := minDist_unique hymin hxmin
        omega
      · intro y hy
        rcases List.mem_cons.mp hy with rfl | hy
        · exact ⟨hxvis, dx, hxmin, Nat.le_refl dx⟩
        · obtain ⟨hyv, dy, hymin, hyle⟩ := hcu_mem y hy
          exact ⟨hyv, dy, hymin, by omega⟩
      · rw [List.reverse_cons]
        refine listWalkU_append hcu_walk ?_ hedge
        rw [List.getLast?_reverse]
        exact hcu_head

theorem listEdge_intro {g : Graph} {u : String} {nb : String × Nat}
    (h : nb ∈ adjacencyGet g u) : listEdge g u nb.1 :=
  List.mem_map_of_mem Prod.fst h

theorem listEdge_elim {g : Graph} {u w : String} (h : listEdge g u w) :
    ∃ nb ∈ adjacencyGet g u, nb.1 = w :=
  List.mem_map.mp h

/-- The breadth-first level relation between two queue entries: whenever both
hop distances exist, the left one is no larger and the right one exceeds it
by at most one. -/
def levelRel (g : Graph) (s : String) (a b : String) : Prop :=
  ∀ da db, IsMinDist g s a da → IsMinDist g s b db → da ≤ db ∧ db ≤ da + 1

/-- Invariant of the `bfs` main loop relating queue, visited set, parent map
and visit order (the processed nodes). -/
structure BfsInv (g : Graph) (s t : String) (q : List String)
    (vis : Finset String) (par : List (String × Option String))
    (ord : List String) : Prop where
  start_mem : s ∈ vis
  vis_eq : ∀ x, x ∈ vis ↔ x ∈ ord ∨ x ∈ q
  nodup : (ord ++ q).Nodup
  reach : ∀ x ∈ vis, ReachableL g s x
  par_start : alookup par s = some none
  par_keys : ∀ x, amem par x = true ↔ x ∈ vis
  par_info : ∀ x ∈ vis, x ≠ s → ∃ u dx, alookup par x = some (some u) ∧
      listEdge g u x ∧ u ∈ vis ∧ IsMinDist g s x dx ∧
      ∃ du, IsMinDist g s u du ∧ dx = du + 1
  expanded : ∀ u ∈ ord, ∀ nb ∈ adjacencyGet g u, nb.1 ∈ vis
  q_pairs : q.Pairwise (levelRel g s)
  frontier : ∀ w, ReachableL g s w → w ∉ vis → ∀ u0 du0 dw,
      q.head? = some u0 → IsMinDist g s u0 du0 → IsMinDist g s w dw →
      du0 + 1 ≤ dw
  target_new : t ∉ ord

/-- Invariant holding while the neighbors of the dequeued node `cur` (of hop
distance `lvl`) are being enqueued; `pending` is the unprocessed suffix of
its neighbor list. -/
structure MidInv (g : Graph) (s t cur : String) (lvl : Nat) (ord : List String)
    (pending : List (String × Nat)) (q : List String) (vis : Finset String)
    (par : List (String × Option String)) : Prop where
  start_mem : s ∈ vis
  vis_eq : ∀ x, x ∈ vis ↔ x ∈ ord ++ [cur] ∨ x ∈ q
  nodup : ((ord ++ [cur]) ++ q).Nodup
  reach : ∀ x ∈ vis, ReachableL g s x
  par_start : alookup par s = some none
  par_keys : ∀ x, amem par x = true ↔ x ∈ vis
  par_info : ∀ x ∈ vis, x ≠ s → ∃ u dx, alookup par x = some (some u) ∧
      listEdge g u x ∧ u ∈ vis ∧ IsMinDist g s x dx ∧
      ∃ du, IsMinDist g s u du ∧ dx = du + 1
  expanded : ∀ u ∈ ord, ∀ nb ∈ adjacencyGet g u, nb.1 ∈ vis
  cur_done : ∃ done, adjacencyGet g cur = done ++ pending ∧
      ∀ nb ∈ done, nb.1 ∈ vis
  cur_min : IsMinDist g s cur lvl
  q_pairs : q.Pairwise (levelRel g s)
  q_levels : ∀ x ∈ q, ∀ dxx, IsMinDist g s x dxx → lvl ≤ dxx ∧ dxx ≤ lvl + 1
  frontier_mid : ∀ w, ReachableL g s w → w ∉ vis → ∀ dw, IsMinDist g s w dw →
      lvl + 1 ≤ dw
  target_new : t ∉ ord ++ [cur]

/-- Dequeuing a non-target node turns the loop invariant into the
mid-expansion invariant with its whole neighbor list pending. -/
theorem bfsInv_pop (g : Graph) (s t cur : String) (rest ord : List String)
    (vis : Finset String) (par : List (String × Option String))
    (h : BfsInv g s t (cur :: rest) vis par ord) (hne : t ≠ cur) {lvl : Nat}
    (hlvl : IsMinDist g s cur lvl) :
    MidInv g s t cur lvl ord (adjacencyGet g cur) rest vis par := by
  refine
    { start_mem := h.start_mem
      vis_eq := ?_
      nodup := ?_
      reach := h.reach
      par_start := h.par_start
      par_keys := h.par_keys
      par_info := h.par_info
      expanded := h.expanded
      cur_done := ⟨[], rfl, fun nb hnb => absurd hnb (List.not_mem_nil nb)⟩
      cur_min := hlvl
      q_pairs := (List.pairwise_cons.mp h.q_pairs).2
      q_levels := ?_
      frontier_mid := ?_
      target_new := ?_ }
  · intro x
    rw [h.vis_eq x]
    simp only [List.mem_append, List.mem_singleton, List.mem_cons]
    tauto
  · have hnd := h.nodup
    rw [List.append_cons] at hnd
    exact hnd
  · intro x hx dxx hdxx
    exact (List.pairwise_cons.mp h.q_pairs).1 x hx lvl dxx hlvl hdxx
  · intro w hw hwnv dw hdw
    exact h.frontier w hw hwnv cur lvl dw rfl hlvl hdw
  · simp only [List.mem_append, List.mem_singleton]
    rintro (h1 | h1)
    · exact h.target_new h1
    · exact hne h1

/-- One pass of `bfsExpand` carries the mid-expansion invariant to the empty
pending list. -/
theorem midInv_expand (g : Graph) (s t cur : String) (lvl : Nat)
    (ord : List String) :
    ∀ (pending : List (String × Nat)) (q : List String) (vis : Finset String)
      (par : List (String × Option String)),
      MidInv g s t cur lvl ord pending q vis par →
      MidInv g s t cur lvl ord []
        (bfsExpand cur pending q vis par).1
        (bfsExpand cur pending q vis par).2.1
        (bfsExpand cur pending q vis par).2.2 := by
  intro pending
  induction pending with
  | nil =>
    intro q vis par h
    simpa [bfsExpand] using h
  | cons nb rest ih =>
    intro q vis par h
    obtain ⟨done, hdone_eq, hdone_vis⟩ := h.cur_done
    by_cases hv : nb.1 ∈ vis
    · rw [show bfsExpand cur (nb :: rest) q vis par = bfsExpand cur rest q vis par
          from by simp [bfsExpand, hv]]
      apply ih
      refine { h with cur_done := ⟨done ++ [nb], ?_, ?_⟩ }
      · rw [hdone_eq, List.append_assoc, List.singleton_append]
      · intro nb2 hnb2
        rcases List.mem_append.mp hnb2 with h2 | h2
        · exact hdone_vis nb2 h2
        · rw [List.mem_singleton.mp h2]
          exact hv
    · rw [show bfsExpand cur (nb :: rest) q vis par
          = bfsExpand cur rest (q ++ [nb.1]) (insert nb.1 vis)
              (aset par nb.1 (some cur))
          from by simp [bfsExpand, hv]]
      apply ih
      have hnbadj : nb ∈ adjacencyGet g cur := by
        rw [hdone_eq]
        exact List.mem_append.mpr (Or.inr (List.mem_cons_self _ _))
      have hedge : listEdge g cur nb.1 := listEdge_intro hnbadj
      have hcurvis : cur ∈ vis :=
        (h.vis_eq cur).mpr (Or.inl (List.mem_append.mpr (Or.inr (by simp))))
      have hnbwalk : HopWalk g s nb.1 (lvl + 1) := HopWalk.step h.cur_min.1 hedge
      have hnbreach : ReachableL g s nb.1 := ⟨lvl + 1, hnbwalk⟩
      have hnbmin : IsMinDist g s nb.1 (lvl + 1) := by
        obtain ⟨d, hd⟩ := reachable_minDist hnbreach
        have hup : d ≤ lvl + 1 := hd.2 _ hnbwalk
        have hlo : lvl + 1 ≤ d := h.frontier_mid nb.1 hnbreach hv d hd
        have hde : d = lvl + 1 := by omega
        exact hde ▸ hd
      have hnb_not_ordcur : nb.1 ∉ ord ++ [cur] :=
        fun hmem => hv ((h.vis_eq _).mpr (Or.inl hmem))
      have hnb_not_q : nb.1 ∉ q := fun hmem => hv ((h.vis_eq _).mpr (Or.inr hmem))
      have hs_ne : s ≠ nb.1 := fun he => hv (he ▸ h.start_mem)
      refine
        { start_mem := Finset.mem_insert_of_mem h.start_mem
          vis_eq := ?_
          nodup := ?_
          reach := ?_
          par_start := ?_
          par_keys := ?_
          par_info := ?_
          expanded := ?_
          cur_done := ⟨done ++ [nb], ?_, ?_⟩
          cur_min := h.cur_min
          q_pairs := ?_
          q_levels := ?_
          frontier_mid := ?_
          target_new := h.target_new }
      · intro x
        rw [Finset.mem_insert, h.vis_eq x]
        simp only [List.mem_append, List.mem_singleton]
        tauto
      · rw [← List.append_assoc]
        refine List.nodup_append.mpr ⟨h.nodup, List.nodup_singleton _, ?_⟩
        intro a ha hb
        rw [List.mem_singleton.mp hb] at ha
        rcases List.mem_append.mp ha with h1 | h1
        · exact hnb_not_ordcur h1
        · exact hnb_not_q h1
      · intro x hx
        rcases Finset.mem_insert.mp hx with rfl | hx2
        · exact hnbreach
        · exact h.reach x hx2
      · rw [alookup_aset_ne par (some cur) hs_ne]
        exact h.par_start
      · intro x
        rw [amem_aset, Finset.mem_insert, h.par_keys x]
      · intro x hx hxs
        rcases Finset.mem_insert.mp hx with rfl | hx2
        · exact ⟨cur, lvl + 1, alookup_aset_self par nb.1 (some cur), hedge,
            Finset.mem_insert_of_mem hcurvis, hnbmin, lvl, h.cur_min, rfl⟩
        · obtain ⟨u, dx, hlk, hed, hu, hmin, du, hdu, hdx⟩ := h.par_info x hx2 hxs
          have hxne : x ≠ nb.1 := fun he => hv (he ▸ hx2)
          exact ⟨u, dx, by rw [alookup_aset_ne par (some cur) hxne]; exact hlk,
            hed, Finset.mem_insert_of_mem hu, hmin, du, hdu, hdx⟩
      · intro u hu nb2 hnb2
        exact Finset.mem_insert_of_mem (h.expanded u hu nb2 hnb2)
      · rw [hdone_eq, List.append_assoc, List.singleton_append]
      · intro nb2 hnb2
        rcases List.mem_append.mp hnb2 with h2 | h2
        · exact Finset.mem_insert_of_mem (hdone_vis nb2 h2)
        · rw [List.mem_singleton.mp h2]
          exact Finset.mem_insert_self _ _
      · refine List.pairwise_append.mpr ⟨h.q_pairs, List.pairwise_singleton _ _, ?_⟩
        intro a ha b hb
        rw [List.mem_singleton.mp hb]
        intro da db hda hdb
        have hdb_eq : db = lvl + 1 := minDist_unique hdb hnbmin
        have hab := h.q_levels a ha da hda
        omega
      · intro x hx dxx hdxx
        rcases List.mem_append.mp hx with h1 | h1
        · exact h.q_levels x h1 dxx hdxx
        · rw [List.mem_singleton.mp h1] at hdxx
          have : dxx = lvl + 1 := minDist_unique hdxx hnbmin
          omega
      · intro w hw hwnv dw hdw
        exact h.frontier_mid w hw (fun hh => hwnv (Finset.mem_insert_of_mem hh)) dw hdw

/-- After the whole neighbor list of `cur` has been enqueued, the loop
invariant holds again with `cur` appended to the processed order.  The head
of the new queue sits at level `lvl` or `lvl + 1`; in the latter case every
unvisited reachable node is at least two levels beyond `lvl`, by cutting a
minimal walk at its last edge. -/
theorem midInv_to_bfsInv (g : Graph) (s t cur : String) (lvl : Nat)
    (ord q : List String) (vis : Finset String)
    (par : List (String × Option String))
    (h : MidInv g s t cur lvl ord [] q vis par) :
    BfsInv g s t q vis par (ord ++ [cur]) := by
  have hexp_all : ∀ u ∈ ord ++ [cur], ∀ nb ∈ adjacencyGet g u, nb.1 ∈ vis := by
    intro u hu nb hnb
    rcases List.mem_append.mp hu with h1 | h1
    · exact h.expanded u h1 nb hnb
    · obtain ⟨done, hde, hdv⟩ := h.cur_done
      rw [List.append_nil] at hde
      rw [List.mem_singleton.mp h1] at hnb
      exact hdv nb (hde ▸ hnb)
  refine
    { start_mem := h.start_mem
      vis_eq := h.vis_eq
      nodup := h.nodup
      reach := h.reach
      par_start := h.par_start
      par_keys := h.par_keys
      par_info := h.par_info
      expanded := hexp_all
      q_pairs := h.q_pairs
      frontier := ?_
      target_new := h.target_new }
  intro w hw hwnv u0 du0 dw hhead hu0 hdw
  have hmid := h.frontier_mid w hw hwnv dw hdw
  have hu0q : u0 ∈ q := by
    cases q with
    | nil => cases hhead
    | cons a as =>
      rw [show u0 = a from (by simpa using hhead : a = u0).symm]
      exact List.mem_cons_self _ _
  have hbounds := h.q_levels u0 hu0q du0 hu0
  rcases Nat.lt_or_ge du0 (lvl + 1) with hlt | hge
  · omega
  · have hdu0_eq : du0 = lvl + 1 := by omega
    by_contra hcon
    push_neg at hcon
    have hdw_eq : dw = lvl + 1 := by omega
    have hwalk : HopWalk g s w (lvl + 1) := hdw_eq ▸ hdw.1
    obtain ⟨x, hxwalk, hxe⟩ := hopWalk_succ_inv hwalk
    obtain ⟨dxm, hdxm⟩ := reachable_minDist ⟨lvl, hxwalk⟩
    have hdxm_le : dxm ≤ lvl := hdxm.2 _ hxwalk
    have hxvis : x ∈ vis := by
      by_contra hxnv
      have := h.frontier_mid x ⟨lvl, hxwalk⟩ hxnv dxm hdxm
      omega
    rcases (h.vis_eq x).mp hxvis with hxo | hxq
    · obtain ⟨nb2, hnb2, hnb2e⟩ := listEdge_elim hxe
      exact hwnv (hnb2e ▸ hexp_all x hxo nb2 hnb2)
    · cases q with
      | nil => cases hxq
      | cons h0 tail =>
        have hu0h : u0 = h0 := (by simpa using hhead : h0 = u0).symm
        rcases List.mem_cons.mp hxq with rfl | hxtail
        · have : dxm = du0 := minDist_unique hdxm (hu0h ▸ hu0)
          omega
        · have hrel := (List.pairwise_cons.mp h.q_pairs).1 x hxtail
          have := hrel du0 dxm (hu0h ▸ hu0) hdxm
          omega

/-- With an empty queue, the visited set is closed under adjacency-list
edges, so it contains every reachable node. -/
theorem bfsInv_complete_of_empty (g : Graph) {s t : String} {vis : Finset String}
    {par : List (String × Option String)} {ord : List String}
    (h : BfsInv g s t [] vis par ord) {v : String} (hv : ReachableL g s v) :
    v ∈ vis := by
  obtain ⟨n, hw⟩ := hv
  induction hw with
  | refl => exact h.start_mem
  | @step u w n hw he ihw =>
    have huord : u ∈ ord := by
      rcases (h.vis_eq u).mp ihw with h1 | h1
      · exact h1
      · cases h1
    obtain ⟨nb, hnb, hnbe⟩ := listEdge_elim he
    exact hnbe ▸ h.expanded u huord nb hnb

/-- The state `bfs` enters its loop with satisfies the invariant. -/
theorem bfsInv_init (g : Graph) (s t : String) :
    BfsInv g s t [s] {s} [(s, none)] [] := by
  refine
    { start_mem := Finset.mem_singleton_self s
      vis_eq := ?_
      nodup := by simp
      reach := ?_
      par_start := by simp [alookup]
      par_keys := ?_
      par_info := ?_
      expanded := fun u hu => absurd hu (List.not_mem_nil u)
      q_pairs := List.pairwise_singleton _ _
      frontier := ?_
      target_new := List.not_mem_nil t }
  · intro x
    simp
  · intro x hx
    rw [Finset.mem_singleton.mp hx]
    exact ⟨0, HopWalk.refl⟩
  · intro x
    rcases eq_or_ne s x with rfl | hne
    · simp [amem, alookup]
    · simp [amem, alookup, hne, Ne.symm hne]
  · intro x hx hxs
    exact absurd (Finset.mem_singleton.mp hx) hxs
  · intro w hw hwnv u0 du0 dw hhead hu0 hdw
    have hu0s : u0 = s := (by simpa using hhead : s = u0).symm
    rw [hu0s] at hu0
    have hdu0 : du0 = 0 := minDist_unique hu0 (minDist_start g s)
    have hws : w ≠ s := fun he => hwnv (by simp [he])
    have := minDist_pos_of_ne hdw hws
    omega

/-- Main correctness of the `bfs` loop: from any state satisfying the
invariant, a reachable target yields a returned path that starts at the
start node, ends at the target, follows adjacency-list edges, and has
minimal hop count; an unreachable target yields the absent result. -/
theorem bfsLoop_correct (g : Graph) (s t : String) (ht : t ≠ "") :
    ∀ q vis par ord, BfsInv g s t q vis par ord →
      (ReachableL g s t →
        ∃ p, bfsLoop g (some t) q vis par ord = .path p ∧ p.head? = some s ∧
          p.getLast? = some t ∧ ListWalkU g p ∧
          ∀ n, HopWalk g s t n → p.length ≤ n + 1) ∧
      (¬ ReachableL g s t → bfsLoop g (some t) q vis par ord = .absent) := by
  have htr : truthyTarget (some t) = true := by
    simp only [truthyTarget, bne_iff_ne, ne_eq, decide_not]
    simpa using ht
  intro q vis par ord
  induction q, vis, par, ord using bfsLoop.induct g (some t) with
  | case1 vis par ord htru =>
    intro hinv
    constructor
    · intro hreach
      have htv := bfsInv_complete_of_empty g hinv hreach
      rcases (hinv.vis_eq t).mp htv with h1 | h1
      · exact absurd h1 hinv.target_new
      · cases h1
    · intro _
      rw [bfsLoop_nil, if_pos htru]
  | case2 vis par ord htru =>
    intro _
    exact absurd htr htru
  | case3 cur rest vis par ord htar =>
    intro hinv
    have hcur : t = cur := by
      have h1 := eq_of_isTarget_true htar
      injection h1
    subst hcur
    have htvis : t ∈ vis := (hinv.vis_eq t).mpr (Or.inr (List.mem_cons_self _ _))
    obtain ⟨dt, hdt⟩ := reachable_minDist (hinv.reach t htvis)
    obtain ⟨c, hc_fuel, hc_head, hc_last, hc_len, hc_nd, hc_mem, hc_walk⟩ :=
      parent_chain_reconstruction g s vis par hinv.par_start hinv.par_info
        dt t htvis hdt
    have hcard : c.length ≤ vis.card := by
      have h1 : c.toFinset ⊆ vis := fun y hy =>
        (hc_mem y (List.mem_toFinset.mp hy)).1
      calc c.length = c.toFinset.card := (List.toFinset_card_of_nodup hc_nd).symm
        _ ≤ vis.card := Finset.card_le_card h1
    have hvis_le : vis.card ≤ par.length := by
      have h1 : vis ⊆ (par.map Prod.fst).toFinset := fun y hy =>
        List.mem_toFinset.mpr (amem_iff_mem_keys.mp ((hinv.par_keys y).mpr hy))
      calc vis.card ≤ (par.map Prod.fst).toFinset.card := Finset.card_le_card h1
        _ ≤ (par.map Prod.fst).length := (par.map Prod.fst).toFinset_card_le
        _ = par.length := by simp
    have hfuel : dt < par.length + 1 := by omega
    constructor
    · intro _
      refine ⟨c.reverse, ?_, ?_, ?_, hc_walk, ?_⟩
      · rw [bfsLoop_cons_target g (some t) t rest vis par ord htar,
          hc_fuel _ hfuel]
      · rw [List.head?_reverse]
        exact hc_last
      · rw [List.getLast?_reverse]
        exact hc_head
      · intro n hn
        have := hdt.2 n hn
        rw [List.length_reverse, hc_len]
        omega
    · intro hnr
      exact absurd (hinv.reach t htvis) hnr
  | case4 cur rest vis par ord htar q' v' p' hexp ih =>
    intro hinv
    have htarf : isTarget (some t) cur = false := Bool.eq_false_iff.mpr htar
    have hne : t ≠ cur := ne_of_isTarget_false ht htarf
    have hcurvis : cur ∈ vis :=
      (hinv.vis_eq cur).mpr (Or.inr (List.mem_cons_self _ _))
    obtain ⟨lvl, hlvl⟩ := reachable_minDist (hinv.reach cur hcurvis)
    have hmid0 := bfsInv_pop g s t cur rest ord vis par hinv hne hlvl
    have hmid := midInv_expand g s t cur lvl ord (adjacencyGet g cur)
      rest vis par hmid0
    rw [hexp] at hmid
    have hres := ih (midInv_to_bfsInv g s t cur lvl ord _ _ _ hmid)
    rw [bfsLoop_cons_expand g (some t) cur rest vis par ord htarf hexp]
    exact hres

theorem bfs_guard_pass {g : Graph} {s t : String} (hs : amem g.nodes s = true)
    (htn : amem g.nodes t = true) :
    g.bfs s (some t) = bfsLoop g (some t) [s] {s} [(s, none)] [] := by
  unfold Graph.bfs
  simp [hs, htn]

/-- C4.  For a start node and a nonempty target label both present in the
graph, with the target reachable from the start along adjacency-list edges,
`bfs(start, target)` returns a path that begins at the start, ends at the
target, follows adjacency-list edges, and has the minimum possible number of
edges (shortest by edge count, not by weight); when the start or the target
is unknown, or the target is unreachable, it returns the absent result. -/
theorem bfs_shortest_edge_count (g : Graph) (s t : String) (ht : t ≠ "") :
    (amem g.nodes s = true → amem g.nodes t = true → ReachableL g s t →
      ∃ p, g.bfs s (some t) = .path p ∧ p.head? = some s ∧ p.getLast? = some t ∧
        ListWalkU g p ∧ ∀ n, HopWalk g s t n → p.length ≤ n + 1) ∧
    ((amem g.nodes s = false ∨ amem g.nodes t = false ∨ ¬ ReachableL g s t) →
      g.bfs s (some t) = .absent) := by
  have htr : truthyTarget (some t) = true := by
    simp only [truthyTarget, bne_iff_ne, ne_eq, decide_not]
    simpa using ht
  constructor
  · intro hs htn hreach
    obtain ⟨p, hp1, hp2, hp3, hp4, hp5⟩ :=
      (bfsLoop_correct g s t ht [s] {s} [(s, none)] [] (bfsInv_init g s t)).1 hreach
    refine ⟨p, ?_, hp2, hp3, hp4, hp5⟩
    rw [bfs_guard_pass hs htn]
    exact hp1
  · intro hcase
    by_cases hs : amem g.nodes s = true
    · by_cases htn : amem g.nodes t = true
      · have hnr : ¬ ReachableL g s t := by
          rcases hcase with h1 | h1 | h1
          · rw [hs] at h1
            cases h1
          · rw [htn] at h1
            cases h1
          · exact h1
        rw [bfs_guard_pass hs htn]
        exact (bfsLoop_correct g s t ht [s] {s} [(s, none)] []
          (bfsInv_init g s t)).2 hnr
      · have htn2 : amem g.nodes t = false := by
          cases hb : amem g.nodes t
          · rfl
          · exact absurd hb htn
        unfold Graph.bfs
        simp [hs, htn2, htr]
    · have hs2 : amem g.nodes s = false := by
        cases hb : amem g.nodes s
        · rfl
        · exact absurd hb hs
      unfold Graph.bfs
      simp [hs2, htr]

set_option maxRecDepth 4000 in
/-- The C4 theorem instantiated on the four-node scenario graph: `bfs` from
`A` to the reachable node `D` returns a minimal-hop adjacency-list path. -/
theorem bfs_shortest_edge_count_witness :
    ("D" : String) ≠ "" ∧ amem gSpec.nodes "A" = true ∧
      amem gSpec.nodes "D" = true ∧ ReachableL gSpec "A" "D" ∧
      (∃ p, gSpec.bfs "A" (some "D") = .path p ∧ p.head? = some "A" ∧
        p.getLast? = some "D" ∧ ListWalkU gSpec p ∧
        ∀ n, HopWalk gSpec "A" "D" n → p.length ≤ n + 1) := by
  have hw1 : HopWalk gSpec "A" "C" 1 := HopWalk.step HopWalk.refl (by decide)
  have hw : HopWalk gSpec "A" "D" 2 := HopWalk.step hw1 (by decide)
  exact ⟨by decide, by decide, by decide, ⟨2, hw⟩,
    (bfs_shortest_edge_count gSpec "A" "D" (by decide)).1 (by decide) (by decide)
      ⟨2, hw⟩⟩

/-! ## Weighted walks along adjacency-list edges (C3) -/

/-- Weighted walks: a sequence of adjacency-list edges with its total cost. -/
inductive WWalk (g : Graph) (s : String) : String → Nat → Prop where
  | refl : WWalk g s s 0
  | step {u v : String} {c wt : Nat} :
      WWalk g s u c → (v, wt) ∈ adjacencyGet g u → WWalk g s v (c + wt)

/-- Weighted reachability. -/
def ReachableW (g : Graph) (s v : String) : Prop :=
  ∃ c, WWalk g s v c

/-- `w` is the minimum total weight of a walk from `s` to `v`: attained and a
lower bound on every walk cost. -/
def IsMinW (g : Graph) (s v : String) (w : Nat) : Prop :=
  WWalk g s v w ∧ ∀ m, WWalk g s v m → w ≤ m

/-- A nonempty vertex list following adjacency-list edges, with the given
total cost. -/
inductive WListWalk (g : Graph) : List String → Nat → Prop where
  | single (u : String) : WListWalk g [u] 0
  | cons {u v : String} {rest : List String} {wt c : Nat} :
      (v, wt) ∈ adjacencyGet g u → WListWalk g (v :: rest) c →
      WListWalk g (u :: v :: rest) (wt + c)

theorem wwalk_cast {g : Graph} {s v : String} {c c2 : Nat} (h : WWalk g s v c)
    (he : c = c2) : WWalk g s v c2 := he ▸ h

theorem wlistwalk_cast {g : Graph} {l : List String} {c c2 : Nat}
    (h : WListWalk g l c) (he : c = c2) : WListWalk g l c2 := he ▸ h

theorem minW_unique {g : Graph} {s v : String} {w1 w2 : Nat}
    (h1 : IsMinW g s v w1) (h2 : IsMinW g s v w2) : w1 = w2 :=
  Nat.le_antisymm (h1.2 _ h2.1) (h2.2 _ h1.1)

theorem reachable_minW {g : Graph} {s v : String} (h : ReachableW g s v) :
    ∃ w, IsMinW g s v w := by
  have hne : {c : Nat | WWalk g s v c}.Nonempty := h
  exact ⟨sInf {c | WWalk g s v c}, Nat.sInf_mem hne, fun m hm => Nat.sInf_le hm⟩

theorem minW_start (g : Graph) (s : String) : IsMinW g s s 0 :=
  ⟨WWalk.refl, fun m _ => Nat.zero_le m⟩

theorem wwalk_prepend {g : Graph} {u v x : String} {c wt : Nat}
    (h : WWalk g v x c) (he : (v, wt) ∈ adjacencyGet g u) :
    WWalk g u x (wt + c) := by
  induction h with
  | refl => exact wwalk_cast (WWalk.step WWalk.refl he) (by omega)
  | @step y z cy w2 hw he2 ihw => exact wwalk_cast (WWalk.step ihw he2) (by omega)

theorem wlistwalk_to_wwalk {g : Graph} {l : List String} {w : Nat}
    (h : WListWalk g l w) : ∀ {a b : String}, l.head? = some a →
      l.getLast? = some b → WWalk g a b w := by
  induction h with
  | single u =>
    intro a b ha hb
    simp only [List.head?_cons, Option.some_inj] at ha
    simp only [List.getLast?_singleton, Option.some_inj] at hb
    subst ha
    subst hb
    exact WWalk.refl
  | @cons u v rest wt c hedge htail ihw =>
    intro a b ha hb
    simp only [List.head?_cons, Option.some_inj] at ha
    subst ha
    rw [List.getLast?_cons_cons] at hb
    exact wwalk_prepend (ihw rfl hb) hedge

theorem wlistwalk_append {g : Graph} {l : List String} {u x : String} {w wt : Nat}
    (h : WListWalk g l w) (hl : l.getLast? = some u)
    (he : (x, wt) ∈ adjacencyGet g u) : WListWalk g (l ++ [x]) (w + wt) := by
  induction h with
  | single a =>
    simp only [List.getLast?_singleton, Option.some_inj] at hl
    subst hl
    exact wlistwalk_cast (WListWalk.cons he (WListWalk.single x)) (by omega)
  | @cons a v rest wt0 c hedge htail ih =>
    rw [List.getLast?_cons_cons] at hl
    exact wlistwalk_cast (WListWalk.cons hedge (ih hl)) (by omega)

theorem mem_keys_of_alookup_eq_some {α : Type} {d : List (String × α)} {k : String}
    {v : α} (h : alookup d k = some v) : k ∈ d.map Prod.fst :=
  List.mem_map_of_mem Prod.fst (alookup_eq_some_mem h)

theorem map_fst_map_pair {α : Type} (l : List String) (v : α) :
    (l.map (fun n => (n, v))).map Prod.fst = l := by
  induction l with
  | nil => rfl
  | cons a tl ih => simp [ih]

theorem aset_map_fst_of_mem {α : Type} {d : List (String × α)} {k : String}
    (h : k ∈ d.map Prod.fst) (v : α) :
    (aset d k v).map Prod.fst = d.map Prod.fst := by
  induction d with
  | nil => simp at h
  | cons hd tl ih =>
    rcases eq_or_ne hd.1 k with he | hne
    · simp [aset, he]
    · simp only [List.map_cons, List.mem_cons] at h
      rcases h with h | h
      · exact absurd h.symm hne
      · simp [aset, hne, ih h]

theorem alookup_map_const_of_mem {α : Type} {l : List String} {x : String}
    (h : x ∈ l) (v : α) :
    alookup (l.map (fun n => (n, v))) x = some v := by
  induction l with
  | nil => simp at h
  | cons a tl ih =>
    rcases eq_or_ne a x with rfl | hne
    · simp [alookup]
    · rcases List.mem_cons.mp h with he | hm
      · exact absurd he.symm hne
      · simp [alookup, hne, ih hm]

theorem alookup_map_const_of_not_mem {α : Type} {l : List String} {x : String}
    (h : x ∉ l) (v : α) :
    alookup (l.map (fun n => (n, v))) x = none := by
  apply alookup_eq_none_of_not_mem_keys
  simpa using h

theorem neighbor_mem_nodes_list {g : Graph} (hwf : WfGraph g) {u : String}
    {nb : String × Nat} (hnb : nb ∈ adjacencyGet g u) : nb.1 ∈ g.nodes_list := by
  unfold adjacencyGet at hnb
  cases hl : alookup g.adjacency_list u with
  | none =>
    rw [hl] at hnb
    simp at hnb
  | some l =>
    rw [hl] at hnb
    simp only [Option.getD_some] at hnb
    exact (hwf.2.2.2.2.2.2 (u, l) (alookup_eq_some_mem hl)).1 nb hnb

theorem staleCheck_eq_true {dist : List (String × Option Nat)} {c : String}
    {cd : Nat} (h : staleCheck dist c cd = true) :
    ∃ d0, alookup dist c = some (some d0) ∧ d0 < cd := by
  unfold staleCheck at h
  split at h
  next d0 heq => exact ⟨d0, heq, by simpa using h⟩
  next heq => cases h

theorem staleCheck_false_of_lookup {dist : List (String × Option Nat)}
    {c : String} {cd d0 : Nat} (hl : alookup dist c = some (some d0))
    (h : staleCheck dist c cd = false) : cd ≤ d0 := by
  unfold staleCheck at h
  rw [hl] at h
  simp at h
  omega

/-- Occurrence count of an entry in the priority queue. -/
def pcount (l : List (Nat × String)) (a : Nat × String) : Nat :=
  (l.filter (fun e => e = a)).length

theorem pcount_nil (a : Nat × String) : pcount [] a = 0 := rfl

theorem pcount_cons (b : Nat × String) (l : List (Nat × String))
    (a : Nat × String) :
    pcount (b :: l) a = (if b = a then 1 else 0) + pcount l a := by
  by_cases h : b = a <;> simp [pcount, h, Nat.add_comm]

theorem pcount_append (l1 l2 : List (Nat × String)) (a : Nat × String) :
    pcount (l1 ++ l2) a = pcount l1 a + pcount l2 a := by
  simp [pcount, List.filter_append]

theorem pcount_perm {l1 l2 : List (Nat × String)} (h : l1.Perm l2)
    (a : Nat × String) : pcount l1 a = pcount l2 a :=
  (h.filter (fun e => e = a)).length_eq

theorem pcount_eq_zero_of_not_mem {l : List (Nat × String)} {a : Nat × String}
    (h : a ∉ l) : pcount l a = 0 := by
  induction l with
  | nil => rfl
  | cons b tl ih =>
    have h1 : b ≠ a := fun he => h (he ▸ List.mem_cons_self b tl)
    have h2 : a ∉ tl := fun hm => h (List.mem_cons_of_mem _ hm)
    rw [pcount_cons, if_neg h1, ih h2]

theorem mem_of_pcount_eq_one {l : List (Nat × String)} {a : Nat × String}
    (h : pcount l a = 1) : a ∈ l := by
  by_contra hm
  rw [pcount_eq_zero_of_not_mem hm] at h
  cases h

theorem pcount_pos_of_mem {l : List (Nat × String)} {a : Nat × String}
    (h : a ∈ l) : 0 < pcount l a := by
  induction l with
  | nil => cases h
  | cons b tl ih =>
    rcases List.mem_cons.mp h with rfl | hm
    · rw [pcount_cons, if_pos rfl]
      omega
    · rw [pcount_cons]
      have := ih hm
      omega

theorem indexOf_append_left {l1 l2 : List String} {x : String} (h : x ∈ l1) :
    (l1 ++ l2).indexOf x = l1.indexOf x := by
  induction l1 with
  | nil => simp at h
  | cons a tl ih =>
    rcases eq_or_ne a x with rfl | hne
    · rw [List.cons_append, List.indexOf_cons_self, List.indexOf_cons_self]
    · have hx : x ∈ tl := by
        rcases List.mem_cons.mp h with he | hm
        · exact absurd he.symm hne
        · exact hm
      rw [List.cons_append, List.indexOf_cons_ne _ hne, List.indexOf_cons_ne _ hne,
        ih hx]

theorem indexOf_append_self_right {l : List String} {c : String} (h : c ∉ l) :
    (l ++ [c]).indexOf c = l.length := by
  induction l with
  | nil => simp
  | cons a tl ih =>
    have hne : a ≠ c := fun he => h (by simp [he])
    have h2 : c ∉ tl := fun hm => h (by simp [hm])
    rw [List.cons_append, List.indexOf_cons_ne _ hne, ih h2, List.length_cons]

/-- The core invariant of the `dijkstra` main loop.  `S` is the list of
settled nodes in settling order; `dist` stores `some (some d)` for a finite
tentative distance and `some none` for `+infinity`. -/
structure DijkCore (g : Graph) (s : String) (S : List String)
    (dist : List (String × Option Nat)) (prev : List (String × Option String))
    (pq : List (Nat × String)) : Prop where
  dist_keys : dist.map Prod.fst = g.nodes_list
  prev_keys : prev.map Prod.fst = g.nodes_list
  start_dist : alookup dist s = some (some 0)
  start_prev : alookup prev s = some none
  sound : ∀ x dx, alookup dist x = some (some dx) → WWalk g s x dx
  chain : ∀ x dx, alookup dist x = some (some dx) → x ≠ s →
      ∃ u wt du, alookup prev x = some (some u) ∧ (x, wt) ∈ adjacencyGet g u ∧
        u ∈ S ∧ alookup dist u = some (some du) ∧ du + wt ≤ dx
  settled_min : ∀ x ∈ S, ∃ dx, alookup dist x = some (some dx) ∧ IsMinW g s x dx
  settled_order : ∀ x ∈ S, x ≠ s → ∀ u, alookup prev x = some (some u) →
      S.indexOf u < S.indexOf x
  settled_nodup : S.Nodup
  pq_dom : ∀ e ∈ pq, ∃ dc, alookup dist e.2 = some (some dc) ∧ dc ≤ e.1
  pq_settled : ∀ e ∈ pq, e.2 ∈ S → ∃ dc, alookup dist e.2 = some (some dc) ∧ dc < e.1
  pq_fresh : ∀ c, c ∉ S → ∀ dc, alookup dist c = some (some dc) →
      pcount pq (dc, c) = 1

/-- Every settled node has all its stored neighbors relaxed. -/
def SettledClosed (g : Graph) (S : List String)
    (dist : List (String × Option Nat)) : Prop :=
  ∀ u ∈ S, ∀ du, alookup dist u = some (some du) → ∀ nb ∈ adjacencyGet g u,
    ∃ dv, alookup dist nb.1 = some (some dv) ∧ dv ≤ du + nb.2

/-- Crossing lemma: any walk ending outside the settled set passes over the
frontier, so the priority queue holds an entry whose key is at most the walk
cost. -/
theorem dijk_crossing {g : Graph} {s : String} {S : List String}
    {dist : List (String × Option Nat)} {prev : List (String × Option String)}
    {pq : List (Nat × String)} (hcore : DijkCore g s S dist prev pq)
    (hclosed : SettledClosed g S dist) :
    ∀ {x : String} {c : Nat}, WWalk g s x c → x ∉ S →
      ∃ y dy, (dy, y) ∈ pq ∧ alookup dist y = some (some dy) ∧ dy ≤ c := by
  intro x c hw
  induction hw with
  | refl =>
    intro hs
    exact ⟨s, 0, mem_of_pcount_eq_one (hcore.pq_fresh s hs 0 hcore.start_dist),
      hcore.start_dist, Nat.le_refl 0⟩
  | @step u v cu wt hwu hedge ihw =>
    intro hv
    by_cases huS : u ∈ S
    · obtain ⟨du, hdu, hdu_min⟩ := hcore.settled_min u huS
      have hdu_le : du ≤ cu := hdu_min.2 cu hwu
      obtain ⟨dv, hdv, hdv_le⟩ := hclosed u huS du hdu (v, wt) hedge
      exact ⟨v, dv, mem_of_pcount_eq_one (hcore.pq_fresh v hv dv hdv), hdv,
        by omega⟩
    · obtain ⟨y, dy, hmem, hlk, hle⟩ := ihw huS
      exact ⟨y, dy, hmem, hlk, by omega⟩

/-- A non-stale pop carries the exact stored distance, concerns an unsettled
node, and that distance is the minimum walk cost. -/
theorem dijk_settle {g : Graph} {s : String} {S : List String}
    {dist : List (String × Option Nat)} {prev : List (String × Option String)}
    {pq rest : List (Nat × String)} {cd : Nat} {c : String}
    (hcore : DijkCore g s S dist prev pq) (hclosed : SettledClosed g S dist)
    (hpop : popMin pq = some ((cd, c), rest))
    (hns : staleCheck dist c cd = false) :
    alookup dist c = some (some cd) ∧ c ∉ S ∧ IsMinW g s c cd := by
  have hmem : (cd, c) ∈ pq := (popMin_perm hpop).mem_iff.mpr (List.mem_cons_self _ _)
  obtain ⟨d0, hd0, hd0le⟩ := hcore.pq_dom (cd, c) hmem
  have hge : cd ≤ d0 := staleCheck_false_of_lookup hd0 hns
  have hdc : d0 = cd := by omega
  have hcnS : c ∉ S := by
    intro hcS
    obtain ⟨dc2, hdc2, hlt⟩ := hcore.pq_settled (cd, c) hmem hcS
    rw [hd0] at hdc2
    injection hdc2 with h1
    injection h1 with h1
    omega
  obtain ⟨dm, hdm⟩ := reachable_minW ⟨d0, hcore.sound c d0 hd0⟩
  have h1 : dm ≤ d0 := hdm.2 _ (hcore.sound c d0 hd0)
  obtain ⟨y, dy, hymem, hylk, hyle⟩ := dijk_crossing hcore hclosed hdm.1 hcnS
  have h2 : cd ≤ dy := by
    rcases popMin_min hpop (dy, y) hymem with h | ⟨h, _⟩
    · exact Nat.le_of_lt h
    · omega
  have hde : dm = cd := by omega
  exact ⟨hdc ▸ hd0, hcnS, hde ▸ hdm⟩

/-- Skipping a stale entry preserves the core invariant. -/
theorem dijk_stale_preserve {g : Graph} {s : String} {S : List String}
    {dist : List (String × Option Nat)} {prev : List (String × Option String)}
    {pq rest : List (Nat × String)} {cd : Nat} {c : String}
    (hcore : DijkCore g s S dist prev pq)
    (hpop : popMin pq = some ((cd, c), rest))
    (hst : staleCheck dist c cd = true) :
    DijkCore g s S dist prev rest := by
  obtain ⟨d0, hd0, hd0lt⟩ := staleCheck_eq_true hst
  have hperm := popMin_perm hpop
  refine
    { dist_keys := hcore.dist_keys
      prev_keys := hcore.prev_keys
      start_dist := hcore.start_dist
      start_prev := hcore.start_prev
      sound := hcore.sound
      chain := hcore.chain
      settled_min := hcore.settled_min
      settled_order := hcore.settled_order
      settled_nodup := hcore.settled_nodup
      pq_dom := ?_
      pq_settled := ?_
      pq_fresh := ?_ }
  · intro e he
    exact hcore.pq_dom e (hperm.mem_iff.mpr (List.mem_cons_of_mem _ he))
  · intro e he
    exact hcore.pq_settled e (hperm.mem_iff.mpr (List.mem_cons_of_mem _ he))
  · intro cc hcc dcc hdcc
    have hcount := hcore.pq_fresh cc hcc dcc hdcc
    rw [pcount_perm hperm] at hcount
    have hne : ((cd, c) : Nat × String) ≠ (dcc, cc) := by
      intro he
      injection he with h1 h2
      subst h2
      rw [hd0] at hdcc
      injection hdcc with h3
      injection h3 with h3
      omega
    rw [pcount_cons, if_neg hne] at hcount
    simpa using hcount

/-- Invariant during the relaxation pass of the freshly settled node `c` at
exact distance `cd`; `pending` is the unprocessed suffix of its stored
neighbor list. -/
structure MidDijk (g : Graph) (s c : String) (cd : Nat) (S : List String)
    (pending : List (String × Nat)) (dist : List (String × Option Nat))
    (prev : List (String × Option String)) (pq : List (Nat × String)) : Prop where
  core : DijkCore g s S dist prev pq
  closed_other : ∀ u ∈ S, u ≠ c → ∀ du, alookup dist u = some (some du) →
      ∀ nb ∈ adjacencyGet g u,
        ∃ dv, alookup dist nb.1 = some (some dv) ∧ dv ≤ du + nb.2
  cur_done : ∃ done, adjacencyGet g c = done ++ pending ∧
      ∀ nb ∈ done, ∃ dv, alookup dist nb.1 = some (some dv) ∧ dv ≤ cd + nb.2
  cur_dist : alookup dist c = some (some cd)
  cur_mem : c ∈ S

/-- Settling the popped node: the loop invariant turns into the mid-pass
invariant with `c` appended to the settling order and its whole neighbor
list pending. -/
theorem dijk_extend {g : Graph} {s : String} {S : List String}
    {dist : List (String × Option Nat)} {prev : List (String × Option String)}
    {pq rest : List (Nat × String)} {cd : Nat} {c : String}
    (hcore : DijkCore g s S dist prev pq) (hclosed : SettledClosed g S dist)
    (hpop : popMin pq = some ((cd, c), rest))
    (hdc : alookup dist c = some (some cd)) (hcnS : c ∉ S) :
    ∀ hmin : IsMinW g s c cd,
    MidDijk g s c cd (S ++ [c]) (adjacencyGet g c) dist prev rest := by
  intro hmin
  have hperm := popMin_perm hpop
  have hmemS2 : ∀ x ∈ S, x ∈ S ++ [c] := fun x hx => List.mem_append.mpr (Or.inl hx)
  have hrest_pq : ∀ e ∈ rest, e ∈ pq := fun e he =>
    hperm.mem_iff.mpr (List.mem_cons_of_mem _ he)
  have hfresh_rest : pcount rest (cd, c) = 0 := by
    have h1 := hcore.pq_fresh c hcnS cd hdc
    rw [pcount_perm hperm, pcount_cons, if_pos rfl] at h1
    omega
  refine
    { core := ?_
      closed_other := ?_
      cur_done := ⟨[], rfl, fun nb hnb => absurd hnb (List.not_mem_nil nb)⟩
      cur_dist := hdc
      cur_mem := List.mem_append_right S (List.mem_singleton.mpr rfl) }
  · refine
      { dist_keys := hcore.dist_keys
        prev_keys := hcore.prev_keys
        start_dist := hcore.start_dist
        start_prev := hcore.start_prev
        sound := hcore.sound
        chain := ?_
        settled_min := ?_
        settled_order := ?_
        settled_nodup := ?_
        pq_dom := fun e he => hcore.pq_dom e (hrest_pq e he)
        pq_settled := ?_
        pq_fresh := ?_ }
    · intro x dx hdx hxs
      obtain ⟨u, wt, du, h1, h2, h3, h4, h5⟩ := hcore.chain x dx hdx hxs
      exact ⟨u, wt, du, h1, h2, hmemS2 u h3, h4, h5⟩
    · intro x hx
      rcases List.mem_append.mp hx with hx1 | hx1
      · exact hcore.settled_min x hx1
      · rw [List.mem_singleton.mp hx1]
        exact ⟨cd, hdc, hmin⟩
    · intro x hx hxs u hu
      rcases List.mem_append.mp hx with hx1 | hx1
      · obtain ⟨dx, hdx, _⟩ := hcore.settled_min x hx1
        obtain ⟨u2, wt, du, hpu2, _, hu2S, _, _⟩ := hcore.chain x dx hdx hxs
        have hueq : u = u2 := by
          rw [hpu2] at hu
          injection hu with h1
          injection h1 with h1
          exact h1.symm
        subst hueq
        rw [indexOf_append_left hu2S, indexOf_append_left hx1]
        exact hcore.settled_order x hx1 hxs u hpu2
      · rw [List.mem_singleton.mp hx1] at hu ⊢
        obtain ⟨u2, wt, du, hpu2, _, hu2S, _, _⟩ := hcore.chain c cd hdc
          (by rw [← List.mem_singleton.mp hx1]; exact hxs)
        have hueq : u = u2 := by
          rw [hpu2] at hu
          injection hu with h1
          injection h1 with h1
          exact h1.symm
        subst hueq
        rw [indexOf_append_left hu2S, indexOf_append_self_right hcnS]
        exact List.indexOf_lt_length.mpr hu2S
    · refine List.nodup_append.mpr ⟨hcore.settled_nodup, List.nodup_singleton c, ?_⟩
      intro a ha hb
      rw [List.mem_singleton.mp hb] at ha
      exact hcnS ha
    · intro e he heS
      rcases List.mem_append.mp heS with h1 | h1
      · exact hcore.pq_settled e (hrest_pq e he) h1
      · obtain ⟨dc2, hdc2, hle⟩ := hcore.pq_dom e (hrest_pq e he)
        have hee : e.2 = c := List.mem_singleton.mp h1
        rw [hee, hdc] at hdc2
        injection hdc2 with h2
        injection h2 with h2
        refine ⟨cd, by rw [hee]; exact hdc, ?_⟩
        rcases Nat.lt_or_ge cd e.1 with hlt | hge
        · exact hlt
        · exfalso
          have heeq : e = (cd, c) := Prod.ext_iff.mpr ⟨by omega, hee⟩
          have := pcount_pos_of_mem (heeq ▸ he)
          omega
    · intro cc hcc dcc hdcc
      simp only [List.mem_append, List.mem_singleton, not_or] at hcc
      have h1 := hcore.pq_fresh cc hcc.1 dcc hdcc
      rw [pcount_perm hperm, pcount_cons,
        if_neg (fun he => hcc.2 (congrArg Prod.snd he).symm)] at h1
      simpa using h1
  · intro u huS hune du hdu nb hnb
    rcases List.mem_append.mp huS with h1 | h1
    · exact hclosed u h1 du hdu nb hnb
    · exact absurd (List.mem_singleton.mp h1) hune

/-- The relaxation pass carries the mid-pass invariant to the empty pending
list. -/
theorem relax_pass {g : Graph} {s : String} (hwf : WfGraph g) {c : String}
    {cd : Nat} {S : List String} :
    ∀ (pending : List (String × Nat)) (dist : List (String × Option Nat))
      (prev : List (String × Option String)) (pq : List (Nat × String)),
      MidDijk g s c cd S pending dist prev pq →
      MidDijk g s c cd S []
        (relaxNeighbors c cd pending dist prev pq).1
        (relaxNeighbors c cd pending dist prev pq).2.1
        (relaxNeighbors c cd pending dist prev pq).2.2 := by
  intro pending
  induction pending with
  | nil =>
    intro dist prev pq h
    simpa [relaxNeighbors] using h
  | cons nb rest ih =>
    intro dist prev pq h
    obtain ⟨done, hdone_eq, hdone_rel⟩ := h.cur_done
    have hnbadj : nb ∈ adjacencyGet g c := by
      rw [hdone_eq]
      exact List.mem_append.mpr (Or.inr (List.mem_cons_self _ _))
    have hdone_eq2 : adjacencyGet g c = (done ++ [nb]) ++ rest := by
      rw [hdone_eq, List.append_assoc, List.singleton_append]
    cases hk : alookup dist nb.1 with
    | none =>
      exfalso
      have h1 : nb.1 ∈ g.nodes_list := neighbor_mem_nodes_list hwf hnbadj
      have h2 : nb.1 ∈ dist.map Prod.fst := by
        rw [h.core.dist_keys]
        exact h1
      have h3 := alookup_isSome_of_mem_keys h2
      rw [hk] at h3
      cases h3
    | some stored =>
      by_cases hlt : ltOpt (cd + nb.2) stored = true
      · rw [show relaxNeighbors c cd (nb :: rest) dist prev pq
            = relaxNeighbors c cd rest (aset dist nb.1 (some (cd + nb.2)))
                (aset prev nb.1 (some c)) (pq ++ [(cd + nb.2, nb.1)])
            from by simp [relaxNeighbors, hk, hlt]]
        apply ih
        have hedge : (nb.1, nb.2) ∈ adjacencyGet g c := by
          rw [Prod.mk.eta]
          exact hnbadj
        have hcwalk : WWalk g s nb.1 (cd + nb.2) :=
          WWalk.step (h.core.sound c cd h.cur_dist) hedge
        have hvS : nb.1 ∉ S := by
          intro hvS
          obtain ⟨dv, hdv, hdvmin⟩ := h.core.settled_min nb.1 hvS
          rw [hk] at hdv
          injection hdv with h1
          rw [h1] at hlt
          simp only [ltOpt, decide_eq_true_eq] at hlt
          have := hdvmin.2 _ hcwalk
          omega
        have hvs : nb.1 ≠ s := by
          intro he
          rw [he, h.core.start_dist] at hk
          injection hk with h1
          rw [← h1] at hlt
          simp only [ltOpt, decide_eq_true_eq] at hlt
          omega
        have hvkeys : nb.1 ∈ dist.map Prod.fst := mem_keys_of_alookup_eq_some hk
        have hvprevkeys : nb.1 ∈ prev.map Prod.fst := by
          rw [h.core.prev_keys, ← h.core.dist_keys]
          exact hvkeys
        have hcv : c ≠ nb.1 := fun he => hvS (he ▸ h.cur_mem)
        have hsv : s ≠ nb.1 := fun he => hvs he.symm
        refine
          { core := ?_
            closed_other := ?_
            cur_done := ⟨done ++ [nb], hdone_eq2, ?_⟩
            cur_dist := by
              rw [alookup_aset_ne dist _ hcv]
              exact h.cur_dist
            cur_mem := h.cur_mem }
        · refine
            { dist_keys := by
                rw [aset_map_fst_of_mem hvkeys]
                exact h.core.dist_keys
              prev_keys := by
                rw [aset_map_fst_of_mem hvprevkeys]
                exact h.core.prev_keys
              start_dist := by
                rw [alookup_aset_ne dist _ hsv]
                exact h.core.start_dist
              start_prev := by
                rw [alookup_aset_ne prev _ hsv]
                exact h.core.start_prev
              sound := ?_
              chain := ?_
              settled_min := ?_
              settled_order := ?_
              settled_nodup := h.core.settled_nodup
              pq_dom := ?_
              pq_settled := ?_
              pq_fresh := ?_ }
          · intro x dx hdx
            rcases eq_or_ne x nb.1 with rfl | hne
            · rw [alookup_aset_self] at hdx
              injection hdx with h1
              injection h1 with h1
              exact h1 ▸ hcwalk
            · rw [alookup_aset_ne dist _ hne] at hdx
              exact h.core.sound x dx hdx
          · intro x dx hdx hxs
            rcases eq_or_ne x nb.1 with rfl | hne
            · rw [alookup_aset_self] at hdx
              injection hdx with h1
              injection h1 with h1
              exact ⟨c, nb.2, cd, by rw [alookup_aset_self], hedge, h.cur_mem,
                by rw [alookup_aset_ne dist _ hcv]; exact h.cur_dist, by omega⟩
            · rw [alookup_aset_ne dist _ hne] at hdx
              obtain ⟨u, wt2, du, hpu, hed, huS, hdu, hb⟩ :=
                h.core.chain x dx hdx hxs
              have hunv : u ≠ nb.1 := fun he => hvS (he ▸ huS)
              exact ⟨u, wt2, du, by rw [alookup_aset_ne prev _ hne]; exact hpu,
                hed, huS, by rw [alookup_aset_ne dist _ hunv]; exact hdu, hb⟩
          · intro x hx
            have hxnv : x ≠ nb.1 := fun he => hvS (he ▸ hx)
            obtain ⟨dx, h1, h2⟩ := h.core.settled_min x hx
            exact ⟨dx, by rw [alookup_aset_ne dist _ hxnv]; exact h1, h2⟩
          · intro x hx hxs u hu
            have hxnv : x ≠ nb.1 := fun he => hvS (he ▸ hx)
            rw [alookup_aset_ne prev _ hxnv] at hu
            exact h.core.settled_order x hx hxs u hu
          · intro e he
            rcases List.mem_append.mp he with he1 | he1
            · obtain ⟨dc2, hdc2, hle⟩ := h.core.pq_dom e he1
              rcases eq_or_ne e.2 nb.1 with heq | hne
              · rw [heq] at hdc2
                rw [hk] at hdc2
                injection hdc2 with h1
                rw [h1] at hlt
                simp only [ltOpt, decide_eq_true_eq] at hlt
                exact ⟨cd + nb.2, by rw [heq, alookup_aset_self], by omega⟩
              · exact ⟨dc2, by rw [alookup_aset_ne dist _ hne]; exact hdc2, hle⟩
            · rw [List.mem_singleton.mp he1]
              exact ⟨cd + nb.2, by rw [alookup_aset_self], Nat.le_refl _⟩
          · intro e he heS
            rcases List.mem_append.mp he with he1 | he1
            · have hne : e.2 ≠ nb.1 := fun hh => hvS (hh ▸ heS)
              obtain ⟨dc2, hdc2, hle⟩ := h.core.pq_settled e he1 heS
              exact ⟨dc2, by rw [alookup_aset_ne dist _ hne]; exact hdc2, hle⟩
            · rw [List.mem_singleton.mp he1] at heS
              exact absurd heS hvS
          · intro cc hcc dcc hdcc
            rcases eq_or_ne cc nb.1 with rfl | hne
            · rw [alookup_aset_self] at hdcc
              injection hdcc with h1
              injection h1 with h1
              rw [pcount_append]
              have hz : pcount pq (dcc, nb.1) = 0 := by
                apply pcount_eq_zero_of_not_mem
                intro hmem
                obtain ⟨dc2, hdc2, hle⟩ := h.core.pq_dom (dcc, nb.1) hmem
                dsimp only at hdc2
                rw [hk] at hdc2
                injection hdc2 with h2
                rw [h2] at hlt
                simp only [ltOpt, decide_eq_true_eq] at hlt
                omega
              rw [hz, ← h1, pcount_cons, if_pos rfl, pcount_nil]
            · rw [alookup_aset_ne dist _ hne] at hdcc
              rw [pcount_append, pcount_cons,
                if_neg (fun hh => hne (congrArg Prod.snd hh).symm), pcount_nil,
                h.core.pq_fresh cc hcc dcc hdcc]
        · intro u huS hune du hdu nb2 hnb2
          have hun : u ≠ nb.1 := fun he => hvS (he ▸ huS)
          rw [alookup_aset_ne dist _ hun] at hdu
          obtain ⟨dv2, hv1, hv2⟩ := h.closed_other u huS hune du hdu nb2 hnb2
          rcases eq_or_ne nb2.1 nb.1 with heq | hne2
          · rw [heq] at hv1
            rw [hk] at hv1
            injection hv1 with h1
            rw [h1] at hlt
            simp only [ltOpt, decide_eq_true_eq] at hlt
            exact ⟨cd + nb.2, by rw [heq, alookup_aset_self], by omega⟩
          · exact ⟨dv2, by rw [alookup_aset_ne dist _ hne2]; exact hv1, hv2⟩
        · intro nb2 hnb2
          rcases List.mem_append.mp hnb2 with h2 | h2
          · obtain ⟨dv2, hv1, hv2⟩ := hdone_rel nb2 h2
            rcases eq_or_ne nb2.1 nb.1 with heq | hne2
            · rw [heq] at hv1
              rw [hk] at hv1
              injection hv1 with h1
              rw [h1] at hlt
              simp only [ltOpt, decide_eq_true_eq] at hlt
              exact ⟨cd + nb.2, by rw [heq, alookup_aset_self], by omega⟩
            · exact ⟨dv2, by rw [alookup_aset_ne dist _ hne2]; exact hv1, hv2⟩
          · rw [List.mem_singleton.mp h2]
            exact ⟨cd + nb.2, by rw [alookup_aset_self], Nat.le_refl _⟩
      · rw [show relaxNeighbors c cd (nb :: rest) dist prev pq
            = relaxNeighbors c cd rest dist prev pq
            from by simp [relaxNeighbors, hk, hlt]]
        apply ih
        have hstored : ∃ d0, stored = some d0 ∧ d0 ≤ cd + nb.2 := by
          cases stored with
          | none => simp [ltOpt] at hlt
          | some d0 =>
            refine ⟨d0, rfl, ?_⟩
            simp only [ltOpt, decide_eq_true_eq] at hlt
            omega
        obtain ⟨d0, hseq, hd0le⟩ := hstored
        subst hseq
        refine { h with cur_done := ⟨done ++ [nb], hdone_eq2, ?_⟩ }
        intro nb2 hnb2
        rcases List.mem_append.mp hnb2 with h2 | h2
        · exact hdone_rel nb2 h2
        · rw [List.mem_singleton.mp h2]
          exact ⟨d0, hk, hd0le⟩

/-- After the pass, the loop invariant holds again, with the new settled node
fully relaxed. -/
theorem midDijk_final {g : Graph} {s c : String} {cd : Nat} {S : List String}
    {dist : List (String × Option Nat)} {prev : List (String × Option String)}
    {pq : List (Nat × String)} (h : MidDijk g s c cd S [] dist prev pq) :
    DijkCore g s S dist prev pq ∧ SettledClosed g S dist := by
  refine ⟨h.core, ?_⟩
  intro u huS du hdu nb hnb
  rcases eq_or_ne u c with rfl | hne
  · obtain ⟨done, hde, hdv⟩ := h.cur_done
    rw [List.append_nil] at hde
    have hdu2 : du = cd := by
      rw [h.cur_dist] at hdu
      injection hdu with h1
      injection h1 with h1
      exact h1.symm
    obtain ⟨dv, hv1, hv2⟩ := hdv nb (hde ▸ hnb)
    exact ⟨dv, hv1, by omega⟩
  · exact h.closed_other u huS hne du hdu nb hnb

/-- Reconstructing the Dijkstra previous-pointer chain of a settled node:
strong induction along the settling order yields a chain whose reversal is a
weighted adjacency-list walk of cost at most the stored distance. -/
theorem dijk_chain_rec {g : Graph} {s : String} {S : List String}
    {dist : List (String × Option Nat)} {prev : List (String × Option String)}
    {pq : List (Nat × String)} (hcore : DijkCore g s S dist prev pq) :
    ∀ k x, x ∈ S → S.indexOf x ≤ k →
      ∃ c w, (∀ fuel, S.indexOf x + 1 ≤ fuel → walkParent fuel prev x = c) ∧
        c.head? = some x ∧ c.getLast? = some s ∧
        WListWalk g c.reverse w ∧
        (∀ y ∈ c, y ∈ S ∧ S.indexOf y ≤ S.indexOf x) ∧ c.Nodup ∧
        ∀ dx, alookup dist x = some (some dx) → w ≤ dx := by
  intro k
  induction k using Nat.strong_induction_on with
  | _ k ih =>
    intro x hx hix
    by_cases hxs : x = s
    · subst hxs
      refine ⟨[x], 0, ?_, rfl, rfl, WListWalk.single x, ?_,
        List.nodup_singleton x, fun dx _ => Nat.zero_le dx⟩
      · intro fuel hf
        match fuel, hf with
        | f + 1, _ => exact walkParent_succ_none hcore.start_prev f
      · intro y hy
        rw [List.mem_singleton.mp hy]
        exact ⟨hx, Nat.le_refl _⟩
    · obtain ⟨dx, hdx, _⟩ := hcore.settled_min x hx
      obtain ⟨u, wt, du, hpu, hedge, huS, hdu, hb⟩ := hcore.chain x dx hdx hxs
      have hord := hcore.settled_order x hx hxs u hpu
      obtain ⟨cu, w, hcu_fuel, hcu_head, hcu_last, hcu_walk, hcu_mem, hcu_nd,
        hcu_le⟩ := ih (S.indexOf u) (by omega) u huS (Nat.le_refl _)
      refine ⟨x :: cu, w + wt, ?_, rfl, ?_, ?_, ?_, ?_, ?_⟩
      · intro fuel hf
        match fuel, hf with
        | f + 1, hf =>
          rw [walkParent_succ_some hpu f, hcu_fuel f (by omega)]
      · cases cu with
        | nil => simp at hcu_head
        | cons b bs =>
          rw [List.getLast?_cons_cons]
          exact hcu_last
      · rw [List.reverse_cons]
        refine wlistwalk_append hcu_walk ?_ hedge
        rw [List.getLast?_reverse]
        exact hcu_head
      · intro y hy
        rcases List.mem_cons.mp hy with rfl | hy2
        · exact ⟨hx, Nat.le_refl _⟩
        · obtain ⟨hyS, hyle⟩ := hcu_mem y hy2
          exact ⟨hyS, by omega⟩
      · refine List.nodup_cons.mpr ⟨?_, hcu_nd⟩
        intro hxc
        obtain ⟨_, hle⟩ := hcu_mem x hxc
        omega
      · intro dx2 hdx2
        rw [hdx] at hdx2
        injection hdx2 with h1
        injection h1 with h1
        have hwle : w ≤ du := hcu_le du hdu
        omega

/-- Chain reconstruction for any node with a finite stored distance (the
node itself need not be settled; its predecessor is). -/
theorem dijk_chain_top {g : Graph} {s : String} {S : List String}
    {dist : List (String × Option Nat)} {prev : List (String × Option String)}
    {pq : List (Nat × String)} (hcore : DijkCore g s S dist prev pq) :
    ∀ x dx, alookup dist x = some (some dx) → x ∉ S →
      ∃ c w, (∀ fuel, S.length + 1 ≤ fuel → walkParent fuel prev x = c) ∧
        c.head? = some x ∧ c.getLast? = some s ∧ WListWalk g c.reverse w ∧
        c.Nodup ∧ w ≤ dx := by
  intro x dx hdx hxS
  by_cases hxs : x = s
  · subst hxs
    refine ⟨[x], 0, ?_, rfl, rfl, WListWalk.single x, List.nodup_singleton x,
      Nat.zero_le dx⟩
    intro fuel hf
    match fuel, hf with
    | f + 1, _ => exact walkParent_succ_none hcore.start_prev f
  · obtain ⟨u, wt, du, hpu, hedge, huS, hdu, hb⟩ := hcore.chain x dx hdx hxs
    have hiu : S.indexOf u < S.length := List.indexOf_lt_length.mpr huS
    obtain ⟨cu, w, hcu_fuel, hcu_head, hcu_last, hcu_walk, hcu_mem, hcu_nd,
      hcu_le⟩ := dijk_chain_rec hcore (S.indexOf u) u huS (Nat.le_refl _)
    refine ⟨x :: cu, w + wt, ?_, rfl, ?_, ?_, ?_, ?_⟩
    · intro fuel hf
      match fuel, hf with
      | f + 1, hf =>
        rw [walkParent_succ_some hpu f, hcu_fuel f (by omega)]
    · cases cu with
      | nil => simp at hcu_head
      | cons b bs =>
        rw [List.getLast?_cons_cons]
        exact hcu_last
    · rw [List.reverse_cons]
      refine wlistwalk_append hcu_walk ?_ hedge
      rw [List.getLast?_reverse]
      exact hcu_head
    · refine List.nodup_cons.mpr ⟨?_, hcu_nd⟩
      intro hxc
      exact hxS (hcu_mem x hxc).1
    · have hwle : w ≤ du := hcu_le du hdu
      omega

theorem settled_le_prev_length {g : Graph} {s : String} {S : List String}
    {dist : List (String × Option Nat)} {prev : List (String × Option String)}
    {pq : List (Nat × String)} (hcore : DijkCore g s S dist prev pq) :
    S.length ≤ prev.length := by
  have h1 : ∀ x ∈ S, x ∈ prev.map Prod.fst := by
    intro x hx
    obtain ⟨dx, hdx, _⟩ := hcore.settled_min x hx
    rw [hcore.prev_keys, ← hcore.dist_keys]
    exact mem_keys_of_alookup_eq_some hdx
  calc S.length = S.toFinset.card :=
        (List.toFinset_card_of_nodup hcore.settled_nodup).symm
    _ ≤ (prev.map Prod.fst).toFinset.card := Finset.card_le_card
        (fun x hx => List.mem_toFinset.mpr (h1 x (List.mem_toFinset.mp hx)))
    _ ≤ (prev.map Prod.fst).length := (prev.map Prod.fst).toFinset_card_le
    _ = prev.length := by simp

/-- Main correctness of the `dijkstra` loop with a nonempty target label:
from any state satisfying the invariant with the target unsettled, a
reachable target yields a returned minimal-weight path, an unreachable one
the absent result. -/
theorem dijkstraLoop_correct_target (g : Graph) (s t : String)
    (hwf : WfGraph g) (ht : t ≠ "") :
    ∀ dist prev pq, ∀ S : List String, DijkCore g s S dist prev pq →
      SettledClosed g S dist → t ∉ S →
      (ReachableW g s t →
        ∃ p w, dijkstraLoop g (some t) dist prev pq = .path p ∧
          p.head? = some s ∧ p.getLast? = some t ∧ WListWalk g p w ∧
          IsMinW g s t w ∧ p.Nodup) ∧
      (¬ ReachableW g s t → dijkstraLoop g (some t) dist prev pq = .absent) := by
  have htr : truthyTarget (some t) = true := by
    simp only [truthyTarget, bne_iff_ne, ne_eq, decide_not]
    simpa using ht
  intro dist prev pq
  induction dist, prev, pq using dijkstraLoop.induct g (some t) with
  | case1 dist prev pq hpop htru =>
    intro S hcore hclosed htS
    have hpq : pq = [] := popMin_eq_none.mp hpop
    constructor
    · intro hreach
      exfalso
      obtain ⟨dm, hdm⟩ := reachable_minW hreach
      obtain ⟨y, dy, hymem, _, _⟩ := dijk_crossing hcore hclosed hdm.1 htS
      rw [hpq] at hymem
      cases hymem
    · intro _
      rw [dijkstraLoop_empty g (some t) dist prev hpop, if_pos htru]
  | case2 dist prev pq hpop htru =>
    intro S _ _ _
    exact absurd htr htru
  | case3 dist prev pq cd cur rest hpop htar =>
    intro S hcore hclosed htS
    have hcur : t = cur := by
      have h1 := eq_of_isTarget_true htar
      injection h1
    subst hcur
    have hmem : (cd, t) ∈ pq :=
      (popMin_perm hpop).mem_iff.mpr (List.mem_cons_self _ _)
    obtain ⟨d0, hd0, hd0le⟩ := hcore.pq_dom (cd, t) hmem
    dsimp only at hd0 hd0le
    obtain ⟨dm, hdm⟩ := reachable_minW ⟨d0, hcore.sound t d0 hd0⟩
    have h1 : dm ≤ d0 := hdm.2 _ (hcore.sound t d0 hd0)
    obtain ⟨y, dy, hymem, hylk, hyle⟩ := dijk_crossing hcore hclosed hdm.1 htS
    have h2 : cd ≤ dy := by
      rcases popMin_min hpop (dy, y) hymem with h | ⟨h, _⟩
      · exact Nat.le_of_lt h
      · omega
    have hd0m : d0 = dm := by omega
    obtain ⟨c, w, hc_fuel, hc_head, hc_last, hc_walk, hc_nd, hc_le⟩ :=
      dijk_chain_top hcore t d0 hd0 htS
    have hfuel : S.length + 1 ≤ prev.length + 1 :=
      Nat.succ_le_succ (settled_le_prev_length hcore)
    constructor
    · intro _
      refine ⟨c.reverse, w, ?_, ?_, ?_, hc_walk, ?_, List.nodup_reverse.mpr hc_nd⟩
      · rw [dijkstraLoop_target g (some t) dist prev hpop htar, hc_fuel _ hfuel]
      · rw [List.head?_reverse]
        exact hc_last
      · rw [List.getLast?_reverse]
        exact hc_head
      · have hww : WWalk g s t w := wlistwalk_to_wwalk hc_walk
          (by rw [List.head?_reverse]; exact hc_last)
          (by rw [List.getLast?_reverse]; exact hc_head)
        have hge : dm ≤ w := hdm.2 _ hww
        have hwe : w = dm := by omega
        exact hwe ▸ hdm
    · intro hnr
      exact absurd ⟨d0, hcore.sound t d0 hd0⟩ hnr
  | case4 dist prev pq cd cur rest hpop htar hstale ih =>
    intro S hcore hclosed htS
    have hres := ih S (dijk_stale_preserve hcore hpop hstale) hclosed htS
    rw [dijkstraLoop_stale g (some t) dist prev hpop
      (Bool.eq_false_iff.mpr htar) hstale]
    exact hres
  | case5 dist prev pq cd cur rest hpop htar hstale dist' prev' pq' hrel ih =>
    intro S hcore hclosed htS
    have htarf : isTarget (some t) cur = false := Bool.eq_false_iff.mpr htar
    have hstalef : staleCheck dist cur cd = false := Bool.eq_false_iff.mpr hstale
    obtain ⟨hdc, hcnS, hmin⟩ := dijk_settle hcore hclosed hpop hstalef
    have hmid0 := dijk_extend hcore hclosed hpop hdc hcnS hmin
    have hmid := relax_pass hwf (adjacencyGet g cur) dist prev rest hmid0
    rw [hrel] at hmid
    obtain ⟨hcore2, hclosed2⟩ := midDijk_final hmid
    have htne : t ≠ cur := ne_of_isTarget_false ht htarf
    have htS2 : t ∉ S ++ [cur] := by
      intro hmem2
      rcases List.mem_append.mp hmem2 with h1 | h1
      · exact htS h1
      · exact htne (List.mem_singleton.mp h1)
    have hres := ih (S ++ [cur]) hcore2 hclosed2 htS2
    rw [dijkstraLoop_relax g (some t) hpop htarf hstalef hrel]
    exact hres

/-- Main correctness of the `dijkstra` loop with no target: the returned
distance dictionary stores the minimum walk cost of every reachable node and
`+infinity` for every unreachable node of the graph. -/
theorem dijkstraLoop_correct_none (g : Graph) (s : String) (hwf : WfGraph g) :
    ∀ dist prev pq, ∀ S : List String, DijkCore g s S dist prev pq →
      SettledClosed g S dist →
      ∃ d, dijkstraLoop g none dist prev pq = .distMap d ∧
        d.map Prod.fst = g.nodes_list ∧
        ∀ x, (∀ w, IsMinW g s x w → alookup d x = some (some w)) ∧
          (¬ ReachableW g s x → x ∈ g.nodes_list → alookup d x = some none) := by
  intro dist prev pq
  induction dist, prev, pq using dijkstraLoop.induct g none with
  | case1 dist prev pq hpop htru => cases htru
  | case2 dist prev pq hpop htru =>
    intro S hcore hclosed
    have hpq : pq = [] := popMin_eq_none.mp hpop
    refine ⟨dist, ?_, hcore.dist_keys, ?_⟩
    · rw [dijkstraLoop_empty g none dist prev hpop, if_neg htru]
    · intro x
      constructor
      · intro w hw
        have hxS : x ∈ S := by
          by_contra hxS
          obtain ⟨y, dy, hymem, _, _⟩ := dijk_crossing hcore hclosed hw.1 hxS
          rw [hpq] at hymem
          cases hymem
        obtain ⟨dx, hdx, hdxm⟩ := hcore.settled_min x hxS
        rw [minW_unique hw hdxm]
        exact hdx
      · intro hnr hxl
        have hkey : x ∈ dist.map Prod.fst := by
          rw [hcore.dist_keys]
          exact hxl
        have hsome := alookup_isSome_of_mem_keys hkey
        cases hv : alookup dist x with
        | none =>
          rw [hv] at hsome
          cases hsome
        | some v =>
          cases v with
          | none => rfl
          | some dx => exact absurd ⟨dx, hcore.sound x dx hv⟩ hnr
  | case3 dist prev pq cd cur rest hpop htar =>
    rw [isTarget_none] at htar
    cases htar
  | case4 dist prev pq cd cur rest hpop htar hstale ih =>
    intro S hcore hclosed
    obtain ⟨d, hd1, hd2, hd3⟩ := ih S (dijk_stale_preserve hcore hpop hstale) hclosed
    refine ⟨d, ?_, hd2, hd3⟩
    rw [dijkstraLoop_stale g none dist prev hpop (isTarget_none cur) hstale]
    exact hd1
  | case5 dist prev pq cd cur rest hpop htar hstale dist' prev' pq' hrel ih =>
    intro S hcore hclosed
    have hstalef : staleCheck dist cur cd = false := Bool.eq_false_iff.mpr hstale
    obtain ⟨hdc, hcnS, hmin⟩ := dijk_settle hcore hclosed hpop hstalef
    have hmid0 := dijk_extend hcore hclosed hpop hdc hcnS hmin
    have hmid := relax_pass hwf (adjacencyGet g cur) dist prev rest hmid0
    rw [hrel] at hmid
    obtain ⟨hcore2, hclosed2⟩ := midDijk_final hmid
    obtain ⟨d, hd1, hd2, hd3⟩ := ih (S ++ [cur]) hcore2 hclosed2
    refine ⟨d, ?_, hd2, hd3⟩
    rw [dijkstraLoop_relax g none hpop (isTarget_none cur) hstalef hrel]
    exact hd1

/-- The state `dijkstra` enters its loop with satisfies the invariant. -/
theorem dijkInv_init (g : Graph) (s : String) (hwf : WfGraph g)
    (hs : amem g.nodes s = true) :
    DijkCore g s []
      (aset (g.nodes_list.map (fun n => (n, (none : Option Nat)))) s (some 0))
      (g.nodes_list.map (fun n => (n, (none : Option String)))) [(0, s)] ∧
    SettledClosed g []
      (aset (g.nodes_list.map (fun n => (n, (none : Option Nat)))) s (some 0)) := by
  have hsl : s ∈ g.nodes_list := by
    have h1 : s ∈ g.nodes.map Prod.fst := amem_iff_mem_keys.mp hs
    rw [hwf.1, List.map_map] at h1
    obtain ⟨a, ha⟩ : ∃ a, (a, s) ∈ g.nodes_list.enum := by simpa using h1
    have h2 := List.mem_map_of_mem Prod.snd ha
    rw [List.enum_map_snd] at h2
    exact h2
  have hbase : s ∈ (g.nodes_list.map
      (fun n => (n, (none : Option Nat)))).map Prod.fst := by
    rw [map_fst_map_pair]
    exact hsl
  have hlook : ∀ x, x ≠ s →
      alookup (aset (g.nodes_list.map (fun n => (n, (none : Option Nat)))) s
        (some 0)) x
      = alookup (g.nodes_list.map (fun n => (n, (none : Option Nat)))) x :=
    fun x hx => alookup_aset_ne _ (some 0) hx
  refine ⟨?_, fun u hu => absurd hu (List.not_mem_nil u)⟩
  refine
    { dist_keys := by
        rw [aset_map_fst_of_mem hbase, map_fst_map_pair]
      prev_keys := map_fst_map_pair g.nodes_list none
      start_dist := alookup_aset_self _ s (some 0)
      start_prev := alookup_map_const_of_mem hsl none
      sound := ?_
      chain := ?_
      settled_min := fun x hx => absurd hx (List.not_mem_nil x)
      settled_order := fun x hx => absurd hx (List.not_mem_nil x)
      settled_nodup := List.nodup_nil
      pq_dom := ?_
      pq_settled := ?_
      pq_fresh := ?_ }
  · intro x dx hdx
    rcases eq_or_ne x s with rfl | hne
    · rw [alookup_aset_self] at hdx
      injection hdx with h1
      injection h1 with h1
      exact h1 ▸ WWalk.refl
    · rw [hlook x hne] at hdx
      by_cases hxl : x ∈ g.nodes_list
      · rw [alookup_map_const_of_mem hxl] at hdx
        injection hdx with h1
        cases h1
      · rw [alookup_map_const_of_not_mem hxl] at hdx
        cases hdx
  · intro x dx hdx hxs
    exfalso
    rw [hlook x hxs] at hdx
    by_cases hxl : x ∈ g.nodes_list
    · rw [alookup_map_const_of_mem hxl] at hdx
      injection hdx with h1
      cases h1
    · rw [alookup_map_const_of_not_mem hxl] at hdx
      cases hdx
  · intro e he
    rw [List.mem_singleton.mp he]
    exact ⟨0, alookup_aset_self _ s (some 0), Nat.le_refl 0⟩
  · intro e he heS
    exact absurd heS (List.not_mem_nil e.2)
  · intro cc hcc dcc hdcc
    rcases eq_or_ne cc s with rfl | hne
    · rw [alookup_aset_self] at hdcc
      injection hdcc with h1
      injection h1 with h1
      rw [← h1, pcount_cons, if_pos rfl, pcount_nil]
    · exfalso
      rw [hlook cc hne] at hdcc
      by_cases hxl : cc ∈ g.nodes_list
      · rw [alookup_map_const_of_mem hxl] at hdcc
        injection hdcc with h1
        cases h1
      · rw [alookup_map_const_of_not_mem hxl] at hdcc
        cases hdcc

theorem dijkstra_guard {g : Graph} {s : String} (tn : Option String)
    (hs : amem g.nodes s = true) :
    g.dijkstra s tn = dijkstraLoop g tn
      (aset (g.nodes_list.map (fun n => (n, (none : Option Nat)))) s (some 0))
      (g.nodes_list.map (fun n => (n, (none : Option String)))) [(0, s)] := by
  unfold Graph.dijkstra
  simp [hs]

/-- C3.  On a well-formed graph (edge weights are `Nat`, hence non-negative)
with the start node present: with a nonempty target label, `dijkstra`
returns a path from start to target of minimum total walk weight whenever
the target is reachable along adjacency-list edges, and the absent result
(`None`) when it is unreachable (never popped); with no target it returns
the full distance mapping, in which every reachable node is mapped to its
minimum walk weight and every unreachable node of the graph retains
`+infinity`. -/
theorem dijkstra_min_weight (g : Graph) (s t : String) (hwf : WfGraph g)
    (hs : amem g.nodes s = true) (ht : t ≠ "") :
    (ReachableW g s t →
      ∃ p w, g.dijkstra s (some t) = .path p ∧ p.head? = some s ∧
        p.getLast? = some t ∧ WListWalk g p w ∧ IsMinW g s t w ∧ p.Nodup) ∧
    (¬ ReachableW g s t → g.dijkstra s (some t) = .absent) ∧
    (∃ d, g.dijkstra s none = .distMap d ∧ d.map Prod.fst = g.nodes_list ∧
      ∀ x, (∀ w, IsMinW g s x w → alookup d x = some (some w)) ∧
        (¬ ReachableW g s x → x ∈ g.nodes_list → alookup d x = some none)) := by
  obtain ⟨hcore0, hclosed0⟩ := dijkInv_init g s hwf hs
  have htgt := dijkstraLoop_correct_target g s t hwf ht _ _ _ []
    hcore0 hclosed0 (List.not_mem_nil t)
  have hnone := dijkstraLoop_correct_none g s hwf _ _ _ [] hcore0 hclosed0
  refine ⟨?_, ?_, ?_⟩
  · intro hreach
    rw [dijkstra_guard (some t) hs]
    exact htgt.1 hreach
  · intro hnr
    rw [dijkstra_guard (some t) hs]
    exact htgt.2 hnr
  · rw [dijkstra_guard none hs]
    exact hnone

set_option maxRecDepth 8000 in
/-- The C3 theorem instantiated on the four-node scenario graph: `dijkstra`
from `A` to the reachable node `D` returns a minimal-weight path. -/
theorem dijkstra_min_weight_witness :
    WfGraph gSpec ∧ amem gSpec.nodes "A" = true ∧ ("D" : String) ≠ "" ∧
      (∃ p w, gSpec.dijkstra "A" (some "D") = .path p ∧ p.head? = some "A" ∧
        p.getLast? = some "D" ∧ WListWalk gSpec p w ∧
        IsMinW gSpec "A" "D" w ∧ p.Nodup) := by
  have hw2 : WWalk gSpec "A" "C" 1 :=
    @WWalk.step gSpec "A" "A" "C" 0 1 WWalk.refl (by decide)
  have hw5 : WWalk gSpec "A" "D" 5 :=
    @WWalk.step gSpec "A" "C" "D" 1 4 hw2 (by decide)
  exact ⟨by decide, by decide, by decide,
    (dijkstra_min_weight gSpec "A" "D" (by decide) (by decide) (by decide)).1
      ⟨5, hw5⟩⟩

/-! ## C1: the three-point route total against the Dijkstra weights -/

/-- Occurrence count of a label in a vertex list. -/
def scount (l : List String) (a : String) : Nat :=
  (l.filter (fun x => x = a)).length

theorem scount_cons (b : String) (l : List String) (a : String) :
    scount (b :: l) a = (if b = a then 1 else 0) + scount l a := by
  by_cases h : b = a <;> simp [scount, h, Nat.add_comm]

theorem scount_append (l1 l2 : List String) (a : String) :
    scount (l1 ++ l2) a = scount l1 a + scount l2 a := by
  simp [scount, List.filter_append]

theorem scount_eq_zero_of_not_mem {l : List String} {a : String} (h : a ∉ l) :
    scount l a = 0 := by
  induction l with
  | nil => rfl
  | cons b tl ih =>
    have h1 : b ≠ a := fun he => h (he ▸ List.mem_cons_self b tl)
    have h2 : a ∉ tl := fun hm => h (List.mem_cons_of_mem _ hm)
    rw [scount_cons, if_neg h1, ih h2]

theorem scount_eq_one_of_nodup_mem {l : List String} {a : String}
    (hnd : l.Nodup) (h : a ∈ l) : scount l a = 1 := by
  induction l with
  | nil => cases h
  | cons b tl ih =>
    obtain ⟨hb, htl⟩ := List.nodup_cons.mp hnd
    rcases List.mem_cons.mp h with rfl | hm
    · rw [scount_cons, if_pos rfl, scount_eq_zero_of_not_mem hb]
    · have hne : b ≠ a := fun he => hb (he ▸ hm)
      rw [scount_cons, if_neg hne, ih htl hm]

theorem mem_of_getLast_eq {l : List String} {a : String}
    (h : l.getLast? = some a) : a ∈ l := by
  induction l with
  | nil => cases h
  | cons b t ih =>
    cases t with
    | nil =>
      simp only [List.getLast?_singleton, Option.some_inj] at h
      exact List.mem_singleton.mpr h.symm
    | cons c cs =>
      rw [List.getLast?_cons_cons] at h
      exact List.mem_cons_of_mem b (ih h)

/-- The matrix and the adjacency list agree: every stored list entry has the
same weight in the matrix, as read by `get_edge_weight`. -/
def MatrixListAgree (g : Graph) : Prop :=
  ∀ p ∈ g.adjacency_list, ∀ nb ∈ p.2, g.get_edge_weight p.1 nb.1 = some nb.2

instance (g : Graph) : Decidable (MatrixListAgree g) := by
  unfold MatrixListAgree
  infer_instance

theorem agree_get {g : Graph} (h : MatrixListAgree g) {a : String}
    {nb : String × Nat} (hnb : nb ∈ adjacencyGet g a) :
    g.get_edge_weight a nb.1 = some nb.2 := by
  unfold adjacencyGet at hnb
  cases hl : alookup g.adjacency_list a with
  | none =>
    rw [hl] at hnb
    simp at hnb
  | some l =>
    rw [hl] at hnb
    simp only [Option.getD_some] at hnb
    exact h (a, l) (alookup_eq_some_mem hl) nb hnb

/-- When matrix and list agree, the router's edge-weight summation along a
weighted adjacency-list walk computes exactly the walk cost. -/
theorem routeTotal_eq_cost {g : Graph} (h : MatrixListAgree g) :
    ∀ {l : List String} {w : Nat}, WListWalk g l w → routeTotal g l = w := by
  intro l w hw
  induction hw with
  | single u => rfl
  | @cons u v rest wt c hedge htail ih =>
    show (g.get_edge_weight u v).getD 0 + routeTotal g (v :: rest) = wt + c
    have hag := agree_get h hedge
    dsimp only at hag
    rw [hag, ih]
    rfl

/-- Gluing two weighted list walks at a shared endpoint. -/
theorem wlistwalk_glue {g : Graph} :
    ∀ {l1 : List String} {w1 : Nat}, WListWalk g l1 w1 →
      ∀ {x : String} {t2 : List String} {w2 : Nat}, l1.getLast? = some x →
      WListWalk g (x :: t2) w2 → WListWalk g (l1 ++ t2) (w1 + w2) := by
  intro l1 w1 h1
  induction h1 with
  | single u =>
    intro x t2 w2 hl h2
    simp only [List.getLast?_singleton, Option.some_inj] at hl
    subst hl
    exact wlistwalk_cast h2 (by omega)
  | @cons u v rest wt c hedge htail ih =>
    intro x t2 w2 hl h2
    rw [List.getLast?_cons_cons] at hl
    exact wlistwalk_cast (WListWalk.cons hedge (ih hl h2)) (by omega)

set_option maxRecDepth 2000 in
/-- C1 (amended).  On a well-formed graph whose adjacency matrix agrees with
its adjacency list, with the three labels present, the pickup and
destination labels nonempty, and both legs reachable,
`shortest_path_three_points` succeeds, its total distance equals
`dijkstra_weight(origin, pickup) + dijkstra_weight(pickup, destination)`
exactly, and the concatenated path contains the pickup label exactly once.
Without matrix-list agreement the claim fails (see the counterexample on a
graph where `add_edge` was called twice). -/
theorem route_total_equals_dijkstra_weights (g : Graph)
    (origin pickup dest : String) (hwf : WfGraph g)
    (hagree : MatrixListAgree g) (ho : amem g.nodes origin = true)
    (hp : amem g.nodes pickup = true) (hd : amem g.nodes dest = true)
    (hpe : pickup ≠ "") (hde : dest ≠ "")
    (hr1 : ReachableW g origin pickup) (hr2 : ReachableW g pickup dest) :
    ∃ p1 p2 w1 w2,
      dijkstra_weight g origin pickup = some w1 ∧
      dijkstra_weight g pickup dest = some w2 ∧
      g.shortest_path_three_points origin pickup dest
        = .success (p1 ++ p2.drop 1) p1 p2 (w1 + w2)
            (origin ++ " → " ++ pickup ++ " → " ++ dest) ∧
      scount (p1 ++ p2.drop 1) pickup = 1 := by
  obtain ⟨hmw1, _, hdm1⟩ := dijkstra_min_weight g origin pickup hwf ho hpe
  obtain ⟨p1, w1, e1, h1head, h1last, h1walk, h1min, h1nd⟩ := hmw1 hr1
  obtain ⟨hmw2, _, hdm2⟩ := dijkstra_min_weight g pickup dest hwf hp hde
  obtain ⟨p2, w2, e2, h2head, h2last, h2walk, h2min, h2nd⟩ := hmw2 hr2
  obtain ⟨d1, hd1eq, hd1keys, hd1props⟩ := hdm1
  obtain ⟨d2, hd2eq, hd2keys, hd2props⟩ := hdm2
  have hw1val : dijkstra_weight g origin pickup = some w1 := by
    unfold dijkstra_weight
    rw [hd1eq]
    dsimp only
    rw [(hd1props pickup).1 w1 h1min]
    rfl
  have hw2val : dijkstra_weight g pickup dest = some w2 := by
    unfold dijkstra_weight
    rw [hd2eq]
    dsimp only
    rw [(hd2props dest).1 w2 h2min]
    rfl
  obtain ⟨t2, rfl⟩ : ∃ t2, p2 = pickup :: t2 := by
    cases p2 with
    | nil => simp at h2head
    | cons a t =>
      simp only [List.head?_cons, Option.some_inj] at h2head
      exact ⟨t, by rw [h2head]⟩
  have hglue : WListWalk g (p1 ++ t2) (w1 + w2) :=
    wlistwalk_glue h1walk h1last h2walk
  have htot : routeTotal g (p1 ++ t2) = w1 + w2 := routeTotal_eq_cost hagree hglue
  have hc1 : scount p1 pickup = 1 :=
    scount_eq_one_of_nodup_mem h1nd (mem_of_getLast_eq h1last)
  have hc2 : scount t2 pickup = 0 :=
    scount_eq_zero_of_not_mem (List.nodup_cons.mp h2nd).1
  have hp1ne : p1.isEmpty = false := by
    cases p1 with
    | nil => simp at h1head
    | cons a t => rfl
  refine ⟨p1, pickup :: t2, w1, w2, hw1val, hw2val, ?_, ?_⟩
  · unfold Graph.shortest_path_three_points
    rw [ho, hp, hd, e1, e2]
    simp only [Bool.not_true, Bool.false_eq_true, if_false, dijkFalsy, hp1ne,
      List.isEmpty_cons, List.drop_succ_cons, List.drop_zero]
    rw [htot]
  · rw [List.drop_succ_cons, List.drop_zero, scount_append, hc1, hc2]

set_option maxRecDepth 8000 in
/-- The amended C1 theorem instantiated on the four-node scenario graph:
routing `A → C → D` succeeds with total distance the sum of the two
Dijkstra leg weights and a concatenated path containing the pickup once. -/
theorem route_total_equals_dijkstra_weights_witness :
    WfGraph gSpec ∧ MatrixListAgree gSpec ∧
      (∃ p1 p2 w1 w2,
        dijkstra_weight gSpec "A" "C" = some w1 ∧
        dijkstra_weight gSpec "C" "D" = some w2 ∧
        gSpec.shortest_path_three_points "A" "C" "D"
          = .success (p1 ++ p2.drop 1) p1 p2 (w1 + w2)
              ("A" ++ " → " ++ "C" ++ " → " ++ "D") ∧
        scount (p1 ++ p2.drop 1) "C" = 1) := by
  have hw1 : WWalk gSpec "A" "C" 1 :=
    @WWalk.step gSpec "A" "A" "C" 0 1 WWalk.refl (by decide)
  have hw2 : WWalk gSpec "C" "D" 4 :=
    @WWalk.step gSpec "C" "C" "D" 0 4 WWalk.refl (by decide)
  exact ⟨by decide, by decide,
    route_total_equals_dijkstra_weights gSpec "A" "C" "D" (by decide)
      (by decide) (by decide) (by decide) (by decide) (by decide) (by decide)
      ⟨1, hw1⟩ ⟨4, hw2⟩⟩

end Grafos
